import Mathlib

/-!
# Verification of `run_munkres_algorithm` (src/code/munkres_algorithm.cpp)

Shallow embedding of the assignment solver.  Machine `int` values are modelled by `Int`;
every function that adds or subtracts takes the map `w` that says how a result is stored:
`exact_int` for exact integer arithmetic, `wrap_int32` for the 32-bit two's complement
`int` (signed overflow is undefined behaviour in the source; wraparound is what the usual
targets compute).  The sentinel `std::numeric_limits<int>::max()` is the constant `INT_MAX`.
A matrix or vector is modelled by its index function; only indices below the dimension
are ever read.  The three `while` loops are modelled by recursion on a fuel counter, and
the sentinel index `-1` returned by the search helpers is `none`.
-/

namespace Munkres

/-- Modelled from the spec: the matrix container `Matrix<T>` consumed and produced by the
solver (its header is not among the sources): a row count, a column count and element read
access by (row, column) index. -/
structure Matrix (α : Type) where
  nrows : Nat
  ncols : Nat
  get : Nat → Nat → α

/-- Ways in which a run can fail to return a mask. -/
inductive Error where
  /-- The exception `std::invalid_argument` thrown by the shape check. -/
  | invalid_argument (what : String)
  /-- The index `-1` was used to access the mask (undefined behaviour in the source). -/
  | out_of_range
  /-- The loop did not finish within the given number of iterations. -/
  | out_of_fuel
deriving DecidableEq, Repr

/-- The constant `std::numeric_limits<int>::max()`. -/
def INT_MAX : Int := 2147483647

/-- Exact integer arithmetic: a result is stored as it is. -/
def exact_int (x : Int) : Int := x

/-- The arithmetic of a 32-bit two's complement `int`: the result `x` is stored modulo
`2^32`, between `-2^31` and `2^31 - 1`. -/
def wrap_int32 (x : Int) : Int :=
  (x + 2147483648) % 4294967296 - 2147483648

/-- The solver's mutable local variables: working costs `c`, the `mask`
(0 = none, 1 = starred, 2 = primed) and the two cover vectors. -/
structure State where
  c : Nat → Nat → Int
  mask : Nat → Nat → Int
  row_covered : Nat → Bool
  col_covered : Nat → Bool

/-- Assignment `v[i] = x` on a vector. -/
def set1 {α : Type} (v : Nat → α) (i : Nat) (x : α) : Nat → α :=
  fun a => if a = i then x else v a

/-- Assignment `m(i, j) = x` on a matrix. -/
def set2 {α : Type} (m : Nat → Nat → α) (i j : Nat) (x : α) : Nat → Nat → α :=
  fun a b => if a = i ∧ b = j then x else m a b

/-- The value `*std::min_element(row.begin(), row.end())` of a row of length `n`. -/
def min_element (n : Nat) (row : Nat → Int) : Int :=
  (List.range n).foldl (fun m j => if row j < m then row j else m) (row 0)

/-- Lines 27-32: subtract from every row its minimum. -/
def row_reduce (w : Int → Int) (n : Nat) (c : Nat → Nat → Int) : Nat → Nat → Int :=
  fun i j => w (c i j - min_element n (c i))

/-- Lines 37-39: the minimum of column `j`, starting from `INT_MAX`. -/
def col_min (n : Nat) (c : Nat → Nat → Int) (j : Nat) : Int :=
  (List.range n).foldl (fun m i => min m (c i j)) INT_MAX

/-- Lines 34-42: subtract from every column its minimum. -/
def col_reduce (w : Int → Int) (n : Nat) (c : Nat → Nat → Int) : Nat → Nat → Int :=
  fun i j => w (c i j - col_min n c j)

/-- Lines 49-55: the body of the initial starring loop at cell `(i, j)`. -/
def star_cell (s : State) (i j : Nat) : State :=
  if s.c i j = 0 ∧ s.row_covered i = false ∧ s.col_covered j = false then
    { s with mask := set2 s.mask i j 1,
             row_covered := set1 s.row_covered i true,
             col_covered := set1 s.col_covered j true }
  else s

/-- Lines 44-57: star zeros in row-major order, using the covers as "already starred". -/
def initial_stars (n : Nat) (s : State) : State :=
  (List.range n).foldl (fun s i => (List.range n).foldl (fun s j => star_cell s i j) s) s

/-- Lines 63-74: a column is covered exactly when it contains a starred cell. -/
def cover_columns_with_stars (n : Nat) (s : State) : State :=
  { s with col_covered := fun j => (List.range n).any (fun i => decide (s.mask i j = 1)) }

/-- Lines 79-81: `std::count(col_covered, true) == n`. -/
def all_columns_covered (n : Nat) (s : State) : Bool :=
  ((List.range n).map s.col_covered).count true == n

/-- Lines 84-96: the first uncovered zero in row-major order (`none` for `{-1, -1}`). -/
def find_a_zero (n : Nat) (s : State) : Option (Nat × Nat) :=
  (List.range n).findSome? (fun i =>
    if s.row_covered i then none
    else ((List.range n).find? (fun j => !s.col_covered j && decide (s.c i j = 0))).map
      (fun j => (i, j)))

/-- Lines 99-104: the column of the first starred cell in row `r`. -/
def find_star_in_row (n : Nat) (s : State) (r : Nat) : Option Nat :=
  (List.range n).find? (fun j => decide (s.mask r j = 1))

/-- Lines 107-113: the row of the first starred cell in column `c_`. -/
def find_star_in_col (n : Nat) (s : State) (c_ : Nat) : Option Nat :=
  (List.range n).find? (fun i => decide (s.mask i c_ = 1))

/-- Lines 116-122: the column of the first primed cell in row `r`. -/
def find_prime_in_row (n : Nat) (s : State) (r : Nat) : Option Nat :=
  (List.range n).find? (fun j => decide (s.mask r j = 2))

/-- Lines 125-131: every primed cell becomes unmarked. -/
def clear_primes (mask : Nat → Nat → Int) : Nat → Nat → Int :=
  fun i j => if mask i j = 2 then 0 else mask i j

/-- Lines 137-140: the body of `augment_path` at one path cell. -/
def flip_cell (mask : Nat → Nat → Int) (p : Nat × Nat) : Nat → Nat → Int :=
  if mask p.1 p.2 = 1 then set2 mask p.1 p.2 0
  else if mask p.1 p.2 = 2 then set2 mask p.1 p.2 1
  else mask

/-- Lines 134-142: walk the path in order, unstarring stars and starring primes. -/
def augment_path (mask : Nat → Nat → Int) (path : List (Nat × Nat)) : Nat → Nat → Int :=
  path.foldl flip_cell mask

/-- Lines 150-157: the smallest uncovered working cost, starting from `INT_MAX`. -/
def min_uncovered (n : Nat) (s : State) : Int :=
  (List.range n).foldl (fun m i =>
    if s.row_covered i then m
    else (List.range n).foldl (fun m j =>
      if s.col_covered j = false ∧ s.c i j < m then s.c i j else m) m) INT_MAX

/-- Lines 162-165: the new value of the cell `(i, j)`: add `d` if its row is covered, then
subtract `d` if its column is not covered. -/
def adjust_cell (w : Int → Int) (d : Int) (s : State) (i j : Nat) : Int :=
  let x := if s.row_covered i then w (s.c i j + d) else s.c i j
  if s.col_covered j = false then w (x - d) else x

/-- Lines 158-167: add `d` to every cell of a covered row, then subtract `d` from every
cell of an uncovered column. -/
def adjust_by (w : Int → Int) (d : Int) (s : State) : State :=
  { s with c := fun i j => adjust_cell w d s i j }

/-- Lines 149-167: one pass of the matrix adjustment. -/
def adjust (w : Int → Int) (n : Nat) (s : State) : State :=
  adjust_by w (min_uncovered n s) s

/-- Lines 147-169: search for an uncovered zero, adjusting the matrix while there is none. -/
def search_zero (w : Int → Int) : Nat → Nat → State → Except Error (State × (Nat × Nat))
  | 0, _, _ => .error .out_of_fuel
  | fuel + 1, n, s =>
    match find_a_zero n s with
    | some z => .ok (s, z)
    | none => search_zero w fuel n (adjust w n s)

/-- Lines 186-195: extend the path from column `c_` until that column has no starred cell. -/
def build_path : Nat → Nat → State → Nat → List (Nat × Nat) → Except Error (List (Nat × Nat))
  | 0, _, _, _, _ => .error .out_of_fuel
  | fuel + 1, n, s, c_, path =>
    match find_star_in_col n s c_ with
    | none => .ok path
    | some star_row =>
      match find_prime_in_row n s star_row with
      | none => .error .out_of_range
      | some prime_col =>
        build_path fuel n s prime_col (path ++ [(star_row, c_), (star_row, prime_col)])

/-- Lines 172-204: prime the zero `z`; then either cover its row and uncover the column of
the star in that row, or augment along the alternating path that starts at `z`. -/
def handle_zero (fuel n : Nat) (s : State) (z : Nat × Nat) : Except Error State :=
  let s2 : State := { s with mask := set2 s.mask z.1 z.2 2 }
  match find_star_in_row n s2 z.1 with
  | some star_col =>
    .ok { s2 with row_covered := set1 s2.row_covered z.1 true,
                  col_covered := set1 s2.col_covered star_col false }
  | none =>
    match build_path fuel n s2 z.2 [z] with
    | .error e => .error e
    | .ok path =>
      .ok (cover_columns_with_stars n
        { s2 with mask := clear_primes (augment_path s2.mask path),
                  row_covered := fun _ => false,
                  col_covered := fun _ => false })

/-- Lines 146-204: the body of the outer `while` loop. -/
def loop_body (w : Int → Int) (fuel n : Nat) (s : State) : Except Error State :=
  match search_zero w fuel n s with
  | .error e => .error e
  | .ok (s1, z) => handle_zero fuel n s1 z

/-- Lines 145-205: the outer loop; `fuel` bounds the iterations of each inner loop and
`k` those of the outer loop. -/
def main_loop (w : Int → Int) (fuel n : Nat) : Nat → State → Except Error State
  | 0, _ => .error .out_of_fuel
  | k + 1, s =>
    if all_columns_covered n s then .ok s
    else
      match loop_body w fuel n s with
      | .error e => .error e
      | .ok s1 => main_loop w fuel n k s1

/-- Lines 14-76: the state on entry to the main loop. -/
def initial_state (w : Int → Int) (cost : Matrix Int) : State :=
  let n := cost.nrows
  let s := initial_stars n
    { c := col_reduce w n (row_reduce w n cost.get),
      mask := fun _ _ => 0,
      row_covered := fun _ => false,
      col_covered := fun _ => false }
  cover_columns_with_stars n
    { s with row_covered := fun _ => false, col_covered := fun _ => false }

/-- The function `run_munkres_algorithm`, for the arithmetic `w` and with a bound `fuel` on
the iterations of each of its loops. -/
def run_munkres_algorithm (w : Int → Int) (fuel : Nat) (cost : Matrix Int) :
    Except Error (Matrix Int) :=
  if cost.nrows ≠ cost.ncols then
    .error (.invalid_argument "Cost matrix must be square.")
  else
    match main_loop w fuel cost.nrows fuel (initial_state w cost) with
    | .error e => .error e
    | .ok s => .ok { nrows := cost.nrows, ncols := cost.nrows, get := s.mask }

/-! ## Specification-level definitions -/

/-- The sum of `cost(i, j)` over the cells of `mask` that hold 1. -/
def selected_cost (cost mask : Matrix Int) : Int :=
  ((List.range mask.nrows).map (fun i =>
    ((List.range mask.ncols).map (fun j =>
      if mask.get i j = 1 then cost.get i j else 0)).sum)).sum

/-- The cost of assigning row `i` to column `σ i`. -/
def assignment_cost {n : Nat} (cost : Matrix Int) (σ : Equiv.Perm (Fin n)) : Int :=
  ∑ i : Fin n, cost.get i (σ i)

/-- The selected cells of `mask` are the graph of the permutation `σ`. -/
def IsGraphOf {n : Nat} (mask : Matrix Int) (σ : Equiv.Perm (Fin n)) : Prop :=
  ∀ i j : Fin n, mask.get i j = 1 ↔ σ i = j

/-- The states of the main loop: on entry, after every matrix adjustment and after every
handled zero (cover step or augmentation). -/
inductive Reach (w : Int → Int) (cost : Matrix Int) : State → Prop where
  | init : Reach w cost (initial_state w cost)
  | adjust (s : State) : Reach w cost s → all_columns_covered cost.nrows s = false →
      find_a_zero cost.nrows s = none → Reach w cost (adjust w cost.nrows s)
  | handle (fuel : Nat) (s s1 : State) (z : Nat × Nat) : Reach w cost s →
      all_columns_covered cost.nrows s = false → find_a_zero cost.nrows s = some z →
      handle_zero fuel cost.nrows s z = .ok s1 → Reach w cost s1

/-- The value written by `augment_path` over a cell holding `x`. -/
def flip_val (x : Int) : Int :=
  if x = 1 then 0 else if x = 2 then 1 else x

/-- The mask in which exactly the cells of `path` are flipped. -/
def flipped (mask : Nat → Nat → Int) (path : List (Nat × Nat)) : Nat → Nat → Int :=
  fun i j => if (i, j) ∈ path then flip_val (mask i j) else mask i j

/-- The alternating sequence of starred and primed cells that the path loop appends when it
starts from column `c_`. -/
inductive Chain (n : Nat) (mask : Nat → Nat → Int) : Nat → List (Nat × Nat) → Prop where
  | nil (c_ : Nat) : (∀ i, i < n → mask i c_ ≠ 1) → Chain n mask c_ []
  | cons (c_ r c1 : Nat) (l : List (Nat × Nat)) : r < n → c1 < n → mask r c_ = 1 →
      mask r c1 = 2 → Chain n mask c1 l → Chain n mask c_ ((r, c_) :: (r, c1) :: l)

/-- The starred cells form a partial matching. -/
structure StarsOk (n : Nat) (mask : Nat → Nat → Int) : Prop where
  rowuniq : ∀ i j k, i < n → j < n → k < n → mask i j = 1 → mask i k = 1 → j = k
  coluniq : ∀ i k j, i < n → k < n → j < n → mask i j = 1 → mask k j = 1 → i = k

/-- The primed cells are ordered: the star in the column of a primed cell lies in a row
that was primed earlier. -/
def Ranked (n : Nat) (mask : Nat → Nat → Int) (rank : Nat → Nat) : Prop :=
  ∀ i j k, i < n → j < n → k < n → mask i j = 2 → mask k j = 1 → rank k < rank i

/-- The invariant of the main loop on the mask, the covers and the places of the zeros; it
does not depend on the arithmetic. -/
structure MaskInv (n : Nat) (s : State) : Prop where
  vals : ∀ i j, i < n → j < n → s.mask i j = 0 ∨ s.mask i j = 1 ∨ s.mask i j = 2
  zero : ∀ i j, i < n → j < n → s.mask i j ≠ 0 → s.c i j = 0
  stars : StarsOk n s.mask
  starcov : ∀ i j, i < n → j < n → s.mask i j = 1 →
    (s.col_covered j = true ↔ s.row_covered i = false)
  colcov : ∀ j, j < n → s.col_covered j = true → ∃ i, i < n ∧ s.mask i j = 1
  rowcov : ∀ i, i < n → s.row_covered i = true → ∃ j, j < n ∧ s.mask i j = 1
  rowprime : ∀ i, i < n → s.row_covered i = true → ∃ j, j < n ∧ s.mask i j = 2
  prime : ∀ i j, i < n → j < n → s.mask i j = 2 →
    s.row_covered i = true ∧ s.col_covered j = false
  ranked : ∃ (rank : Nat → Nat) (b : Nat),
    (∀ i, i < n → s.row_covered i = true → rank i < b) ∧ Ranked n s.mask rank
  free : (∀ j, j < n → s.col_covered j = true) ∨ ∃ i, i < n ∧ ∀ j, j < n → s.mask i j ≠ 1

/-- The invariant of the main loop in exact arithmetic, for the cost function `cost`: the
working costs are non-negative and differ from the costs by a row and a column potential. -/
structure Inv (n : Nat) (cost : Nat → Nat → Int) (s : State) extends MaskInv n s : Prop where
  nonneg : ∀ i j, i < n → j < n → 0 ≤ s.c i j
  pot : ∃ u v : Nat → Int, ∀ i j, i < n → j < n → s.c i j = cost i j - u i - v j

/-- The invariant of the main loop in the arithmetic `w`: every working cost is a stored
value. -/
structure StoredInv (w : Int → Int) (n : Nat) (s : State) extends MaskInv n s : Prop where
  stored : ∀ i j, i < n → j < n → w (s.c i j) = s.c i j

/-- What the invariants need of an arithmetic: storing is idempotent and keeps 0 and
`INT_MAX`. -/
structure Storing (w : Int → Int) : Prop where
  idem : ∀ x, w (w x) = w x
  zero : w 0 = 0
  max : w INT_MAX = INT_MAX

/-- An arithmetic whose stored values do not exceed `INT_MAX`. -/
structure Bounded (w : Int → Int) extends Storing w : Prop where
  le : ∀ x, w x ≤ INT_MAX

/-- The arithmetic `w` stores every value between 0 and `B` as it is. -/
def FixesTo (w : Int → Int) (B : Int) : Prop :=
  ∀ x, 0 ≤ x → x ≤ B → w x = x

/-- A property of the loop states that is kept by the adjustment and by the handling of a
zero, and from which the search for a zero terminates. -/
structure Preserved (w : Int → Int) (n : Nat) (P : State → Prop) : Prop where
  mask : ∀ s, P s → MaskInv n s
  adjust : ∀ s, P s → all_columns_covered n s = false → find_a_zero n s = none →
    P (adjust w n s)
  handle : ∀ s s1, P s → MaskInv n s1 → s1.c = s.c →
    (∀ i j, i < n → j < n → s.mask i j = 1 → ∃ k, k < n ∧ s1.mask i k = 1) → P s1
  search : ∀ s, P s → all_columns_covered n s = false →
    ∃ fuel r, search_zero w fuel n s = .ok r

/-- The number of rows that hold a starred cell. -/
def starred_rows (n : Nat) (s : State) : Nat :=
  (List.range n).countP (fun i => (find_star_in_row n s i).isSome)

/-- The number of covered rows. -/
def covered_rows (n : Nat) (s : State) : Nat :=
  (List.range n).countP (fun i => s.row_covered i)

/-- The termination measure of the outer loop. -/
def loop_measure (n : Nat) (s : State) : Nat :=
  (n - starred_rows n s) * (n + 1) + (n - covered_rows n s)

/-- What is known about an uncovered zero `z` returned by the search. -/
structure ZeroAt (n : Nat) (s : State) (z : Nat × Nat) : Prop where
  lt1 : z.1 < n
  lt2 : z.2 < n
  row : s.row_covered z.1 = false
  col : s.col_covered z.2 = false
  zero : s.c z.1 z.2 = 0

/-- The invariant of the initial starring loop over the working costs `c0`. -/
structure StarInv (n : Nat) (c0 : Nat → Nat → Int) (s : State) : Prop where
  cost : s.c = c0
  vals : ∀ i j, i < n → j < n → s.mask i j = 0 ∨ s.mask i j = 1
  zero : ∀ i j, i < n → j < n → s.mask i j = 1 → s.c i j = 0
  stars : StarsOk n s.mask
  cov : ∀ i j, i < n → j < n → s.mask i j = 1 →
    s.row_covered i = true ∧ s.col_covered j = true

/-- The matrix with the given rows. -/
def of_rows (rows : List (List Int)) : Matrix Int :=
  { nrows := rows.length, ncols := (rows.headD []).length,
    get := fun i j => (rows.getD i []).getD j 0 }

/-- The cells of a matrix, row by row. -/
def to_rows (m : Matrix Int) : List (List Int) :=
  (List.range m.nrows).map (fun i => (List.range m.ncols).map (fun j => m.get i j))

/-- The cost matrix of the example in the specification. -/
def example_cost : Matrix Int := of_rows [[4, 1, 3], [2, 0, 5], [3, 2, 2]]

/-- The state of the example run after its first zero `(2, 2)` has been primed, row 2
covered and column 0 uncovered. -/
def example_state (w : Int → Int) : State :=
  { c := (initial_state w example_cost).c,
    mask := set2 (initial_state w example_cost).mask 2 2 2,
    row_covered := set1 (initial_state w example_cost).row_covered 2 true,
    col_covered := set1 (initial_state w example_cost).col_covered 0 false }

/-- A cost matrix on which the first handled zero lies in a row that holds a star. -/
def cover_cost : Matrix Int := of_rows [[0, 0], [0, 1]]

/-- The state of the run on `cover_cost` after its first zero `(0, 1)` has been primed, row 0
covered and column 0 uncovered. -/
def cover_state (w : Int → Int) : State :=
  { c := (initial_state w cover_cost).c,
    mask := set2 (initial_state w cover_cost).mask 0 1 2,
    row_covered := set1 (initial_state w cover_cost).row_covered 0 true,
    col_covered := set1 (initial_state w cover_cost).col_covered 0 false }

/-- The `n × n` matrix whose entries all equal `v`. -/
def uniform (n : Nat) (v : Int) : Matrix Int :=
  { nrows := n, ncols := n, get := fun _ _ => v }

/-- The message of the exception thrown by the shape check. -/
def not_square : String := "Cost matrix must be square."

/-- The potentials of the working matrix, for costs between 0 and `M`: the working costs are
the costs minus a row potential `u` and a column potential `v`, no column potential is
negative, no row without a star has a negative potential, and no entry exceeds `2 * M`. -/
def PotInv (n : Nat) (cost : Nat → Nat → Int) (M : Int) (s : State) : Prop :=
  ∃ u v : Nat → Int,
    (∀ i j, i < n → j < n → s.c i j = cost i j - u i - v j) ∧
    (∀ j, j < n → 0 ≤ v j) ∧
    (∀ i, i < n → (∀ j, j < n → s.mask i j ≠ 1) → 0 ≤ u i) ∧
    (∀ i j, i < n → j < n → s.c i j ≤ 2 * M)

/-- A matrix of non-negative `int` costs on which the adjustment overflows. -/
def overflow_cost : Matrix Int :=
  of_rows [[0, 2147483647, 0], [2147483647, 0, 2147483647], [2147483647, 0, 2147483647]]

/-- The state of the run on `overflow_cost` after its first zero `(0, 2)` has been primed,
row 0 covered and column 0 uncovered. -/
def overflow_state : State :=
  { c := (initial_state wrap_int32 overflow_cost).c,
    mask := set2 (initial_state wrap_int32 overflow_cost).mask 0 2 2,
    row_covered := set1 (initial_state wrap_int32 overflow_cost).row_covered 0 true,
    col_covered := set1 (initial_state wrap_int32 overflow_cost).col_covered 0 false }

/-- The number of starred cells (value 1) of an `n × n` mask. -/
def star_count (n : Nat) (mask : Nat → Nat → Int) : Nat :=
  ((List.range n).map (fun i => (List.range n).countP (fun j => decide (mask i j = 1)))).sum

/-- The number of cells of `path` that hold the value `x` in `mask`. -/
def path_count (mask : Nat → Nat → Int) (x : Int) (path : List (Nat × Nat)) : Nat :=
  path.countP (fun p => decide (mask p.1 p.2 = x))

/-- Lines 172-175: the state after the zero `z` has been primed. -/
def prime_zero (s : State) (z : Nat × Nat) : State :=
  { s with mask := set2 s.mask z.1 z.2 2 }

/-- Lines 174-179: whether the handling of the zero `z` takes the augmentation branch, that
is, whether `find_star_in_row` returns `-1` for the row of `z`. -/
def augments (n : Nat) (s : State) (z : Nat × Nat) : Bool :=
  (find_star_in_row n (prime_zero s z) z.1).isNone

/-- Lines 145-205: the outer loop of `main_loop`, with a counter `a` of the augmentation
branches taken so far. -/
def main_loop_count (w : Int → Int) (fuel n : Nat) :
    Nat → State → Nat → Except Error (State × Nat)
  | 0, _, _ => .error .out_of_fuel
  | k + 1, s, a =>
    if all_columns_covered n s then .ok (s, a)
    else
      match search_zero w fuel n s with
      | .error e => .error e
      | .ok (s1, z) =>
        match handle_zero fuel n s1 z with
        | .error e => .error e
        | .ok s2 => main_loop_count w fuel n k s2 (if augments n s1 z then a + 1 else a)

/-- A matrix of `int` costs of both signs on which the row reduction stays in the `int`
range. -/
def signed_cost : Matrix Int := of_rows [[-3, 5], [2147483647, 0]]

/-- The working matrix of the state `s`, as an `n × n` matrix. -/
def working (n : Nat) (s : State) : Matrix Int :=
  { nrows := n, ncols := n, get := s.c }

/-- Lines 27-42: the working matrix after the row and the column reduction, as a matrix. -/
def reduced (w : Int → Int) (cost : Matrix Int) : Matrix Int :=
  { nrows := cost.nrows, ncols := cost.nrows,
    get := col_reduce w cost.nrows (row_reduce w cost.nrows cost.get) }

/-- The sum of the row minima subtracted by the row reduction and of the column minima
subtracted by the column reduction, in exact arithmetic. -/
def reduction_constant (cost : Matrix Int) : Int :=
  ((List.range cost.nrows).map (fun i => min_element cost.nrows (cost.get i))).sum +
  ((List.range cost.nrows).map
    (fun j => col_min cost.nrows (row_reduce exact_int cost.nrows cost.get) j)).sum

/-- The permutation `σ` minimises the cost of an assignment on the matrix `m`. -/
def IsOptimal {n : Nat} (m : Matrix Int) (σ : Equiv.Perm (Fin n)) : Prop :=
  ∀ τ : Equiv.Perm (Fin n), assignment_cost m σ ≤ assignment_cost m τ

end Munkres

/-! # `minUnitsNeeded` (src/code/task2.cpp)

The greedy count of units needed to cover every position of a layout.  Machine `int` values
are modelled by `Int` (exact arithmetic), the `while` loop by recursion on a fuel counter. -/

namespace Task2

/-- Lines 26-31: the scan `for (i = R; i >= L; --i)` with `k` values of `i` left to visit,
the current one being `i`; it returns the first `i` with `layout[i] == unitType`, and `none`
when `bestHost` stays `-1`. -/
def scan_down (layout : List Int) (unitType : Int) : Nat → Int → Option Int
  | 0, _ => none
  | k + 1, i => if layout.getD i.toNat 0 = unitType then some i
    else scan_down layout unitType k (i - 1)

/-- Lines 20-31: the rightmost host between `L` and `R`. -/
def find_host (layout : List Int) (unitType L R : Int) : Option Int :=
  scan_down layout unitType (R - L + 1).toNat R

/-- Lines 18-39: the `while` loop, from the state `firstUncovered`, `unitsPlaced`; `none`
when the fuel runs out. -/
def place_units (layout : List Int) (unitType range : Int) : Nat → Int → Int → Option Int
  | 0, _, _ => none
  | fuel + 1, firstUncovered, unitsPlaced =>
    if firstUncovered < (layout.length : Int) then
      match find_host layout unitType (max 0 (firstUncovered - range + 1))
          (min ((layout.length : Int) - 1) (firstUncovered + range - 1)) with
      | none => some (-1)
      | some bestHost => place_units layout unitType range fuel (bestHost + range) (unitsPlaced + 1)
    else some unitsPlaced

/-- The function `minUnitsNeeded`, with a bound `fuel` on the iterations of its loop. -/
def minUnitsNeeded (fuel : Nat) (layout : List Int) (unitType range : Int) : Option Int :=
  if range ≤ 0 then some (-1) else place_units layout unitType range fuel 0 0

/-- The set `S` of positions is a set of hosts (`layout[i] == unitType`) whose units cover
every position `j` of the layout with `f <= j`, a unit at `i` covering the positions `j`
with `|i - j| < range`. -/
def CoversFrom (layout : List Int) (unitType range f : Int) (S : Finset Nat) : Prop :=
  (∀ i, i ∈ S → i < layout.length ∧ layout.getD i 0 = unitType) ∧
  ∀ j : Nat, f ≤ (j : Int) → j < layout.length → ∃ i, i ∈ S ∧ |(i : Int) - (j : Int)| < range

/-- The set `S` of hosts covers all positions of the layout. -/
def Covers (layout : List Int) (unitType range : Int) (S : Finset Nat) : Prop :=
  CoversFrom layout unitType range 0 S

end Task2

/-! # `bk` (src/code/task5.cpp)

The enumeration of the maximal cliques of a graph given by its adjacency matrix.  A
`std::set<int>` is modelled by the list of its elements in increasing order, the recursion by
a fuel counter that bounds its depth. -/

namespace Task5

/-- The type `Graph` of line 9: an adjacency matrix. -/
abbrev Graph := Munkres.Matrix Int

/-- The call `s.insert(x)` on a `std::set<int>`. -/
def set_insert (x : Nat) : List Nat → List Nat
  | [] => [x]
  | a :: l => if x < a then x :: a :: l else if x = a then a :: l else a :: set_insert x l

/-- Lines 58-59: `std::set_union` of two sets, inserted into a set. -/
def set_union (P X : List Nat) : List Nat :=
  X.foldl (fun acc x => set_insert x acc) P

/-- Lines 39-45: the set `N(v)` of the columns `j` with `G(v, j)` non-zero. -/
def neigh (G : Graph) (v : Nat) : List Nat :=
  (List.range G.ncols).filter (fun j => decide (G.get v j ≠ 0))

/-- Line 61: the number of `v` in `P` with `G(u, v)` non-zero. -/
def degree (G : Graph) (P : List Nat) (u : Nat) : Nat :=
  P.countP (fun v => decide (G.get u v ≠ 0))

/-- Lines 57-63: the pivot `u_best` (`none` for `-1`) and `bestDeg`. -/
def choose_pivot (G : Graph) (P PuX : List Nat) : Option Nat × Nat :=
  PuX.foldl (fun best u => if degree G P u > best.2 then (some u, degree G P u) else best)
    (none, 0)

/-- Line 64: the set `Nu`, the neighbours of the pivot, empty when there is no pivot. -/
def pivot_neigh (G : Graph) (u_best : Option Nat) : List Nat :=
  match u_best with
  | some u => neigh G u
  | none => []

/-- Lines 71-84: the body of the loop over the candidates, for the candidate `v`; `st` holds
`P`, `X` and `out`, and `call` is the recursive call of line 81. -/
def bk_step (G : Graph)
    (call : List Nat → List Nat → List Nat → List (List Nat) → Option (List (List Nat)))
    (R : List Nat) (st : Option (List Nat × List Nat × List (List Nat))) (v : Nat) :
    Option (List Nat × List Nat × List (List Nat)) :=
  match st with
  | none => none
  | some (P, X, out) =>
    match call (set_insert v R) (P.filter (fun x => decide (x ∈ neigh G v)))
        (X.filter (fun x => decide (x ∈ neigh G v))) out with
    | none => none
    | some out2 => some (P.filter (fun x => decide (x ≠ v)), set_insert v X, out2)

/-- Lines 48-85: the function `bk`; it returns the new value of `out`, and `none` when the
recursion is deeper than `fuel`. -/
def bk (G : Graph) :
    Nat → List Nat → List Nat → List Nat → List (List Nat) → Option (List (List Nat))
  | 0, _, _, _, _ => none
  | fuel + 1, R, P, X, out =>
    if P.isEmpty ∧ X.isEmpty then some (out ++ [R])
    else
      let Nu := pivot_neigh G (choose_pivot G P (set_union P X)).1
      let candidates := P.filter (fun v => decide (v ∉ Nu))
      (candidates.foldl (bk_step G (fun R2 P2 X2 o => bk G fuel R2 P2 X2 o) R)
        (some (P, X, out))).map (fun st => st.2.2)

/-- The vertices of `C` are pairwise adjacent. -/
def IsClique (G : Graph) (C : List Nat) : Prop :=
  ∀ a, a ∈ C → ∀ b, b ∈ C → a ≠ b → G.get a b ≠ 0

/-- The list `C` of vertices below `n` is a clique that no other vertex extends. -/
def IsMaximalClique (n : Nat) (G : Graph) (C : List Nat) : Prop :=
  (∀ a, a ∈ C → a < n) ∧ IsClique G C ∧
  ∀ v, v < n → v ∉ C → ∃ a, a ∈ C ∧ G.get v a = 0

/-- The vertex `v` is below `n`, is not in `R` and is adjacent to every vertex of `R`. -/
def CommonNeighbour (n : Nat) (G : Graph) (R : List Nat) (v : Nat) : Prop :=
  v < n ∧ v ∉ R ∧ ∀ a, a ∈ R → G.get v a ≠ 0

/-- What holds of the arguments of every call of `bk`: `R` is a clique, listed in increasing
order, `P` has no repetition, and `P` and `X` together hold the common neighbours of
`R`. -/
structure BKInv (n : Nat) (G : Graph) (R P X : List Nat) : Prop where
  sorted : R.Pairwise (· < ·)
  bound : ∀ a, a ∈ R → a < n
  clique : IsClique G R
  nodup : P.Nodup
  cand : ∀ v, (v ∈ P ∨ v ∈ X) ↔ CommonNeighbour n G R v

/-- The list `C` is a maximal clique, listed in increasing order, that contains `R` and is
contained in `R` and `P` together. -/
def Extends (n : Nat) (G : Graph) (R P C : List Nat) : Prop :=
  C.Pairwise (· < ·) ∧ IsMaximalClique n G C ∧ (∀ a, a ∈ R → a ∈ C) ∧
  ∀ a, a ∈ C → a ∈ R ∨ a ∈ P

/-- The adjacency matrix of the graph on the vertices 0, 1, 2, 3 with the edges 0-1, 0-2,
1-2 and 2-3. -/
def kite : Graph :=
  Munkres.of_rows [[0, 1, 1, 0], [1, 0, 1, 0], [1, 1, 0, 1], [0, 0, 1, 0]]

end Task5

/-! # `BloomFilter` (src/code/bloom_filter.hpp)

The class template `BloomFilter<Key, m, Hash>`.  The bit count `m` and the hash functor
`hash` (called as `hash key seed`) are parameters of the member functions; the bitset is
modelled by the function that tells whether a position is set. -/

namespace Bloom

/-- The data members `bits_` and `k_`. -/
structure BloomFilter where
  bits_ : Nat → Bool
  k_ : Nat

/-- Line 32: the constructor of the empty filter; a `num_hashes` of 0 is replaced by 1. -/
def BloomFilter.empty (num_hashes : Nat) : BloomFilter :=
  { bits_ := fun _ => false, k_ := if num_hashes ≠ 0 then num_hashes else 1 }

/-- Lines 54-58: the body of the loop of `insert` for the seed `i`, on the bits and the flag
`changed`. -/
def insert_step {Key : Type} (hash : Key → Nat → Nat) (m : Nat) (key : Key)
    (st : (Nat → Bool) × Bool) (i : Nat) : (Nat → Bool) × Bool :=
  if st.1 (hash key i % m) = false then
    (fun p => if p = hash key i % m then true else st.1 p, true)
  else st

/-- Lines 50-61: `insert`; it returns the new filter and the flag `changed`. -/
def BloomFilter.insert {Key : Type} (hash : Key → Nat → Nat) (m : Nat) (f : BloomFilter)
    (key : Key) : BloomFilter × Bool :=
  ({ f with bits_ := ((List.range f.k_).foldl (insert_step hash m key) (f.bits_, false)).1 },
    ((List.range f.k_).foldl (insert_step hash m key) (f.bits_, false)).2)

/-- Lines 65-71: `contains`. -/
def BloomFilter.contains {Key : Type} (hash : Key → Nat → Nat) (m : Nat) (f : BloomFilter)
    (key : Key) : Bool :=
  (List.range f.k_).all (fun i => f.bits_ (hash key i % m))

/-- Lines 35-39: the filter built from a list of items: the empty filter, then one `insert`
for every item in turn. -/
def BloomFilter.of_items {Key : Type} (hash : Key → Nat → Nat) (m : Nat) (items : List Key)
    (num_hashes : Nat) : BloomFilter :=
  items.foldl (fun f item => (f.insert hash m item).1) (BloomFilter.empty num_hashes)

/-- A hash function on natural-number keys, for the examples. -/
def sample_hash (key seed : Nat) : Nat := 7 * key + seed

end Bloom

namespace Munkres

/-! ## Basic facts about the search helpers -/

theorem all_columns_covered_iff (n : Nat) (s : State) :
    all_columns_covered n s = true ↔ ∀ j, j < n → s.col_covered j = true := by
  unfold all_columns_covered
  rw [beq_iff_eq]
  have h := @List.count_eq_length Bool _ _ true ((List.range n).map s.col_covered)
  rw [List.length_map, List.length_range] at h
  rw [h]
  constructor
  · intro hall j hj
    exact (hall _ (List.mem_map.mpr ⟨j, List.mem_range.mpr hj, rfl⟩)).symm
  · intro hall b hb
    obtain ⟨j, hj, rfl⟩ := List.mem_map.mp hb
    exact (hall j (List.mem_range.mp hj)).symm

theorem find_range_some {n : Nat} {p : Nat → Bool} {a : Nat}
    (h : (List.range n).find? p = some a) : a < n ∧ p a = true :=
  ⟨List.mem_range.mp (List.mem_of_find?_eq_some h), List.find?_some h⟩

theorem find_range_none {n : Nat} {p : Nat → Bool}
    (h : (List.range n).find? p = none) : ∀ a, a < n → p a = false := by
  intro a ha
  have := List.find?_eq_none.mp h a (List.mem_range.mpr ha)
  simpa using this

theorem find_range_isSome {n : Nat} {p : Nat → Bool} {a : Nat} (ha : a < n) (hp : p a = true) :
    ∃ b, (List.range n).find? p = some b := by
  cases h : (List.range n).find? p with
  | some b => exact ⟨b, rfl⟩
  | none => rw [find_range_none h a ha] at hp; cases hp

theorem find_a_zero_some {n : Nat} {s : State} {z : Nat × Nat} (h : find_a_zero n s = some z) :
    z.1 < n ∧ z.2 < n ∧ s.row_covered z.1 = false ∧ s.col_covered z.2 = false ∧
        s.c z.1 z.2 = 0 := by
  unfold find_a_zero at h
  obtain ⟨i, hi, hz⟩ := List.exists_of_findSome?_eq_some h
  by_cases hr : s.row_covered i = true
  · simp [hr] at hz
  · simp only [hr, Bool.false_eq_true, if_false, Option.map_eq_some'] at hz
    obtain ⟨j, hj, rfl⟩ := hz
    obtain ⟨hjn, hp⟩ := find_range_some hj
    simp only [Bool.and_eq_true, Bool.not_eq_true', decide_eq_true_eq] at hp
    exact ⟨List.mem_range.mp hi, hjn, by simpa using hr, hp.1, hp.2⟩

theorem find_a_zero_none {n : Nat} {s : State} (h : find_a_zero n s = none) :
    ∀ i j, i < n → j < n → s.row_covered i = false → s.col_covered j = false → s.c i j ≠ 0 := by
  intro i j hi hj hr hc h0
  unfold find_a_zero at h
  have := List.findSome?_eq_none_iff.mp h i (List.mem_range.mpr hi)
  simp only [hr, Bool.false_eq_true, if_false, Option.map_eq_none'] at this
  have h2 := find_range_none this j hj
  simp [hc, h0] at h2

theorem find_star_in_row_some {n : Nat} {s : State} {r j : Nat}
    (h : find_star_in_row n s r = some j) : j < n ∧ s.mask r j = 1 := by
  have := find_range_some h
  simpa using this

theorem find_star_in_row_none {n : Nat} {s : State} {r : Nat}
    (h : find_star_in_row n s r = none) : ∀ j, j < n → s.mask r j ≠ 1 := by
  intro j hj
  have := find_range_none h j hj
  simpa using this

theorem find_star_in_col_some {n : Nat} {s : State} {c_ i : Nat}
    (h : find_star_in_col n s c_ = some i) : i < n ∧ s.mask i c_ = 1 := by
  have := find_range_some h
  simpa using this

theorem find_star_in_col_none {n : Nat} {s : State} {c_ : Nat}
    (h : find_star_in_col n s c_ = none) : ∀ i, i < n → s.mask i c_ ≠ 1 := by
  intro i hi
  have := find_range_none h i hi
  simpa using this

theorem find_prime_in_row_some {n : Nat} {s : State} {r j : Nat}
    (h : find_prime_in_row n s r = some j) : j < n ∧ s.mask r j = 2 := by
  have := find_range_some h
  simpa using this

theorem find_prime_in_row_isSome {n : Nat} {s : State} {r j : Nat} (hj : j < n)
    (h : s.mask r j = 2) : ∃ j', find_prime_in_row n s r = some j' :=
  find_range_isSome (p := fun j => decide (s.mask r j = 2)) hj (by simpa using h)

theorem cover_columns_with_stars_col {n : Nat} {s : State} {j : Nat} :
    (cover_columns_with_stars n s).col_covered j = true ↔ ∃ i, i < n ∧ s.mask i j = 1 := by
  simp [cover_columns_with_stars, List.any_eq_true]

/-! ## Running minima -/

theorem foldl_le_init {f : Int → Nat → Int} (hf : ∀ m j, f m j ≤ m) (l : List Nat) (m : Int) :
    l.foldl f m ≤ m := by
  induction l generalizing m with
  | nil => exact le_refl _
  | cons a l ih => exact le_trans (ih (f m a)) (hf m a)

theorem foldl_le_of_mem {f : Int → Nat → Int} (hf : ∀ m j, f m j ≤ m) {x : Int} {a : Nat}
    (ha : ∀ m, f m a ≤ x) {l : List Nat} (hmem : a ∈ l) (m : Int) : l.foldl f m ≤ x := by
  induction l generalizing m with
  | nil => cases hmem
  | cons b l ih =>
    rcases List.mem_cons.mp hmem with rfl | h
    · exact le_trans (foldl_le_init hf l _) (ha m)
    · exact ih h _

theorem le_foldl {f : Int → Nat → Int} {lb : Int} {l : List Nat}
    (hf : ∀ m j, j ∈ l → lb ≤ m → lb ≤ f m j) {m : Int} (hm : lb ≤ m) : lb ≤ l.foldl f m := by
  induction l generalizing m with
  | nil => exact hm
  | cons a l ih =>
    exact ih (fun m j hj => hf m j (List.mem_cons_of_mem _ hj)) (hf m a (List.mem_cons_self _ _) hm)

theorem min_element_le {n : Nat} (row : Nat → Int) {j : Nat} (hj : j < n) :
    min_element n row ≤ row j := by
  unfold min_element
  refine foldl_le_of_mem ?_ ?_ (List.mem_range.mpr hj) _
  · intro m k; split <;> omega
  · intro m; split <;> omega

theorem row_reduce_nonneg {n : Nat} (c : Nat → Nat → Int) {i j : Nat} (hj : j < n) :
    0 ≤ row_reduce exact_int n c i j := by
  have := min_element_le (n := n) (c i) hj
  unfold row_reduce exact_int; omega

theorem col_min_le {n : Nat} (c : Nat → Nat → Int) {i : Nat} (j : Nat) (hi : i < n) :
    col_min n c j ≤ c i j := by
  unfold col_min
  refine foldl_le_of_mem ?_ ?_ (List.mem_range.mpr hi) _
  · intro m k; exact min_le_left _ _
  · intro m; exact min_le_right _ _

theorem col_min_nonneg {n : Nat} (c : Nat → Nat → Int) (j : Nat)
    (h : ∀ i, i < n → 0 ≤ c i j) : 0 ≤ col_min n c j := by
  unfold col_min
  apply le_foldl
  · intro m i hi hm; exact le_min hm (h i (List.mem_range.mp hi))
  · unfold INT_MAX; omega

theorem min_uncovered_le {n : Nat} (s : State) {i j : Nat} (hi : i < n) (hj : j < n)
    (hr : s.row_covered i = false) (hc : s.col_covered j = false) :
    min_uncovered n s ≤ s.c i j := by
  unfold min_uncovered
  have inner : ∀ (i : Nat) (m : Int), (List.range n).foldl (fun m j =>
      if s.col_covered j = false ∧ s.c i j < m then s.c i j else m) m ≤ m := by
    intro i m
    apply foldl_le_init
    intro m k; split
    · rename_i h; exact le_of_lt h.2
    · exact le_refl _
  refine foldl_le_of_mem ?_ ?_ (List.mem_range.mpr hi) _
  · intro m k; split
    · exact le_refl _
    · exact inner k m
  · intro m
    simp only [hr, Bool.false_eq_true, if_false]
    refine foldl_le_of_mem ?_ ?_ (List.mem_range.mpr hj) _
    · intro m k; split
      · rename_i h; exact le_of_lt h.2
      · exact le_refl _
    · intro m; split
      · exact le_refl _
      · rename_i h; simp only [hc, true_and, not_lt] at h; exact h

theorem le_min_uncovered {n : Nat} (s : State) {lb : Int} (hlb : lb ≤ INT_MAX)
    (h : ∀ i j, i < n → j < n → s.row_covered i = false → s.col_covered j = false →
      lb ≤ s.c i j) : lb ≤ min_uncovered n s := by
  unfold min_uncovered
  apply le_foldl _ hlb
  intro m i hi hm
  split
  · exact hm
  · rename_i hr
    apply le_foldl _ hm
    intro m j hj hm
    split
    · rename_i hc
      exact h i j (List.mem_range.mp hi) (List.mem_range.mp hj) (by simpa using hr) hc.1
    · exact hm

/-! ## Path augmentation -/

theorem flip_val_eq_one {x : Int} : flip_val x = 1 ↔ x = 2 := by
  unfold flip_val
  constructor
  · intro h
    by_cases h1 : x = 1
    · simp [h1] at h
    · by_cases h2 : x = 2
      · exact h2
      · simp [h1, h2] at h
  · intro h; subst h; simp

theorem flip_cell_apply (m : Nat → Nat → Int) (p : Nat × Nat) (i j : Nat) :
    flip_cell m p i j = if (i, j) = p then flip_val (m i j) else m i j := by
  obtain ⟨a, b⟩ := p
  unfold flip_cell flip_val set2
  by_cases h : i = a ∧ j = b
  · obtain ⟨rfl, rfl⟩ := h
    by_cases h1 : m i j = 1
    · simp [h1]
    · by_cases h2 : m i j = 2
      · simp [h2]
      · simp [h1, h2]
  · have hne : ¬ ((i, j) = (a, b)) := by
      intro he; apply h; exact ⟨congrArg Prod.fst he, congrArg Prod.snd he⟩
    by_cases h1 : m a b = 1
    · simp [h1, h, hne]
    · by_cases h2 : m a b = 2
      · simp [h2, h, hne]
      · simp [h1, h2, hne]

theorem augment_path_eq_flipped (m : Nat → Nat → Int) (path : List (Nat × Nat))
    (hnd : path.Nodup) (i j : Nat) : augment_path m path i j = flipped m path i j := by
  induction path generalizing m with
  | nil => simp [augment_path, flipped]
  | cons p l ih =>
    have hp : p ∉ l := (List.nodup_cons.mp hnd).1
    have hl : l.Nodup := (List.nodup_cons.mp hnd).2
    have h1 : augment_path m (p :: l) i j = augment_path (flip_cell m p) l i j := rfl
    rw [h1, ih (flip_cell m p) hl]
    unfold flipped
    rw [flip_cell_apply]
    by_cases hmem : (i, j) ∈ l
    · have hne : (i, j) ≠ p := fun h => hp (h ▸ hmem)
      simp [hmem, hne]
    · by_cases he : (i, j) = p
      · subst he; simp [hmem]
      · simp [hmem, he]

theorem flipped_eq_one {m : Nat → Nat → Int} {path : List (Nat × Nat)} {i j : Nat} :
    flipped m path i j = 1 ↔ ((i, j) ∈ path ∧ m i j = 2) ∨ ((i, j) ∉ path ∧ m i j = 1) := by
  unfold flipped
  by_cases h : (i, j) ∈ path
  · simp [h, flip_val_eq_one]
  · simp [h]

section ChainFacts

variable {n : Nat} {m : Nat → Nat → Int} {rank : Nat → Nat}

theorem chain_rank (hr : Ranked n m rank) {c_ : Nat} {l : List (Nat × Nat)}
    (hc : c_ < n) (h : Chain n m c_ l) :
    ∀ b, (∀ k, k < n → m k c_ = 1 → rank k < b) → ∀ q, q ∈ l → rank q.1 < b := by
  induction h with
  | nil c_ _ => intro b _ q hq; cases hq
  | cons c_ r c1 l hrn hc1 hs hp _ ih =>
    intro b hb q hq
    have hrb : rank r < b := hb r hrn hs
    rcases List.mem_cons.mp hq with rfl | hq
    · exact hrb
    rcases List.mem_cons.mp hq with rfl | hq
    · exact hrb
    · exact lt_trans (ih hc1 (rank r) (fun k hk hk1 => hr r c1 k hrn hc1 hk hp hk1) q hq) hrb

theorem chain_lt {c_ : Nat} {l : List (Nat × Nat)} (hc : c_ < n) (h : Chain n m c_ l) :
    ∀ q, q ∈ l → q.1 < n ∧ q.2 < n := by
  induction h with
  | nil c_ _ => intro q hq; cases hq
  | cons c_ r c1 l hrn hc1 _ _ _ ih =>
    intro q hq
    rcases List.mem_cons.mp hq with rfl | hq
    · exact ⟨hrn, hc⟩
    rcases List.mem_cons.mp hq with rfl | hq
    · exact ⟨hrn, hc1⟩
    · exact ih hc1 q hq

theorem chain_vals {c_ : Nat} {l : List (Nat × Nat)} (h : Chain n m c_ l) :
    ∀ q, q ∈ l → m q.1 q.2 = 1 ∨ m q.1 q.2 = 2 := by
  induction h with
  | nil c_ _ => intro q hq; cases hq
  | cons c_ r c1 l _ _ hs hp _ ih =>
    intro q hq
    rcases List.mem_cons.mp hq with rfl | hq
    · exact Or.inl hs
    rcases List.mem_cons.mp hq with rfl | hq
    · exact Or.inr hp
    · exact ih q hq

theorem chain_nodup (hr : Ranked n m rank) {c_ : Nat} {l : List (Nat × Nat)}
    (hc : c_ < n) (h : Chain n m c_ l) : l.Nodup := by
  induction h with
  | nil c_ _ => exact List.nodup_nil
  | cons c_ r c1 l hrn hc1 hs hp hch ih =>
    have hlow : ∀ q, q ∈ l → rank q.1 < rank r :=
      chain_rank hr hc1 hch (rank r) (fun k hk hk1 => hr r c1 k hrn hc1 hk hp hk1)
    refine List.nodup_cons.mpr ⟨?_, List.nodup_cons.mpr ⟨?_, ih hc1⟩⟩
    · intro hmem
      rcases List.mem_cons.mp hmem with he | hmem
      · have : c_ = c1 := congrArg Prod.snd he
        rw [this, hp] at hs; omega
      · exact lt_irrefl _ (hlow _ hmem)
    · intro hmem
      exact lt_irrefl _ (hlow _ hmem)

theorem chain_star_next {c_ : Nat} {l : List (Nat × Nat)} (h : Chain n m c_ l) :
    ∀ i j, (i, j) ∈ l → m i j = 1 → ∃ k, (i, k) ∈ l ∧ m i k = 2 := by
  induction h with
  | nil c_ _ => intro i j hq; cases hq
  | cons c_ r c1 l _ _ hs hp _ ih =>
    intro i j hq h1
    rcases List.mem_cons.mp hq with he | hq
    · obtain ⟨rfl, rfl⟩ := Prod.mk.inj he
      exact ⟨c1, by simp, hp⟩
    rcases List.mem_cons.mp hq with he | hq
    · obtain ⟨rfl, rfl⟩ := Prod.mk.inj he
      rw [hp] at h1; omega
    · obtain ⟨k, hk, hk2⟩ := ih i j hq h1
      exact ⟨k, by simp [hk], hk2⟩

theorem chain_prime_prev {c_ : Nat} {l : List (Nat × Nat)} (h : Chain n m c_ l) :
    ∀ i j, (i, j) ∈ l → m i j = 2 → ∃ k, (i, k) ∈ l ∧ m i k = 1 := by
  induction h with
  | nil c_ _ => intro i j hq; cases hq
  | cons c_ r c1 l _ _ hs hp _ ih =>
    intro i j hq h2
    rcases List.mem_cons.mp hq with he | hq
    · obtain ⟨rfl, rfl⟩ := Prod.mk.inj he
      exact ⟨j, by simp, hs⟩
    rcases List.mem_cons.mp hq with he | hq
    · obtain ⟨rfl, rfl⟩ := Prod.mk.inj he
      exact ⟨c_, by simp, hs⟩
    · obtain ⟨k, hk, hk2⟩ := ih i j hq h2
      exact ⟨k, by simp [hk], hk2⟩

theorem chain_prime_row (hr : Ranked n m rank) {c_ : Nat} {l : List (Nat × Nat)}
    (hc : c_ < n) (h : Chain n m c_ l) :
    ∀ i j k, (i, j) ∈ l → (i, k) ∈ l → m i j = 2 → m i k = 2 → j = k := by
  induction h with
  | nil c_ _ => intro i j k hq; cases hq
  | cons c_ r c1 l hrn hc1 hs hp hch ih =>
    have hlow : ∀ q, q ∈ l → rank q.1 < rank r :=
      chain_rank hr hc1 hch (rank r) (fun k hk hk1 => hr r c1 k hrn hc1 hk hp hk1)
    intro i j k hj hk hj2 hk2
    simp only [List.mem_cons, Prod.mk.injEq] at hj hk
    rcases hj with ⟨rfl, rfl⟩ | ⟨rfl, rfl⟩ | hj
    · rw [hs] at hj2; omega
    · rcases hk with ⟨_, rfl⟩ | ⟨_, rfl⟩ | hk
      · rw [hs] at hk2; omega
      · rfl
      · exact (lt_irrefl _ (hlow _ hk)).elim
    · rcases hk with ⟨rfl, rfl⟩ | ⟨rfl, rfl⟩ | hk
      · rw [hs] at hk2; omega
      · exact (lt_irrefl _ (hlow _ hj)).elim
      · exact ih hc1 i j k hj hk hj2 hk2

theorem chain_start (hs : StarsOk n m) {c_ : Nat} {l : List (Nat × Nat)} (hc : c_ < n)
    (h : Chain n m c_ l) : ∀ k, k < n → m k c_ = 1 → (k, c_) ∈ l := by
  cases h with
  | nil _ hno => intro k hk h1; exact absurd h1 (hno k hk)
  | cons _ r c1 l hrn _ hs1 _ _ =>
    intro k hk h1
    have : k = r := hs.coluniq k r c_ hk hrn hc h1 hs1
    subst this; simp

theorem chain_col_next (hs : StarsOk n m) {c_ : Nat} {l : List (Nat × Nat)} (hc : c_ < n)
    (h : Chain n m c_ l) :
    ∀ i j k, k < n → (i, j) ∈ l → m i j = 2 → m k j = 1 → (k, j) ∈ l := by
  induction h with
  | nil c_ _ => intro i j k _ hq; cases hq
  | cons c_ r c1 l hrn hc1 hs1 hp hch ih =>
    intro i j k hk hq h2 h1
    rcases List.mem_cons.mp hq with he | hq
    · obtain ⟨rfl, rfl⟩ := Prod.mk.inj he
      rw [hs1] at h2; omega
    rcases List.mem_cons.mp hq with he | hq
    · obtain ⟨rfl, rfl⟩ := Prod.mk.inj he
      have := chain_start hs hc1 hch k hk h1
      simp [this]
    · have := ih hc1 i j k hk hq h2 h1
      simp [this]

theorem chain_no_prime_start (hr : Ranked n m rank) {c_ : Nat} {l : List (Nat × Nat)}
    (hc : c_ < n) (h : Chain n m c_ l) : ∀ i, (i, c_) ∈ l → m i c_ ≠ 2 := by
  cases h with
  | nil _ _ => intro i hq; cases hq
  | cons _ r c1 l hrn hc1 hs hp hch =>
    have hlow : ∀ q, q ∈ l → rank q.1 < rank r :=
      chain_rank hr hc1 hch (rank r) (fun k hk hk1 => hr r c1 k hrn hc1 hk hp hk1)
    intro i hq h2
    rcases List.mem_cons.mp hq with he | hq
    · obtain ⟨rfl, _⟩ := Prod.mk.inj he
      rw [hs] at h2; omega
    rcases List.mem_cons.mp hq with he | hq
    · obtain ⟨rfl, rfl⟩ := Prod.mk.inj he
      rw [hs] at h2; omega
    · have h1 := hlow _ hq
      have hin := (chain_lt hc1 hch _ hq).1
      have h3 := hr i c_ r hin hc hrn h2 hs
      exact absurd (lt_trans h1 h3) (lt_irrefl _)

theorem chain_prime_col (hr : Ranked n m rank) {c_ : Nat} {l : List (Nat × Nat)}
    (hc : c_ < n) (h : Chain n m c_ l) :
    ∀ i k j, (i, j) ∈ l → (k, j) ∈ l → m i j = 2 → m k j = 2 → i = k := by
  induction h with
  | nil c_ _ => intro i k j hq; cases hq
  | cons c_ r c1 l hrn hc1 hs hp hch ih =>
    intro i k j hi hk hi2 hk2
    simp only [List.mem_cons, Prod.mk.injEq] at hi hk
    rcases hi with ⟨rfl, rfl⟩ | ⟨rfl, rfl⟩ | hi
    · rw [hs] at hi2; omega
    · rcases hk with ⟨rfl, _⟩ | ⟨rfl, _⟩ | hk
      · rfl
      · rfl
      · exact absurd hk2 (chain_no_prime_start hr hc1 hch k hk)
    · rcases hk with ⟨rfl, rfl⟩ | ⟨rfl, rfl⟩ | hk
      · rw [hs] at hk2; omega
      · exact absurd hi2 (chain_no_prime_start hr hc1 hch i hi)
      · exact ih hc1 i k j hi hk hi2 hk2

end ChainFacts

theorem build_path_chain {n : Nat} {s : State} :
    ∀ (fuel c_ : Nat) (acc path : List (Nat × Nat)),
      build_path fuel n s c_ acc = .ok path →
      ∃ l, path = acc ++ l ∧ Chain n s.mask c_ l := by
  intro fuel
  induction fuel with
  | zero => intro c_ acc path h; simp [build_path] at h
  | succ fuel ih =>
    intro c_ acc path h
    unfold build_path at h
    cases hs : find_star_in_col n s c_ with
    | none =>
      simp only [hs, Except.ok.injEq] at h
      exact ⟨[], by simp [h], Chain.nil c_ (find_star_in_col_none hs)⟩
    | some r =>
      simp only [hs] at h
      obtain ⟨hrn, hr1⟩ := find_star_in_col_some hs
      cases hp : find_prime_in_row n s r with
      | none => simp [hp] at h
      | some c1 =>
        simp only [hp] at h
        obtain ⟨hc1, hp2⟩ := find_prime_in_row_some hp
        obtain ⟨l, hl, hch⟩ := ih c1 _ path h
        exact ⟨(r, c_) :: (r, c1) :: l, by simp [hl], Chain.cons c_ r c1 l hrn hc1 hr1 hp2 hch⟩

theorem build_path_total {n : Nat} {s : State} {rank : Nat → Nat}
    (hr : Ranked n s.mask rank)
    (hsp : ∀ i j k, i < n → j < n → k < n → s.mask i j = 2 → s.mask k j = 1 →
      ∃ j1, j1 < n ∧ s.mask k j1 = 2) :
    ∀ (fuel b c_ : Nat) (acc : List (Nat × Nat)), c_ < n →
      (∀ k, k < n → s.mask k c_ = 1 → rank k < b) →
      (∀ k, k < n → s.mask k c_ = 1 → ∃ j1, j1 < n ∧ s.mask k j1 = 2) →
      b < fuel → ∃ path, build_path fuel n s c_ acc = .ok path := by
  intro fuel
  induction fuel with
  | zero => intro b c_ acc _ _ _ hb; omega
  | succ fuel ih =>
    intro b c_ acc hc hb hpr hlt
    unfold build_path
    cases hs : find_star_in_col n s c_ with
    | none => exact ⟨acc, rfl⟩
    | some r =>
      obtain ⟨hrn, hr1⟩ := find_star_in_col_some hs
      obtain ⟨j1, hj1, hj2⟩ := hpr r hrn hr1
      obtain ⟨c1, hp⟩ := find_prime_in_row_isSome hj1 hj2
      obtain ⟨hc1, hp2⟩ := find_prime_in_row_some hp
      simp only [hp]
      have hrb := hb r hrn hr1
      exact ih (rank r) c1 _ hc1 (fun k hk hk1 => hr r c1 k hrn hc1 hk hp2 hk1)
        (fun k hk hk1 => hsp r c1 k hrn hc1 hk hp2 hk1) (by omega)

theorem path_nodup {n : Nat} {m : Nat → Nat → Int} {rank : Nat → Nat}
    (hr : Ranked n m rank) {r0 c0 : Nat} (hc0 : c0 < n)
    (hfree : ∀ j, j < n → m r0 j ≠ 1) {l : List (Nat × Nat)} (hch : Chain n m c0 l)
    (hz : m r0 c0 = 2) : ((r0, c0) :: l).Nodup := by
  refine List.nodup_cons.mpr ⟨?_, chain_nodup hr hc0 hch⟩
  intro hmem
  obtain ⟨k, hk, hk1⟩ := chain_prime_prev hch r0 c0 hmem hz
  exact hfree k (chain_lt hc0 hch _ hk).2 hk1

theorem augment_stars {n : Nat} {m : Nat → Nat → Int} {rank : Nat → Nat}
    (hs : StarsOk n m) (hr : Ranked n m rank) {r0 c0 : Nat} (hc0 : c0 < n)
    (hz : m r0 c0 = 2) (hfree : ∀ j, j < n → m r0 j ≠ 1) {l : List (Nat × Nat)}
    (hch : Chain n m c0 l) :
    StarsOk n (flipped m ((r0, c0) :: l)) ∧
    (∀ i j, i < n → j < n → m i j = 1 → ∃ k, k < n ∧ flipped m ((r0, c0) :: l) i k = 1) ∧
    flipped m ((r0, c0) :: l) r0 c0 = 1 := by
  have hrowstar : ∀ i j, (i, j) ∈ (r0, c0) :: l → m i j = 2 →
      ∀ k, k < n → m i k = 1 → (i, k) ∈ l := by
    intro i j hmem h2 k hk h1
    simp only [List.mem_cons, Prod.mk.injEq] at hmem
    rcases hmem with ⟨rfl, rfl⟩ | hmem
    · exact absurd h1 (hfree k hk)
    · obtain ⟨k1, hk1, hk1s⟩ := chain_prime_prev hch i j hmem h2
      have hlt := chain_lt hc0 hch _ hk1
      have : k1 = k := hs.rowuniq i k1 k hlt.1 hlt.2 hk hk1s h1
      subst this; exact hk1
  have hcolstar : ∀ i j, (i, j) ∈ (r0, c0) :: l → m i j = 2 →
      ∀ k, k < n → m k j = 1 → (k, j) ∈ l := by
    intro i j hmem h2 k hk h1
    simp only [List.mem_cons, Prod.mk.injEq] at hmem
    rcases hmem with ⟨rfl, rfl⟩ | hmem
    · exact chain_start hs hc0 hch k hk h1
    · exact chain_col_next hs hc0 hch i j k hk hmem h2 h1
  have hsub : ∀ q, q ∈ l → q ∈ (r0, c0) :: l := fun q hq => List.mem_cons_of_mem _ hq
  refine ⟨⟨?_, ?_⟩, ?_, ?_⟩
  · intro i j k hi hj hk hj1 hk1
    rcases flipped_eq_one.mp hj1 with ⟨hjm, hj2⟩ | ⟨hjm, hj2⟩ <;>
      rcases flipped_eq_one.mp hk1 with ⟨hkm, hk2⟩ | ⟨hkm, hk2⟩
    · simp only [List.mem_cons, Prod.mk.injEq] at hjm hkm
      rcases hjm with ⟨rfl, rfl⟩ | hjm
      · rcases hkm with ⟨_, rfl⟩ | hkm
        · rfl
        · obtain ⟨k1, hk1m, hk1s⟩ := chain_prime_prev hch _ _ hkm hk2
          exact absurd hk1s (hfree k1 (chain_lt hc0 hch _ hk1m).2)
      · rcases hkm with ⟨rfl, rfl⟩ | hkm
        · obtain ⟨k1, hk1m, hk1s⟩ := chain_prime_prev hch _ _ hjm hj2
          exact absurd hk1s (hfree k1 (chain_lt hc0 hch _ hk1m).2)
        · exact chain_prime_row hr hc0 hch i j k hjm hkm hj2 hk2
    · exact absurd (hsub _ (hrowstar i j hjm hj2 k hk hk2)) hkm
    · exact absurd (hsub _ (hrowstar i k hkm hk2 j hj hj2)) hjm
    · exact hs.rowuniq i j k hi hj hk hj2 hk2
  · intro i k j hi hk hj hi1 hk1
    rcases flipped_eq_one.mp hi1 with ⟨him, hi2⟩ | ⟨him, hi2⟩ <;>
      rcases flipped_eq_one.mp hk1 with ⟨hkm, hk2⟩ | ⟨hkm, hk2⟩
    · simp only [List.mem_cons, Prod.mk.injEq] at him hkm
      rcases him with ⟨rfl, rfl⟩ | him
      · rcases hkm with ⟨rfl, _⟩ | hkm
        · rfl
        · exact absurd hk2 (chain_no_prime_start hr hc0 hch k hkm)
      · rcases hkm with ⟨rfl, rfl⟩ | hkm
        · exact absurd hi2 (chain_no_prime_start hr hc0 hch i him)
        · exact chain_prime_col hr hc0 hch i k j him hkm hi2 hk2
    · exact absurd (hsub _ (hcolstar i j him hi2 k hk hk2)) hkm
    · exact absurd (hsub _ (hcolstar k j hkm hk2 i hi hi2)) him
    · exact hs.coluniq i k j hi hk hj hi2 hk2
  · intro i j hi hj h1
    by_cases hmem : (i, j) ∈ (r0, c0) :: l
    · simp only [List.mem_cons, Prod.mk.injEq] at hmem
      rcases hmem with ⟨rfl, rfl⟩ | hmem
      · rw [hz] at h1; omega
      · obtain ⟨k, hk, hk2⟩ := chain_star_next hch i j hmem h1
        exact ⟨k, (chain_lt hc0 hch _ hk).2, flipped_eq_one.mpr (Or.inl ⟨hsub _ hk, hk2⟩)⟩
    · exact ⟨j, hj, flipped_eq_one.mpr (Or.inr ⟨hmem, h1⟩)⟩
  · exact flipped_eq_one.mpr (Or.inl ⟨List.mem_cons_self _ _, hz⟩)

/-! ## Counting and pigeonhole -/

theorem pigeonhole {n : Nat} (R : Nat → Nat → Prop)
    (hex : ∀ i, i < n → ∃ j, j < n ∧ R i j)
    (hinj : ∀ i k j, i < n → k < n → j < n → R i j → R k j → i = k) :
    ∀ j, j < n → ∃ i, i < n ∧ R i j := by
  classical
  let f : Fin n → Fin n := fun i => ⟨Classical.choose (hex i i.2), (Classical.choose_spec
      (hex i i.2)).1⟩
  have hf : ∀ i : Fin n, R i (f i) := fun i => (Classical.choose_spec (hex i i.2)).2
  have hfi : Function.Injective f := by
    intro a b hab
    apply Fin.ext
    have h1 := hf a
    have h2 := hf b
    rw [hab] at h1
    exact hinj a b (f b) a.2 b.2 (f b).2 h1 h2
  have hfs : Function.Surjective f := Finite.injective_iff_surjective.mp hfi
  intro j hj
  obtain ⟨i, hi⟩ := hfs ⟨j, hj⟩
  refine ⟨i, i.2, ?_⟩
  have := hf i
  rw [hi] at this
  exact this

theorem countP_lt_of {l : List Nat} {p q : Nat → Bool} (hpq : ∀ x, x ∈ l → p x = true → q x = true)
    {a : Nat} (ha : a ∈ l) (hpa : p a = false) (hqa : q a = true) :
    l.countP p < l.countP q := by
  induction l with
  | nil => cases ha
  | cons b l ih =>
    have hmono : l.countP p ≤ l.countP q :=
      List.countP_mono_left (fun x hx => hpq x (List.mem_cons_of_mem _ hx))
    rcases List.mem_cons.mp ha with rfl | hmem
    · rw [List.countP_cons_of_neg _ _ (by simp [hpa]), List.countP_cons_of_pos _ _ hqa]
      omega
    · have ih' := ih (fun x hx => hpq x (List.mem_cons_of_mem _ hx)) hmem
      by_cases hb : p b = true
      · rw [List.countP_cons_of_pos _ _ hb, List.countP_cons_of_pos _ _ (hpq b
          (List.mem_cons_self _ _) hb)]
        omega
      · rw [List.countP_cons_of_neg _ _ hb]
        by_cases hqb : q b = true
        · rw [List.countP_cons_of_pos _ _ hqb]; omega
        · rw [List.countP_cons_of_neg _ _ hqb]; exact ih'

theorem has_star_iff {n : Nat} {s : State} {i : Nat} :
    (find_star_in_row n s i).isSome = true ↔ ∃ j, j < n ∧ s.mask i j = 1 := by
  constructor
  · intro h
    obtain ⟨j, hj⟩ := Option.isSome_iff_exists.mp h
    exact ⟨j, find_star_in_row_some hj⟩
  · rintro ⟨j, hj, h1⟩
    cases h : find_star_in_row n s i with
    | some k => rfl
    | none => exact absurd h1 (find_star_in_row_none h j hj)

theorem starred_rows_le (n : Nat) (s : State) : starred_rows n s ≤ n := by
  unfold starred_rows
  have := List.countP_le_length (fun i => (find_star_in_row n s i).isSome) (l := List.range n)
  simpa using this

theorem covered_rows_le (n : Nat) (s : State) : covered_rows n s ≤ n := by
  unfold covered_rows
  have := List.countP_le_length (fun i => s.row_covered i) (l := List.range n)
  simpa using this

theorem starred_rows_mono {n : Nat} {s t : State}
    (h : ∀ i j, i < n → j < n → s.mask i j = 1 → ∃ k, k < n ∧ t.mask i k = 1) :
    starred_rows n s ≤ starred_rows n t := by
  unfold starred_rows
  apply List.countP_mono_left
  intro i hi hs
  obtain ⟨j, hj, h1⟩ := has_star_iff.mp hs
  exact has_star_iff.mpr (h i j (List.mem_range.mp hi) hj h1)

theorem starred_rows_lt {n : Nat} {s t : State}
    (h : ∀ i j, i < n → j < n → s.mask i j = 1 → ∃ k, k < n ∧ t.mask i k = 1)
    {r : Nat} (hr : r < n) (hfree : ∀ j, j < n → s.mask r j ≠ 1)
    (hnew : ∃ k, k < n ∧ t.mask r k = 1) :
    starred_rows n s < starred_rows n t := by
  unfold starred_rows
  refine countP_lt_of ?_ (List.mem_range.mpr hr) ?_ (has_star_iff.mpr hnew)
  · intro i hi hs
    obtain ⟨j, hj, h1⟩ := has_star_iff.mp hs
    exact has_star_iff.mpr (h i j (List.mem_range.mp hi) hj h1)
  · cases hf : find_star_in_row n s r with
    | none => rfl
    | some j => exact absurd (find_star_in_row_some hf).2 (hfree j (find_star_in_row_some hf).1)

theorem covered_rows_lt {n : Nat} {s t : State}
    (h : ∀ i, i < n → s.row_covered i = true → t.row_covered i = true)
    {r : Nat} (hr : r < n) (hs : s.row_covered r = false) (ht : t.row_covered r = true) :
    covered_rows n s < covered_rows n t := by
  unfold covered_rows
  exact countP_lt_of (fun i hi => h i (List.mem_range.mp hi)) (List.mem_range.mpr hr) hs ht

theorem measure_lt_of_cover {n : Nat} {s t : State}
    (hs : starred_rows n s ≤ starred_rows n t) (hc : covered_rows n s < covered_rows n t) :
    loop_measure n t < loop_measure n s := by
  unfold loop_measure
  have h1 := covered_rows_le n t
  have h2 : (n - starred_rows n t) * (n + 1) ≤ (n - starred_rows n s) * (n + 1) :=
    Nat.mul_le_mul_right _ (by omega)
  omega

theorem measure_lt_of_star {n : Nat} {s t : State}
    (hs : starred_rows n s < starred_rows n t) :
    loop_measure n t < loop_measure n s := by
  unfold loop_measure
  have h1 := starred_rows_le n t
  have h2 : (n - starred_rows n t + 1) * (n + 1) ≤ (n - starred_rows n s) * (n + 1) :=
    Nat.mul_le_mul_right _ (by omega)
  have h3 : (n - starred_rows n t + 1) * (n + 1) = (n - starred_rows n t) * (n + 1) + (n + 1) := by
    ring
  omega

/-! ## The two arithmetics and the adjustment -/

theorem storing_exact : Storing exact_int :=
  ⟨fun _ => rfl, rfl, rfl⟩

theorem bounded_wrap : Bounded wrap_int32 := by
  refine ⟨⟨?_, ?_, ?_⟩, ?_⟩
  · intro x; unfold wrap_int32; omega
  · unfold wrap_int32; omega
  · unfold wrap_int32 INT_MAX; omega
  · intro x; unfold wrap_int32 INT_MAX; omega

theorem wrap_int32_of_range {x : Int} (h1 : -2147483648 ≤ x) (h2 : x ≤ INT_MAX) :
    wrap_int32 x = x := by
  unfold INT_MAX at h2
  unfold wrap_int32; omega

theorem foldl_invariant {α β : Type} (P : α → Prop) (f : α → β → α) (l : List β)
    (h : ∀ a b, b ∈ l → P a → P (f a b)) (a : α) (ha : P a) : P (l.foldl f a) := by
  induction l generalizing a with
  | nil => exact ha
  | cons b l ih =>
    exact ih (fun a b hb => h a b (List.mem_cons_of_mem _ hb)) _
      (h a b (List.mem_cons_self _ _) ha)

theorem min_uncovered_mem (n : Nat) (s : State) :
    min_uncovered n s = INT_MAX ∨
    ∃ i j, i < n ∧ j < n ∧ s.row_covered i = false ∧ s.col_covered j = false ∧
      min_uncovered n s = s.c i j := by
  unfold min_uncovered
  apply foldl_invariant (fun x => x = INT_MAX ∨
    ∃ i j, i < n ∧ j < n ∧ s.row_covered i = false ∧ s.col_covered j = false ∧ x = s.c i j)
  · intro m i hi hm
    split
    · exact hm
    · rename_i hr
      apply foldl_invariant (fun x => x = INT_MAX ∨
        ∃ i j, i < n ∧ j < n ∧ s.row_covered i = false ∧ s.col_covered j = false ∧
          x = s.c i j) _ _ _ _ hm
      intro m j hj hm
      split
      · rename_i hc
        exact Or.inr ⟨i, j, List.mem_range.mp hi, List.mem_range.mp hj, by simpa using hr,
          hc.1, rfl⟩
      · exact hm
  · exact Or.inl rfl

theorem min_uncovered_attained {n : Nat} {s : State} {i j : Nat} (hi : i < n) (hj : j < n)
    (hr : s.row_covered i = false) (hc : s.col_covered j = false) (hle : s.c i j ≤ INT_MAX) :
    ∃ i j, i < n ∧ j < n ∧ s.row_covered i = false ∧ s.col_covered j = false ∧
      min_uncovered n s = s.c i j := by
  rcases min_uncovered_mem n s with h | h
  · have := min_uncovered_le s hi hj hr hc
    exact ⟨i, j, hi, hj, hr, hc, by omega⟩
  · exact h

theorem min_uncovered_stored {w : Int → Int} (hw : Storing w) {n : Nat} {s : State}
    (h : ∀ i j, i < n → j < n → w (s.c i j) = s.c i j) :
    w (min_uncovered n s) = min_uncovered n s := by
  rcases min_uncovered_mem n s with h1 | ⟨i, j, hi, hj, _, _, h1⟩
  · rw [h1]; exact hw.max
  · rw [h1]; exact h i j hi hj

theorem adjust_by_cc {w : Int → Int} {d : Int} {s : State} {i j : Nat}
    (hr : s.row_covered i = true) (hc : s.col_covered j = true) :
    (adjust_by w d s).c i j = w (s.c i j + d) := by
  simp [adjust_by, adjust_cell, hr, hc]

theorem adjust_by_cu {w : Int → Int} {d : Int} {s : State} {i j : Nat}
    (hr : s.row_covered i = true) (hc : s.col_covered j = false) :
    (adjust_by w d s).c i j = w (w (s.c i j + d) - d) := by
  simp [adjust_by, adjust_cell, hr, hc]

theorem adjust_by_uc {w : Int → Int} {d : Int} {s : State} {i j : Nat}
    (hr : s.row_covered i = false) (hc : s.col_covered j = true) :
    (adjust_by w d s).c i j = s.c i j := by
  simp [adjust_by, adjust_cell, hr, hc]

theorem adjust_by_uu {w : Int → Int} {d : Int} {s : State} {i j : Nat}
    (hr : s.row_covered i = false) (hc : s.col_covered j = false) :
    (adjust_by w d s).c i j = w (s.c i j - d) := by
  simp [adjust_by, adjust_cell, hr, hc]

theorem stored_of_inv {n : Nat} {cost : Nat → Nat → Int} {s : State} (h : Inv n cost s) :
    StoredInv exact_int n s :=
  ⟨h.toMaskInv, fun _ _ _ _ => rfl⟩

theorem stored_adjust {w : Int → Int} (hw : Storing w) {n : Nat} {s : State}
    (h : StoredInv w n s) : StoredInv w n (adjust w n s) := by
  have hd := min_uncovered_stored hw h.stored
  refine ⟨⟨h.vals, ?_, h.stars, h.starcov, h.colcov, h.rowcov, h.rowprime, h.prime,
    h.ranked, h.free⟩, ?_⟩
  · intro i j hi hj hm
    have h0 := h.zero i j hi hj hm
    have hcu : s.row_covered i = true → s.col_covered j = false →
        (adjust w n s).c i j = 0 := by
      intro hr hc
      unfold adjust
      rw [adjust_by_cu hr hc, h0, zero_add, hd, sub_self, hw.zero]
    rcases h.vals i j hi hj with h1 | h1 | h1
    · exact absurd h1 hm
    · have hsc := h.starcov i j hi hj h1
      rcases Bool.eq_false_or_eq_true (s.row_covered i) with hr | hr
      · have hc : s.col_covered j = false := by
          rcases Bool.eq_false_or_eq_true (s.col_covered j) with hc | hc
          · rw [hsc.mp hc] at hr; cases hr
          · exact hc
        exact hcu hr hc
      · unfold adjust
        rw [adjust_by_uc hr (hsc.mpr hr)]; exact h0
    · obtain ⟨hr, hc⟩ := h.prime i j hi hj h1
      exact hcu hr hc
  · intro i j hi hj
    have h0 := h.stored i j hi hj
    unfold adjust
    rcases Bool.eq_false_or_eq_true (s.row_covered i) with hr | hr <;>
      rcases Bool.eq_false_or_eq_true (s.col_covered j) with hc | hc
    · rw [adjust_by_cc hr hc]; exact hw.idem _
    · rw [adjust_by_cu hr hc]; exact hw.idem _
    · rw [adjust_by_uc hr hc]; exact h0
    · rw [adjust_by_uu hr hc]; exact hw.idem _

/-! ## Preservation of the loop invariant in exact arithmetic -/

theorem min_uncovered_nonneg {n : Nat} {cost : Nat → Nat → Int} {s : State}
    (h : Inv n cost s) : 0 ≤ min_uncovered n s :=
  le_min_uncovered s (by unfold INT_MAX; omega) (fun i j hi hj _ _ => h.nonneg i j hi hj)

theorem inv_adjust {n : Nat} {cost : Nat → Nat → Int} {s : State} (h : Inv n cost s) :
    Inv n cost (adjust exact_int n s) := by
  have hd := min_uncovered_nonneg h
  refine ⟨(stored_adjust storing_exact (stored_of_inv h)).toMaskInv, ?_, ?_⟩
  · intro i j hi hj
    have h0 := h.nonneg i j hi hj
    unfold adjust
    rcases Bool.eq_false_or_eq_true (s.row_covered i) with hr | hr <;>
      rcases Bool.eq_false_or_eq_true (s.col_covered j) with hc | hc
    · rw [adjust_by_cc hr hc]; unfold exact_int; omega
    · rw [adjust_by_cu hr hc]; unfold exact_int; omega
    · rw [adjust_by_uc hr hc]; omega
    · have := min_uncovered_le s hi hj hr hc
      rw [adjust_by_uu hr hc]; unfold exact_int; omega
  · obtain ⟨u, v, huv⟩ := h.pot
    refine ⟨fun i => u i - (if s.row_covered i = true then min_uncovered n s else 0),
      fun j => v j + (if s.col_covered j = false then min_uncovered n s else 0), ?_⟩
    intro i j hi hj
    have h0 := huv i j hi hj
    unfold adjust
    rcases Bool.eq_false_or_eq_true (s.row_covered i) with hr | hr <;>
      rcases Bool.eq_false_or_eq_true (s.col_covered j) with hc | hc
    · rw [adjust_by_cc hr hc]; simp [hr, hc, exact_int]; omega
    · rw [adjust_by_cu hr hc]; simp [hr, hc, exact_int]; omega
    · rw [adjust_by_uc hr hc]; simp [hr, hc]; omega
    · rw [adjust_by_uu hr hc]; simp [hr, hc, exact_int]; omega

theorem mask_phase_start {n : Nat} (c mask : Nat → Nat → Int) (cc : Nat → Bool)
    (hv : ∀ i j, i < n → j < n → mask i j = 0 ∨ mask i j = 1)
    (hz : ∀ i j, i < n → j < n → mask i j = 1 → c i j = 0)
    (hs : StarsOk n mask) :
    MaskInv n (cover_columns_with_stars n
      { c := c, mask := mask, row_covered := fun _ => false, col_covered := cc }) := by
  refine ⟨?_, ?_, hs, ?_, ?_, ?_, ?_, ?_, ?_, ?_⟩
  · intro i j hi hj
    rcases hv i j hi hj with h | h
    · exact Or.inl h
    · exact Or.inr (Or.inl h)
  · intro i j hi hj hm
    rcases hv i j hi hj with h | h
    · exact absurd h hm
    · exact hz i j hi hj h
  · intro i j hi hj h1
    constructor
    · intro _; rfl
    · intro _; exact cover_columns_with_stars_col.mpr ⟨i, hi, h1⟩
  · intro j hj hc
    exact cover_columns_with_stars_col.mp hc
  · intro i hi hr; cases hr
  · intro i hi hr; cases hr
  · intro i j hi hj h2
    rcases hv i j hi hj with h | h
    · change mask i j = 2 at h2; rw [h] at h2; omega
    · change mask i j = 2 at h2; rw [h] at h2; omega
  · refine ⟨fun _ => 0, 0, ?_, ?_⟩
    · intro i hi hr; cases hr
    · intro i j k hi hj hk h2
      rcases hv i j hi hj with h | h
      · change mask i j = 2 at h2; rw [h] at h2; omega
      · change mask i j = 2 at h2; rw [h] at h2; omega
  · by_cases hall : ∀ i, i < n → ∃ j, j < n ∧ mask i j = 1
    · left
      intro j hj
      exact cover_columns_with_stars_col.mpr
        (pigeonhole (fun i j => mask i j = 1) hall
          (fun i k j hi hk hj h1 h2 => hs.coluniq i k j hi hk hj h1 h2) j hj)
    · right
      push_neg at hall
      obtain ⟨i, hi, hno⟩ := hall
      exact ⟨i, hi, hno⟩

theorem set2_two_eq_one {m : Nat → Nat → Int} {a b i j : Nat} (h : m a b ≠ 1) :
    set2 m a b 2 i j = 1 ↔ m i j = 1 := by
  unfold set2
  by_cases he : i = a ∧ j = b
  · obtain ⟨rfl, rfl⟩ := he
    simp [h]
  · simp [he]

theorem set2_two_eq_two {m : Nat → Nat → Int} {a b i j : Nat} :
    set2 m a b 2 i j = 2 ↔ (i = a ∧ j = b) ∨ m i j = 2 := by
  unfold set2
  by_cases he : i = a ∧ j = b
  · simp [he]
  · simp [he]

theorem zeroAt_of_find {n : Nat} {s : State} {z : Nat × Nat} (h : find_a_zero n s = some z) :
    ZeroAt n s z := by
  obtain ⟨h1, h2, h3, h4, h5⟩ := find_a_zero_some h
  exact ⟨h1, h2, h3, h4, h5⟩

section Primed

variable {n : Nat} {s : State} {z : Nat × Nat}

theorem star_row_covered (h : MaskInv n s) {k j : Nat} (hk : k < n) (hj : j < n)
    (h1 : s.mask k j = 1) (hc : s.col_covered j = false) : s.row_covered k = true := by
  rcases Bool.eq_false_or_eq_true (s.row_covered k) with hr | hr
  · exact hr
  · rw [(h.starcov k j hk hj h1).mpr hr] at hc; cases hc

theorem mask_at_zero (h : MaskInv n s) (hz : ZeroAt n s z) : s.mask z.1 z.2 = 0 := by
  rcases h.vals z.1 z.2 hz.lt1 hz.lt2 with h0 | h1 | h2
  · exact h0
  · have := star_row_covered h hz.lt1 hz.lt2 h1 hz.col
    rw [hz.row] at this; cases this
  · have := (h.prime z.1 z.2 hz.lt1 hz.lt2 h2).1
    rw [hz.row] at this; cases this

theorem primed_eq_one (h : MaskInv n s) (hz : ZeroAt n s z) (i j : Nat) :
    set2 s.mask z.1 z.2 2 i j = 1 ↔ s.mask i j = 1 :=
  set2_two_eq_one (by rw [mask_at_zero h hz]; omega)

theorem primed_col_uncovered (h : MaskInv n s) (hz : ZeroAt n s z) {i j : Nat}
    (hi : i < n) (hj : j < n) (h2 : set2 s.mask z.1 z.2 2 i j = 2) :
    s.col_covered j = false := by
  rcases set2_two_eq_two.mp h2 with ⟨_, rfl⟩ | h2
  · exact hz.col
  · exact (h.prime i j hi hj h2).2

theorem primed_stars (h : MaskInv n s) (hz : ZeroAt n s z) :
    StarsOk n (set2 s.mask z.1 z.2 2) := by
  constructor
  · intro i j k hi hj hk h1 h2
    exact h.stars.rowuniq i j k hi hj hk ((primed_eq_one h hz i j).mp h1)
      ((primed_eq_one h hz i k).mp h2)
  · intro i k j hi hk hj h1 h2
    exact h.stars.coluniq i k j hi hk hj ((primed_eq_one h hz i j).mp h1)
      ((primed_eq_one h hz k j).mp h2)

theorem primed_star_prime (h : MaskInv n s) (hz : ZeroAt n s z) :
    ∀ i j k, i < n → j < n → k < n → set2 s.mask z.1 z.2 2 i j = 2 →
      set2 s.mask z.1 z.2 2 k j = 1 → ∃ j1, j1 < n ∧ set2 s.mask z.1 z.2 2 k j1 = 2 := by
  intro i j k hi hj hk h2 h1
  have hc := primed_col_uncovered h hz hi hj h2
  have hr := star_row_covered h hk hj ((primed_eq_one h hz k j).mp h1) hc
  obtain ⟨j1, hj1, hp⟩ := h.rowprime k hk hr
  exact ⟨j1, hj1, set2_two_eq_two.mpr (Or.inr hp)⟩

theorem primed_ranked (h : MaskInv n s) (hz : ZeroAt n s z) :
    ∃ (rank : Nat → Nat) (b : Nat),
      (∀ i, i < n → (s.row_covered i = true ∨ i = z.1) → rank i < b) ∧
      Ranked n (set2 s.mask z.1 z.2 2) rank := by
  obtain ⟨rank, b, hb, hr⟩ := h.ranked
  refine ⟨set1 rank z.1 b, b + 1, ?_, ?_⟩
  · intro i hi hcov
    unfold set1
    by_cases he : i = z.1
    · simp [he]
    · rcases hcov with hcov | hcov
      · have := hb i hi hcov
        simp only [he, if_false]; omega
      · exact absurd hcov he
  · intro i j k hi hj hk h2 h1
    have hc := primed_col_uncovered h hz hi hj h2
    have h1' := (primed_eq_one h hz k j).mp h1
    have hkc := star_row_covered h hk hj h1' hc
    have hkne : k ≠ z.1 := by
      intro he; rw [he, hz.row] at hkc; cases hkc
    unfold set1
    simp only [hkne, if_false]
    rcases set2_two_eq_two.mp h2 with ⟨rfl, _⟩ | h2
    · simp only [if_true]
      exact hb k hk hkc
    · have hic := (h.prime i j hi hj h2).1
      have hine : i ≠ z.1 := by
        intro he; rw [he, hz.row] at hic; cases hic
      simp only [hine, if_false]
      exact hr i j k hi hj hk h2 h1'

end Primed

theorem clear_primes_eq_one {m : Nat → Nat → Int} {i j : Nat} :
    clear_primes m i j = 1 ↔ m i j = 1 := by
  unfold clear_primes
  by_cases h : m i j = 2
  · simp [h]
  · simp [h]

theorem mask_cover_step {n : Nat} {s : State} {z : Nat × Nat}
    (h : MaskInv n s) (hz : ZeroAt n s z)
    (hfree : ∃ i, i < n ∧ ∀ j, j < n → s.mask i j ≠ 1)
    {sc : Nat} (hsc : sc < n) (hstar : s.mask z.1 sc = 1) :
    MaskInv n { c := s.c, mask := set2 s.mask z.1 z.2 2,
                row_covered := set1 s.row_covered z.1 true,
                col_covered := set1 s.col_covered sc false } := by
  have hm0 := mask_at_zero h hz
  have hone := primed_eq_one h hz
  refine ⟨?_, ?_, primed_stars h hz, ?_, ?_, ?_, ?_, ?_, ?_, ?_⟩
  · intro i j hi hj
    show set2 s.mask z.1 z.2 2 i j = 0 ∨ set2 s.mask z.1 z.2 2 i j = 1 ∨
      set2 s.mask z.1 z.2 2 i j = 2
    unfold set2
    by_cases he : i = z.1 ∧ j = z.2
    · simp [he]
    · simp only [he, if_false]; exact h.vals i j hi hj
  · intro i j hi hj hm
    show s.c i j = 0
    change set2 s.mask z.1 z.2 2 i j ≠ 0 at hm
    unfold set2 at hm
    by_cases he : i = z.1 ∧ j = z.2
    · rw [he.1, he.2]; exact hz.zero
    · simp only [he, if_false] at hm; exact h.zero i j hi hj hm
  · intro i j hi hj h1
    have h1' : s.mask i j = 1 := (hone i j).mp h1
    show set1 s.col_covered sc false j = true ↔ set1 s.row_covered z.1 true i = false
    unfold set1
    by_cases hiz : i = z.1
    · subst hiz
      have : j = sc := h.stars.rowuniq _ j sc hi hj hsc h1' hstar
      subst this
      simp
    · have hjs : j ≠ sc := by
        intro he; subst he
        exact hiz (h.stars.coluniq i z.1 j hi hz.lt1 hj h1' hstar)
      simp only [hiz, hjs, if_false]
      exact h.starcov i j hi hj h1'
  · intro j hj hc
    change set1 s.col_covered sc false j = true at hc
    unfold set1 at hc
    by_cases hjs : j = sc
    · simp [hjs] at hc
    · simp only [hjs, if_false] at hc
      obtain ⟨i, hi, h1⟩ := h.colcov j hj hc
      exact ⟨i, hi, (hone i j).mpr h1⟩
  · intro i hi hr
    change set1 s.row_covered z.1 true i = true at hr
    unfold set1 at hr
    by_cases hiz : i = z.1
    · exact ⟨sc, hsc, (hone i sc).mpr (hiz ▸ hstar)⟩
    · simp only [hiz, if_false] at hr
      obtain ⟨j, hj, h1⟩ := h.rowcov i hi hr
      exact ⟨j, hj, (hone i j).mpr h1⟩
  · intro i hi hr
    change set1 s.row_covered z.1 true i = true at hr
    unfold set1 at hr
    by_cases hiz : i = z.1
    · exact ⟨z.2, hz.lt2, set2_two_eq_two.mpr (Or.inl ⟨hiz, rfl⟩)⟩
    · simp only [hiz, if_false] at hr
      obtain ⟨j, hj, h2⟩ := h.rowprime i hi hr
      exact ⟨j, hj, set2_two_eq_two.mpr (Or.inr h2)⟩
  · intro i j hi hj h2
    change set2 s.mask z.1 z.2 2 i j = 2 at h2
    show set1 s.row_covered z.1 true i = true ∧ set1 s.col_covered sc false j = false
    have hc := primed_col_uncovered h hz hi hj h2
    constructor
    · unfold set1
      by_cases hiz : i = z.1
      · simp [hiz]
      · simp only [hiz, if_false]
        rcases set2_two_eq_two.mp h2 with ⟨he, _⟩ | h2
        · exact absurd he hiz
        · exact (h.prime i j hi hj h2).1
    · unfold set1
      by_cases hjs : j = sc
      · simp [hjs]
      · simp only [hjs, if_false]; exact hc
  · obtain ⟨rank, b, hb, hr⟩ := primed_ranked h hz
    refine ⟨rank, b, ?_, hr⟩
    intro i hi hcov
    change set1 s.row_covered z.1 true i = true at hcov
    unfold set1 at hcov
    by_cases hiz : i = z.1
    · exact hb i hi (Or.inr hiz)
    · simp only [hiz, if_false] at hcov
      exact hb i hi (Or.inl hcov)
  · right
    obtain ⟨i, hi, hno⟩ := hfree
    exact ⟨i, hi, fun j hj h1 => hno j hj ((hone i j).mp h1)⟩

theorem measure_cover_step {n : Nat} {s : State} {z : Nat × Nat}
    (h : MaskInv n s) (hz : ZeroAt n s z) (sc : Nat) :
    loop_measure n { c := s.c, mask := set2 s.mask z.1 z.2 2,
                     row_covered := set1 s.row_covered z.1 true,
                     col_covered := set1 s.col_covered sc false } < loop_measure n s := by
  apply measure_lt_of_cover
  · apply starred_rows_mono
    intro i j hi hj h1
    exact ⟨j, hj, (primed_eq_one h hz i j).mpr h1⟩
  · refine covered_rows_lt ?_ hz.lt1 hz.row ?_
    · intro i hi hr
      show set1 s.row_covered z.1 true i = true
      unfold set1; split
      · rfl
      · exact hr
    · show set1 s.row_covered z.1 true z.1 = true
      simp [set1]

theorem new_mask_eq_one {m : Nat → Nat → Int} {path : List (Nat × Nat)} (hnd : path.Nodup)
    (i j : Nat) : clear_primes (augment_path m path) i j = 1 ↔ flipped m path i j = 1 := by
  rw [clear_primes_eq_one, augment_path_eq_flipped m path hnd]

theorem new_mask_vals {m : Nat → Nat → Int} {path : List (Nat × Nat)} (hnd : path.Nodup)
    {i j : Nat} (hv : m i j = 0 ∨ m i j = 1 ∨ m i j = 2) :
    clear_primes (augment_path m path) i j = 0 ∨ clear_primes (augment_path m path) i j = 1 := by
  unfold clear_primes
  rw [augment_path_eq_flipped m path hnd]
  unfold flipped flip_val
  by_cases hmem : (i, j) ∈ path <;> rcases hv with h | h | h <;> simp [hmem, h]

theorem mask_augment {n : Nat} {s : State} {z : Nat × Nat}
    (h : MaskInv n s) (hz : ZeroAt n s z) (hno : ∀ j, j < n → s.mask z.1 j ≠ 1)
    {l : List (Nat × Nat)} (hch : Chain n (set2 s.mask z.1 z.2 2) z.2 l) (cc : Nat → Bool) :
    MaskInv n (cover_columns_with_stars n
      { c := s.c, mask := clear_primes (augment_path (set2 s.mask z.1 z.2 2) (z :: l)),
        row_covered := fun _ => false, col_covered := cc }) ∧
    loop_measure n (cover_columns_with_stars n
      { c := s.c, mask := clear_primes (augment_path (set2 s.mask z.1 z.2 2) (z :: l)),
        row_covered := fun _ => false, col_covered := cc }) < loop_measure n s := by
  obtain ⟨rank, b, _, hr⟩ := primed_ranked h hz
  have hs2 := primed_stars h hz
  have hone := primed_eq_one h hz
  have hz2 : set2 s.mask z.1 z.2 2 z.1 z.2 = 2 := set2_two_eq_two.mpr (Or.inl ⟨rfl, rfl⟩)
  have hno2 : ∀ j, j < n → set2 s.mask z.1 z.2 2 z.1 j ≠ 1 :=
    fun j hj h1 => hno j hj ((hone z.1 j).mp h1)
  have hnd : (z :: l).Nodup := path_nodup hr hz.lt2 hno2 hch hz2
  obtain ⟨hst, hrows, hnew⟩ := augment_stars hs2 hr hz.lt2 hz2 hno2 hch
  have hv2 : ∀ i j, i < n → j < n → set2 s.mask z.1 z.2 2 i j = 0 ∨
      set2 s.mask z.1 z.2 2 i j = 1 ∨ set2 s.mask z.1 z.2 2 i j = 2 := by
    intro i j hi hj
    unfold set2
    by_cases he : i = z.1 ∧ j = z.2
    · simp [he]
    · simp only [he, if_false]; exact h.vals i j hi hj
  constructor
  · apply mask_phase_start
    · intro i j hi hj
      exact new_mask_vals hnd (hv2 i j hi hj)
    · intro i j hi hj h1
      have hf := (new_mask_eq_one hnd i j).mp h1
      have hne : set2 s.mask z.1 z.2 2 i j ≠ 0 := by
        rcases flipped_eq_one.mp hf with ⟨_, h2⟩ | ⟨_, h2⟩ <;> rw [h2] <;> omega
      unfold set2 at hne
      by_cases he : i = z.1 ∧ j = z.2
      · rw [he.1, he.2]; exact hz.zero
      · simp only [he, if_false] at hne; exact h.zero i j hi hj hne
    · constructor
      · intro i j k hi hj hk h1 h2
        exact hst.rowuniq i j k hi hj hk ((new_mask_eq_one hnd i j).mp h1)
          ((new_mask_eq_one hnd i k).mp h2)
      · intro i k j hi hk hj h1 h2
        exact hst.coluniq i k j hi hk hj ((new_mask_eq_one hnd i j).mp h1)
          ((new_mask_eq_one hnd k j).mp h2)
  · apply measure_lt_of_star
    refine starred_rows_lt ?_ hz.lt1 hno ?_
    · intro i j hi hj h1
      obtain ⟨k, hk, hk1⟩ := hrows i j hi hj ((hone i j).mpr h1)
      exact ⟨k, hk, (new_mask_eq_one hnd i k).mpr hk1⟩
    · exact ⟨z.2, hz.lt2, (new_mask_eq_one hnd z.1 z.2).mpr hnew⟩

theorem handle_zero_mask {fuel n : Nat} {s s1 : State} {z : Nat × Nat}
    (h : MaskInv n s) (hcov : all_columns_covered n s = false) (hz : ZeroAt n s z)
    (hh : handle_zero fuel n s z = .ok s1) :
    MaskInv n s1 ∧ loop_measure n s1 < loop_measure n s := by
  have hfree : ∃ i, i < n ∧ ∀ j, j < n → s.mask i j ≠ 1 := by
    rcases h.free with hall | hex
    · rw [(all_columns_covered_iff n s).mpr hall] at hcov; cases hcov
    · exact hex
  unfold handle_zero at hh
  dsimp only at hh
  split at hh
  · rename_i sc hsc
    obtain ⟨hscn, hsc1⟩ := find_star_in_row_some hsc
    have hstar : s.mask z.1 sc = 1 := (primed_eq_one h hz z.1 sc).mp hsc1
    simp only [Except.ok.injEq] at hh
    subst hh
    exact ⟨mask_cover_step h hz hfree hscn hstar, measure_cover_step h hz sc⟩
  · rename_i hnone
    have hno : ∀ j, j < n → s.mask z.1 j ≠ 1 := fun j hj h1 =>
      find_star_in_row_none hnone j hj ((primed_eq_one h hz z.1 j).mpr h1)
    split at hh
    · cases hh
    · rename_i path hpath
      obtain ⟨l, hl, hch⟩ := build_path_chain _ _ _ _ hpath
      simp only [Except.ok.injEq] at hh
      subst hh
      rw [hl]
      exact mask_augment h hz hno hch _

theorem build_path_total_at {n : Nat} {s : State} {z : Nat × Nat}
    (h : MaskInv n s) (hz : ZeroAt n s z) :
    ∃ fuel path, build_path fuel n
      { c := s.c, mask := set2 s.mask z.1 z.2 2, row_covered := s.row_covered,
        col_covered := s.col_covered } z.2 [z] = .ok path := by
  obtain ⟨rank, b, hb, hr⟩ := primed_ranked h hz
  have hsp := primed_star_prime h hz
  have hcolz : ∀ k, k < n → set2 s.mask z.1 z.2 2 k z.2 = 1 →
      s.row_covered k = true := fun k hk h1 =>
    star_row_covered h hk hz.lt2 ((primed_eq_one h hz k z.2).mp h1) hz.col
  obtain ⟨path, hpath⟩ := build_path_total
    (s := { c := s.c, mask := set2 s.mask z.1 z.2 2, row_covered := s.row_covered,
            col_covered := s.col_covered }) hr hsp (b + 1) b z.2 [z] hz.lt2
    (fun k hk h1 => hb k hk (Or.inl (hcolz k hk h1)))
    (fun k hk h1 => by
      obtain ⟨j1, hj1, hp⟩ := h.rowprime k hk (hcolz k hk h1)
      exact ⟨j1, hj1, set2_two_eq_two.mpr (Or.inr hp)⟩)
    (Nat.lt_succ_self b)
  exact ⟨b + 1, path, hpath⟩

theorem handle_zero_total {n : Nat} {s : State} {z : Nat × Nat}
    (h : MaskInv n s) (hz : ZeroAt n s z) :
    ∃ fuel s1, handle_zero fuel n s z = .ok s1 := by
  obtain ⟨fuel, path, hpath⟩ := build_path_total_at h hz
  refine ⟨fuel, ?_⟩
  unfold handle_zero
  dsimp only
  split
  · exact ⟨_, rfl⟩
  · rw [hpath]
    exact ⟨_, rfl⟩

theorem handle_zero_rows {fuel n : Nat} {s s1 : State} {z : Nat × Nat}
    (h : MaskInv n s) (hz : ZeroAt n s z) (hh : handle_zero fuel n s z = .ok s1) :
    s1.c = s.c ∧ ∀ i j, i < n → j < n → s.mask i j = 1 → ∃ k, k < n ∧ s1.mask i k = 1 := by
  have hone := primed_eq_one h hz
  unfold handle_zero at hh
  dsimp only at hh
  split at hh
  · simp only [Except.ok.injEq] at hh
    subst hh
    exact ⟨rfl, fun i j _ hj h1 => ⟨j, hj, (hone i j).mpr h1⟩⟩
  · rename_i hnone
    have hno2 : ∀ j, j < n → set2 s.mask z.1 z.2 2 z.1 j ≠ 1 :=
      fun j hj => find_star_in_row_none hnone j hj
    split at hh
    · cases hh
    · rename_i path hpath
      obtain ⟨l, hl, hch⟩ := build_path_chain _ _ _ _ hpath
      simp only [Except.ok.injEq] at hh
      subst hh
      obtain ⟨rank, b, _, hr⟩ := primed_ranked h hz
      have hz2 : set2 s.mask z.1 z.2 2 z.1 z.2 = 2 := set2_two_eq_two.mpr (Or.inl ⟨rfl, rfl⟩)
      have hnd : (z :: l).Nodup := path_nodup hr hz.lt2 hno2 hch hz2
      obtain ⟨_, hrows, _⟩ := augment_stars (primed_stars h hz) hr hz.lt2 hz2 hno2 hch
      refine ⟨rfl, ?_⟩
      intro i j hi hj h1
      obtain ⟨k, hk, hk1⟩ := hrows i j hi hj ((hone i j).mpr h1)
      refine ⟨k, hk, ?_⟩
      have : path = z :: l := by simpa using hl
      rw [this]
      exact (new_mask_eq_one hnd i k).mpr hk1

theorem handle_zero_cover {fuel n : Nat} {s : State} {z : Nat × Nat} {sc : Nat}
    (h : find_star_in_row n
      { c := s.c, mask := set2 s.mask z.1 z.2 2, row_covered := s.row_covered,
        col_covered := s.col_covered } z.1 = some sc) :
    handle_zero fuel n s z = .ok
      { c := s.c, mask := set2 s.mask z.1 z.2 2,
        row_covered := set1 s.row_covered z.1 true,
        col_covered := set1 s.col_covered sc false } := by
  unfold handle_zero
  dsimp only
  rw [h]

/-! ## The loops: fuel monotonicity, partial correctness, termination -/

theorem search_zero_mono {w : Int → Int} {n : Nat} {r : State × (Nat × Nat)} :
    ∀ (f f1 : Nat) (s : State), f ≤ f1 → search_zero w f n s = .ok r →
      search_zero w f1 n s = .ok r := by
  intro f
  induction f with
  | zero => intro f1 s _ h; simp [search_zero] at h
  | succ f ih =>
    intro f1 s hle h
    obtain ⟨f2, rfl⟩ : ∃ f2, f1 = f2 + 1 := ⟨f1 - 1, by omega⟩
    unfold search_zero at h ⊢
    cases hz : find_a_zero n s with
    | some z => simp only [hz] at h ⊢; exact h
    | none => simp only [hz] at h ⊢; exact ih f2 _ (by omega) h

theorem build_path_mono {n : Nat} {s : State} {path : List (Nat × Nat)} :
    ∀ (f f1 c_ : Nat) (acc : List (Nat × Nat)), f ≤ f1 → build_path f n s c_ acc = .ok path →
      build_path f1 n s c_ acc = .ok path := by
  intro f
  induction f with
  | zero => intro f1 c_ acc _ h; simp [build_path] at h
  | succ f ih =>
    intro f1 c_ acc hle h
    obtain ⟨f2, rfl⟩ : ∃ f2, f1 = f2 + 1 := ⟨f1 - 1, by omega⟩
    unfold build_path at h ⊢
    cases hs : find_star_in_col n s c_ with
    | none => simp only [hs] at h ⊢; exact h
    | some r =>
      simp only [hs] at h ⊢
      cases hp : find_prime_in_row n s r with
      | none => simp [hp] at h
      | some c1 => simp only [hp] at h ⊢; exact ih f2 _ _ (by omega) h

theorem handle_zero_mono {n : Nat} {s s1 : State} {z : Nat × Nat} {f f1 : Nat} (hle : f ≤ f1)
    (h : handle_zero f n s z = .ok s1) : handle_zero f1 n s z = .ok s1 := by
  unfold handle_zero at h ⊢
  dsimp only at h ⊢
  split
  · rename_i sc hsc
    simp only [hsc] at h
    exact h
  · rename_i hnone
    simp only [hnone] at h
    split at h
    · cases h
    · rename_i path hpath
      rw [build_path_mono f f1 _ _ hle hpath]
      exact h

theorem loop_body_mono {w : Int → Int} {n : Nat} {s s1 : State} {f f1 : Nat} (hle : f ≤ f1)
    (h : loop_body w f n s = .ok s1) : loop_body w f1 n s = .ok s1 := by
  unfold loop_body at h ⊢
  split at h
  · cases h
  · rename_i s2 z hs
    rw [search_zero_mono f f1 s hle hs]
    exact handle_zero_mono hle h

theorem main_loop_mono {w : Int → Int} {n : Nat} {s1 : State} {f f1 : Nat} (hle : f ≤ f1) :
    ∀ (k k1 : Nat) (s : State), k ≤ k1 → main_loop w f n k s = .ok s1 →
      main_loop w f1 n k1 s = .ok s1 := by
  intro k
  induction k with
  | zero => intro k1 s _ h; simp [main_loop] at h
  | succ k ih =>
    intro k1 s hk h
    obtain ⟨k2, rfl⟩ : ∃ k2, k1 = k2 + 1 := ⟨k1 - 1, by omega⟩
    unfold main_loop at h ⊢
    by_cases hc : all_columns_covered n s = true
    · simp only [hc, if_true] at h ⊢; exact h
    · simp only [hc, Bool.false_eq_true, if_false] at h ⊢
      split at h
      · cases h
      · rename_i s2 hb
        rw [loop_body_mono hle hb]
        exact ih k2 s2 (by omega) h

theorem run_mono {w : Int → Int} {cost mask : Matrix Int} {f f1 : Nat} (hle : f ≤ f1)
    (h : run_munkres_algorithm w f cost = .ok mask) :
    run_munkres_algorithm w f1 cost = .ok mask := by
  unfold run_munkres_algorithm at h ⊢
  by_cases hsq : cost.nrows = cost.ncols
  · simp only [hsq, ne_eq, not_true_eq_false, if_false] at h ⊢
    split at h
    · cases h
    · rename_i s hs
      rw [main_loop_mono hle f f1 _ hle hs]
      exact h
  · simp [hsq] at h

theorem search_zero_error {w : Int → Int} {n : Nat} {e : Error} :
    ∀ (fuel : Nat) (s : State), search_zero w fuel n s = .error e → e = .out_of_fuel := by
  intro fuel
  induction fuel with
  | zero => intro s h; simp only [search_zero, Except.error.injEq] at h; exact h.symm
  | succ fuel ih =>
    intro s h
    unfold search_zero at h
    cases hz : find_a_zero n s with
    | some z => simp [hz] at h
    | none => simp only [hz] at h; exact ih _ h

theorem build_path_error {n : Nat} {s : State} {e : Error} :
    ∀ (fuel c_ : Nat) (acc : List (Nat × Nat)), build_path fuel n s c_ acc = .error e →
      e = .out_of_fuel ∨ e = .out_of_range := by
  intro fuel
  induction fuel with
  | zero =>
    intro c_ acc h
    simp only [build_path, Except.error.injEq] at h; exact Or.inl h.symm
  | succ fuel ih =>
    intro c_ acc h
    unfold build_path at h
    cases hs : find_star_in_col n s c_ with
    | none => simp [hs] at h
    | some r =>
      simp only [hs] at h
      cases hp : find_prime_in_row n s r with
      | none => simp only [hp, Except.error.injEq] at h; exact Or.inr h.symm
      | some c1 => simp only [hp] at h; exact ih _ _ h

theorem loop_body_error {w : Int → Int} {fuel n : Nat} {s : State} {e : Error}
    (h : loop_body w fuel n s = .error e) : e = .out_of_fuel ∨ e = .out_of_range := by
  unfold loop_body at h
  split at h
  · rename_i e1 hs
    simp only [Except.error.injEq] at h
    subst h
    exact Or.inl (search_zero_error _ _ hs)
  · unfold handle_zero at h
    dsimp only at h
    split at h
    · cases h
    · split at h
      · rename_i e1 hp
        simp only [Except.error.injEq] at h
        subst h
        exact build_path_error _ _ _ hp
      · cases h

theorem main_loop_error {w : Int → Int} {fuel n : Nat} {e : Error} :
    ∀ (k : Nat) (s : State), main_loop w fuel n k s = .error e →
      e = .out_of_fuel ∨ e = .out_of_range := by
  intro k
  induction k with
  | zero =>
    intro s h
    simp only [main_loop, Except.error.injEq] at h; exact Or.inl h.symm
  | succ k ih =>
    intro s h
    unfold main_loop at h
    by_cases hc : all_columns_covered n s = true
    · simp [hc] at h
    · simp only [hc, Bool.false_eq_true, if_false] at h
      split at h
      · rename_i e1 hb
        simp only [Except.error.injEq] at h
        subst h
        exact loop_body_error hb
      · exact ih _ h

theorem free_row {n : Nat} {s : State} (h : MaskInv n s)
    (hcov : all_columns_covered n s = false) :
    ∃ i, i < n ∧ ∀ j, j < n → s.mask i j ≠ 1 := by
  rcases h.free with hall | hex
  · rw [(all_columns_covered_iff n s).mpr hall] at hcov; cases hcov
  · exact hex

theorem exists_uncovered {n : Nat} {s : State} (h : MaskInv n s)
    (hcov : all_columns_covered n s = false) :
    ∃ i j, i < n ∧ j < n ∧ s.row_covered i = false ∧ s.col_covered j = false := by
  have hnall : ¬ ∀ j, j < n → s.col_covered j = true := by
    intro hall
    rw [(all_columns_covered_iff n s).mpr hall] at hcov; cases hcov
  obtain ⟨i, hi, hno⟩ := free_row h hcov
  push_neg at hnall
  obtain ⟨j, hj, hjc⟩ := hnall
  refine ⟨i, j, hi, hj, ?_, by simpa using hjc⟩
  rcases Bool.eq_false_or_eq_true (s.row_covered i) with hr | hr
  · obtain ⟨k, hk, h1⟩ := h.rowcov i hi hr
    exact absurd h1 (hno k hk)
  · exact hr

theorem loop_measure_congr {n : Nat} {s t : State} (hm : t.mask = s.mask)
    (hr : t.row_covered = s.row_covered) : loop_measure n t = loop_measure n s := by
  simp only [loop_measure, starred_rows, covered_rows, find_star_in_row, hm, hr]

theorem all_columns_covered_congr {n : Nat} {s t : State}
    (hc : t.col_covered = s.col_covered) :
    all_columns_covered n t = all_columns_covered n s := by
  simp only [all_columns_covered, hc]

section Kept

variable {w : Int → Int} {n : Nat} {P : State → Prop}

theorem search_zero_keeps (hP : Preserved w n P) :
    ∀ (fuel : Nat) (s s1 : State) (z : Nat × Nat), P s →
      all_columns_covered n s = false → search_zero w fuel n s = .ok (s1, z) →
      P s1 ∧ find_a_zero n s1 = some z ∧ s1.mask = s.mask ∧
        s1.row_covered = s.row_covered ∧ s1.col_covered = s.col_covered := by
  intro fuel
  induction fuel with
  | zero => intro s s1 z _ _ h; simp [search_zero] at h
  | succ fuel ih =>
    intro s s1 z hs hcov h
    unfold search_zero at h
    cases hz : find_a_zero n s with
    | some z1 =>
      simp only [hz, Except.ok.injEq, Prod.mk.injEq] at h
      obtain ⟨rfl, rfl⟩ := h
      exact ⟨hs, hz, rfl, rfl, rfl⟩
    | none =>
      simp only [hz] at h
      exact ih (adjust w n s) s1 z (hP.adjust s hs hcov hz) hcov h

theorem loop_body_keeps (hP : Preserved w n P) {fuel : Nat} {s s1 : State} (hs : P s)
    (hcov : all_columns_covered n s = false) (hb : loop_body w fuel n s = .ok s1) :
    P s1 ∧ loop_measure n s1 < loop_measure n s := by
  unfold loop_body at hb
  split at hb
  · cases hb
  · rename_i s2 z hsz
    obtain ⟨hs2, hz, hm, hr, hc⟩ := search_zero_keeps hP fuel s s2 z hs hcov hsz
    have hcov2 : all_columns_covered n s2 = false := by
      rw [all_columns_covered_congr hc]; exact hcov
    have hz2 := zeroAt_of_find hz
    obtain ⟨hmask, hlt⟩ := handle_zero_mask (hP.mask s2 hs2) hcov2 hz2 hb
    rw [loop_measure_congr hm hr] at hlt
    obtain ⟨hc1, hrows⟩ := handle_zero_rows (hP.mask s2 hs2) hz2 hb
    exact ⟨hP.handle s2 s1 hs2 hmask hc1 hrows, hlt⟩

theorem loop_body_total (hP : Preserved w n P) {s : State} (hs : P s)
    (hcov : all_columns_covered n s = false) :
    ∃ fuel s1, loop_body w fuel n s = .ok s1 := by
  obtain ⟨f1, ⟨s2, z⟩, hsz⟩ := hP.search s hs hcov
  obtain ⟨hs2, hz, _, _, _⟩ := search_zero_keeps hP f1 s s2 z hs hcov hsz
  obtain ⟨f2, s1, hh⟩ := handle_zero_total (hP.mask s2 hs2) (zeroAt_of_find hz)
  refine ⟨max f1 f2, s1, ?_⟩
  unfold loop_body
  rw [search_zero_mono f1 (max f1 f2) s (le_max_left _ _) hsz]
  exact handle_zero_mono (le_max_right _ _) hh

theorem main_loop_spec (hP : Preserved w n P) {fuel : Nat} :
    ∀ (k : Nat) (s s1 : State), P s → main_loop w fuel n k s = .ok s1 →
      P s1 ∧ all_columns_covered n s1 = true := by
  intro k
  induction k with
  | zero => intro s s1 _ h; simp [main_loop] at h
  | succ k ih =>
    intro s s1 hs h
    unfold main_loop at h
    by_cases hc : all_columns_covered n s = true
    · simp only [hc, if_true, Except.ok.injEq] at h
      subst h; exact ⟨hs, hc⟩
    · simp only [hc, Bool.false_eq_true, if_false] at h
      split at h
      · cases h
      · rename_i s2 hb
        exact ih s2 s1 (loop_body_keeps hP hs (by simpa using hc) hb).1 h

theorem main_loop_total (hP : Preserved w n P) :
    ∀ (m : Nat) (s : State), P s → loop_measure n s ≤ m →
      ∃ fuel s1, main_loop w fuel n fuel s = .ok s1 := by
  intro m
  induction m with
  | zero =>
    intro s hs hm
    by_cases hc : all_columns_covered n s = true
    · exact ⟨1, s, by simp [main_loop, hc]⟩
    · obtain ⟨f, s2, hb⟩ := loop_body_total hP hs (by simpa using hc)
      have := (loop_body_keeps hP hs (by simpa using hc) hb).2
      omega
  | succ m ih =>
    intro s hs hm
    by_cases hc : all_columns_covered n s = true
    · exact ⟨1, s, by simp [main_loop, hc]⟩
    · obtain ⟨f, s2, hb⟩ := loop_body_total hP hs (by simpa using hc)
      obtain ⟨hs2, hlt⟩ := loop_body_keeps hP hs (by simpa using hc) hb
      obtain ⟨f3, s1, hl⟩ := ih s2 hs2 (by omega)
      refine ⟨max f f3 + 1, s1, ?_⟩
      unfold main_loop
      simp only [hc, Bool.false_eq_true, if_false]
      rw [loop_body_mono (show f ≤ max f f3 + 1 by omega) hb]
      exact main_loop_mono (by omega) f3 (max f f3) s2 (by omega) hl

end Kept

section Reached

variable {w : Int → Int} {cost : Matrix Int} {P : State → Prop}

theorem reach_keeps (hP : Preserved w cost.nrows P) (h0 : P (initial_state w cost))
    {s : State} (h : Reach w cost s) : P s := by
  induction h with
  | init => exact h0
  | adjust s _ hcov hz ih => exact hP.adjust s ih hcov hz
  | handle fuel s s1 z _ hcov hz hh ih =>
    have hz2 := zeroAt_of_find hz
    obtain ⟨hc1, hrows⟩ := handle_zero_rows (hP.mask s ih) hz2 hh
    exact hP.handle s s1 ih (handle_zero_mask (hP.mask s ih) hcov hz2 hh).1 hc1 hrows

theorem search_zero_reach :
    ∀ (fuel : Nat) (s s1 : State) (z : Nat × Nat), Reach w cost s →
      all_columns_covered cost.nrows s = false →
      search_zero w fuel cost.nrows s = .ok (s1, z) →
      Reach w cost s1 ∧ find_a_zero cost.nrows s1 = some z ∧
        all_columns_covered cost.nrows s1 = false := by
  intro fuel
  induction fuel with
  | zero => intro s s1 z _ _ h; simp [search_zero] at h
  | succ fuel ih =>
    intro s s1 z hr hcov h
    unfold search_zero at h
    cases hz : find_a_zero cost.nrows s with
    | some z1 =>
      simp only [hz, Except.ok.injEq, Prod.mk.injEq] at h
      obtain ⟨rfl, rfl⟩ := h
      exact ⟨hr, hz, hcov⟩
    | none =>
      simp only [hz] at h
      exact ih (adjust w cost.nrows s) s1 z (Reach.adjust s hr hcov hz) hcov h

theorem main_loop_reach {fuel : Nat} :
    ∀ (k : Nat) (s s1 : State), Reach w cost s → main_loop w fuel cost.nrows k s = .ok s1 →
      Reach w cost s1 ∧ all_columns_covered cost.nrows s1 = true := by
  intro k
  induction k with
  | zero => intro s s1 _ h; simp [main_loop] at h
  | succ k ih =>
    intro s s1 hr h
    unfold main_loop at h
    by_cases hc : all_columns_covered cost.nrows s = true
    · simp only [hc, if_true, Except.ok.injEq] at h
      subst h; exact ⟨hr, hc⟩
    · simp only [hc, Bool.false_eq_true, if_false] at h
      split at h
      · cases h
      · rename_i s2 hb
        have hcov : all_columns_covered cost.nrows s = false := by simpa using hc
        unfold loop_body at hb
        split at hb
        · cases hb
        · rename_i s3 z hs
          obtain ⟨hr3, hz, hcov3⟩ := search_zero_reach fuel s s3 z hr hcov hs
          exact ih s2 s1 (Reach.handle fuel s3 s2 z hr3 hcov3 hz hb) h

theorem run_spec {mask : Matrix Int} {fuel : Nat}
    (h : run_munkres_algorithm w fuel cost = .ok mask) :
    cost.nrows = cost.ncols ∧ ∃ s, Reach w cost s ∧
      all_columns_covered cost.nrows s = true ∧
      mask = { nrows := cost.nrows, ncols := cost.nrows, get := s.mask } := by
  unfold run_munkres_algorithm at h
  by_cases hsq : cost.nrows = cost.ncols
  · simp only [hsq, ne_eq, not_true_eq_false, if_false] at h
    split at h
    · cases h
    · rename_i s hs
      simp only [Except.ok.injEq] at h
      rw [← hsq] at hs
      obtain ⟨hr, hcov⟩ := main_loop_reach _ _ _ Reach.init hs
      refine ⟨hsq, s, hr, hcov, ?_⟩
      rw [← h, hsq]
  · simp [hsq] at h

theorem run_total (hP : Preserved w cost.nrows P) (h0 : P (initial_state w cost))
    (hsq : cost.nrows = cost.ncols) :
    ∃ fuel mask, ∀ f, fuel ≤ f → run_munkres_algorithm w f cost = .ok mask := by
  obtain ⟨fuel, s, hs⟩ := main_loop_total hP (loop_measure cost.nrows (initial_state w cost))
    (initial_state w cost) h0 (le_refl _)
  refine ⟨fuel, { nrows := cost.nrows, ncols := cost.nrows, get := s.mask }, ?_⟩
  intro f hf
  unfold run_munkres_algorithm
  simp only [hsq, ne_eq, not_true_eq_false, if_false]
  rw [← hsq, main_loop_mono hf fuel f _ hf hs]

end Reached

/-! ## The state on entry to the main loop -/

theorem set2_one_eq_one {m : Nat → Nat → Int} {a b i j : Nat} :
    set2 m a b 1 i j = 1 ↔ (i = a ∧ j = b) ∨ m i j = 1 := by
  unfold set2
  by_cases he : i = a ∧ j = b
  · simp [he]
  · simp [he]

theorem star_cell_inv {n : Nat} {c0 : Nat → Nat → Int} {s : State} {i j : Nat}
    (hi : i < n) (hj : j < n) (h : StarInv n c0 s) : StarInv n c0 (star_cell s i j) := by
  unfold star_cell
  split
  · rename_i hcond
    obtain ⟨hc0, hr, hc⟩ := hcond
    have hrow : ∀ k, k < n → s.mask i k ≠ 1 := by
      intro k hk h1
      rw [(h.cov i k hi hk h1).1] at hr; cases hr
    have hcol : ∀ k, k < n → s.mask k j ≠ 1 := by
      intro k hk h1
      rw [(h.cov k j hk hj h1).2] at hc; cases hc
    refine ⟨h.cost, ?_, ?_, ⟨?_, ?_⟩, ?_⟩
    · intro a b ha hb
      show set2 s.mask i j 1 a b = 0 ∨ set2 s.mask i j 1 a b = 1
      unfold set2
      by_cases he : a = i ∧ b = j
      · simp [he]
      · simp only [he, if_false]; exact h.vals a b ha hb
    · intro a b ha hb h1
      show s.c a b = 0
      rcases set2_one_eq_one.mp h1 with ⟨rfl, rfl⟩ | h1
      · exact hc0
      · exact h.zero a b ha hb h1
    · intro a b k ha hb hk h1 h2
      rcases set2_one_eq_one.mp h1 with ⟨ha1, hb1⟩ | h3 <;>
        rcases set2_one_eq_one.mp h2 with ⟨ha2, hk2⟩ | h4
      · omega
      · subst ha1; exact absurd h4 (hrow k hk)
      · subst ha2; exact absurd h3 (hrow b hb)
      · exact h.stars.rowuniq a b k ha hb hk h3 h4
    · intro a k b ha hk hb h1 h2
      rcases set2_one_eq_one.mp h1 with ⟨ha1, hb1⟩ | h3 <;>
        rcases set2_one_eq_one.mp h2 with ⟨hk2, hb2⟩ | h4
      · omega
      · subst hb1; exact absurd h4 (hcol k hk)
      · subst hb2; exact absurd h3 (hcol a ha)
      · exact h.stars.coluniq a k b ha hk hb h3 h4
    · intro a b ha hb h1
      show set1 s.row_covered i true a = true ∧ set1 s.col_covered j true b = true
      unfold set1
      rcases set2_one_eq_one.mp h1 with ⟨rfl, rfl⟩ | h1
      · simp
      · obtain ⟨h3, h4⟩ := h.cov a b ha hb h1
        constructor <;> split <;> simp [h3, h4]
  · exact h

theorem initial_stars_inv {n : Nat} {c0 : Nat → Nat → Int} {s : State} (h : StarInv n c0 s) :
    StarInv n c0 (initial_stars n s) := by
  unfold initial_stars
  apply foldl_invariant (StarInv n c0) _ _ _ _ h
  intro a i hi ha
  apply foldl_invariant (StarInv n c0) _ _ _ _ ha
  intro a j hj ha
  exact star_cell_inv (List.mem_range.mp hi) (List.mem_range.mp hj) ha

theorem empty_star_inv (n : Nat) (c0 : Nat → Nat → Int) :
    StarInv n c0
      { c := c0, mask := fun _ _ => 0, row_covered := fun _ => false,
        col_covered := fun _ => false } := by
  refine ⟨rfl, fun _ _ _ _ => Or.inl rfl, ?_, ⟨?_, ?_⟩, ?_⟩
  · intro i j _ _ h; simp at h
  · intro i j k _ _ _ h; simp at h
  · intro i k j _ _ _ h; simp at h
  · intro i j _ _ h; simp at h

theorem initial_state_c (w : Int → Int) (cost : Matrix Int) :
    (initial_state w cost).c = col_reduce w cost.nrows (row_reduce w cost.nrows cost.get) :=
  (initial_stars_inv (empty_star_inv cost.nrows _)).cost

theorem initial_state_mask (w : Int → Int) (cost : Matrix Int) :
    MaskInv cost.nrows (initial_state w cost) := by
  have hst := initial_stars_inv
    (empty_star_inv cost.nrows (col_reduce w cost.nrows (row_reduce w cost.nrows cost.get)))
  unfold initial_state
  exact mask_phase_start _ _ _ hst.vals hst.zero hst.stars

theorem initial_state_stored {w : Int → Int} (hw : Storing w) (cost : Matrix Int) :
    StoredInv w cost.nrows (initial_state w cost) := by
  refine ⟨initial_state_mask w cost, ?_⟩
  intro i j _ _
  rw [initial_state_c]
  exact hw.idem _

theorem initial_state_inv (cost : Matrix Int) :
    Inv cost.nrows cost.get (initial_state exact_int cost) := by
  refine ⟨initial_state_mask exact_int cost, ?_, ?_⟩
  · intro i j hi hj
    rw [initial_state_c]
    have := col_min_le (row_reduce exact_int cost.nrows cost.get) j hi
    show 0 ≤ row_reduce exact_int cost.nrows cost.get i j
      - col_min cost.nrows (row_reduce exact_int cost.nrows cost.get) j
    omega
  · refine ⟨fun i => min_element cost.nrows (cost.get i),
      fun j => col_min cost.nrows (row_reduce exact_int cost.nrows cost.get) j, ?_⟩
    intro i j _ _
    rw [initial_state_c]
    rfl

/-! ## The search for a zero terminates -/

theorem min_uncovered_pos {n : Nat} {cost : Nat → Nat → Int} {s : State} (h : Inv n cost s)
    (hz : find_a_zero n s = none) : 1 ≤ min_uncovered n s := by
  apply le_min_uncovered s (by unfold INT_MAX; omega)
  intro i j hi hj hr hc
  have h0 := h.nonneg i j hi hj
  have h1 := find_a_zero_none hz i j hi hj hr hc
  omega

theorem search_zero_total_dec {w : Int → Int} {n : Nat} {P : State → Prop}
    (hmask : ∀ s, P s → MaskInv n s)
    (hnn : ∀ s, P s → ∀ i j, i < n → j < n → 0 ≤ s.c i j)
    (hadj : ∀ s, P s → all_columns_covered n s = false → find_a_zero n s = none →
      P (adjust w n s))
    (hdec : ∀ s, P s → all_columns_covered n s = false → find_a_zero n s = none →
      ∀ i j, i < n → j < n → s.row_covered i = false → s.col_covered j = false →
        (adjust w n s).c i j < s.c i j)
    {s : State} (h : P s) (hcov : all_columns_covered n s = false) :
    ∃ fuel r, search_zero w fuel n s = .ok r := by
  obtain ⟨i, j, hi, hj, hr, hc⟩ := exists_uncovered (hmask s h) hcov
  have key : ∀ (k : Nat) (s : State), P s → all_columns_covered n s = false →
      s.row_covered i = false → s.col_covered j = false → s.c i j ≤ k →
      ∃ fuel r, search_zero w fuel n s = .ok r := by
    intro k
    induction k with
    | zero =>
      intro s h hcov hr hc hk
      cases hz : find_a_zero n s with
      | some z => exact ⟨1, (s, z), by simp [search_zero, hz]⟩
      | none =>
        have h0 := hnn s h i j hi hj
        have h1 := find_a_zero_none hz i j hi hj hr hc
        exact absurd (by omega) h1
    | succ k ih =>
      intro s h hcov hr hc hk
      cases hz : find_a_zero n s with
      | some z => exact ⟨1, (s, z), by simp [search_zero, hz]⟩
      | none =>
        have hlt := hdec s h hcov hz i j hi hj hr hc
        obtain ⟨fuel, r, hf⟩ := ih (adjust w n s) (hadj s h hcov hz) hcov hr hc (by omega)
        exact ⟨fuel + 1, r, by simp only [search_zero, hz]; exact hf⟩
  exact key (s.c i j).toNat s h hcov hr hc (Int.self_le_toNat _)

theorem search_zero_total_exact {n : Nat} {cost : Nat → Nat → Int} {s : State}
    (h : Inv n cost s) (hcov : all_columns_covered n s = false) :
    ∃ fuel r, search_zero exact_int fuel n s = .ok r := by
  refine search_zero_total_dec (P := Inv n cost) (fun _ h => h.toMaskInv)
    (fun _ h => h.nonneg) (fun _ h _ _ => inv_adjust h) ?_ h hcov
  intro s h _ hz i j _ _ hr hc
  have hd := min_uncovered_pos h hz
  have hadj : (adjust exact_int n s).c i j = s.c i j - min_uncovered n s :=
    adjust_by_uu hr hc
  rw [hadj]; omega

theorem adjust_makes_zero {w : Int → Int} (hw : Bounded w) {n : Nat} {s : State}
    (h : StoredInv w n s) (hcov : all_columns_covered n s = false) :
    ∃ z, find_a_zero n (adjust w n s) = some z := by
  obtain ⟨i, j, hi, hj, hr, hc⟩ := exists_uncovered h.toMaskInv hcov
  have hle : s.c i j ≤ INT_MAX := by
    rw [← h.stored i j hi hj]; exact hw.le _
  obtain ⟨a, b, ha, hb, har, hbc, hmin⟩ := min_uncovered_attained hi hj hr hc hle
  cases hz : find_a_zero n (adjust w n s) with
  | some z => exact ⟨z, rfl⟩
  | none =>
    have hne := find_a_zero_none hz a b ha hb har hbc
    have h0 : (adjust w n s).c a b = 0 := by
      unfold adjust
      rw [adjust_by_uu har hbc, hmin, sub_self, hw.zero]
    exact absurd h0 hne

theorem search_zero_total_bounded {w : Int → Int} (hw : Bounded w) {n : Nat} {s : State}
    (h : StoredInv w n s) (hcov : all_columns_covered n s = false) :
    ∃ fuel r, search_zero w fuel n s = .ok r := by
  cases hz : find_a_zero n s with
  | some z => exact ⟨1, (s, z), by simp [search_zero, hz]⟩
  | none =>
    obtain ⟨z, hz2⟩ := adjust_makes_zero hw h hcov
    exact ⟨2, (adjust w n s, z), by simp [search_zero, hz, hz2]⟩

theorem preserved_exact (n : Nat) (cost : Nat → Nat → Int) :
    Preserved exact_int n (Inv n cost) where
  mask := fun _ h => h.toMaskInv
  adjust := fun _ h _ _ => inv_adjust h
  handle := fun s s1 h hm hc _ =>
    ⟨hm, fun i j hi hj => by rw [hc]; exact h.nonneg i j hi hj, by rw [hc]; exact h.pot⟩
  search := fun _ h hcov => search_zero_total_exact h hcov

theorem preserved_stored {w : Int → Int} (hw : Bounded w) (n : Nat) :
    Preserved w n (StoredInv w n) where
  mask := fun _ h => h.toMaskInv
  adjust := fun _ h _ _ => stored_adjust hw.toStoring h
  handle := fun s s1 h hm hc _ =>
    ⟨hm, fun i j hi hj => by rw [hc]; exact h.stored i j hi hj⟩
  search := fun _ h hcov => search_zero_total_bounded hw h hcov

theorem reach_inv {cost : Matrix Int} {s : State} (h : Reach exact_int cost s) :
    Inv cost.nrows cost.get s :=
  reach_keeps (preserved_exact cost.nrows cost.get) (initial_state_inv cost) h

theorem reach_stored {w : Int → Int} (hw : Bounded w) {cost : Matrix Int} {s : State}
    (h : Reach w cost s) : StoredInv w cost.nrows s :=
  reach_keeps (preserved_stored hw cost.nrows) (initial_state_stored hw.toStoring cost) h

theorem reach_mask {w : Int → Int} (hw : w = exact_int ∨ w = wrap_int32) {cost : Matrix Int}
    {s : State} (h : Reach w cost s) : MaskInv cost.nrows s := by
  rcases hw with rfl | rfl
  · exact (reach_inv h).toMaskInv
  · exact (reach_stored bounded_wrap h).toMaskInv

theorem run_total_of {w : Int → Int} (hw : w = exact_int ∨ w = wrap_int32) (cost : Matrix Int)
    (hsq : cost.nrows = cost.ncols) :
    ∃ fuel mask, ∀ f, fuel ≤ f → run_munkres_algorithm w f cost = .ok mask := by
  rcases hw with rfl | rfl
  · exact run_total (preserved_exact cost.nrows cost.get) (initial_state_inv cost) hsq
  · exact run_total (preserved_stored bounded_wrap cost.nrows)
      (initial_state_stored bounded_wrap.toStoring cost) hsq

theorem search_zero_total_of {w : Int → Int} (hw : w = exact_int ∨ w = wrap_int32)
    {cost : Matrix Int} {s : State} (h : Reach w cost s)
    (hcov : all_columns_covered cost.nrows s = false) :
    ∃ fuel r, search_zero w fuel cost.nrows s = .ok r := by
  rcases hw with rfl | rfl
  · exact search_zero_total_exact (reach_inv h) hcov
  · exact search_zero_total_bounded bounded_wrap (reach_stored bounded_wrap h) hcov

/-! ## The returned mask -/

theorem final_vals {n : Nat} {s : State} (h : MaskInv n s)
    (hcov : all_columns_covered n s = true) :
    ∀ i j, i < n → j < n → s.mask i j = 0 ∨ s.mask i j = 1 := by
  intro i j hi hj
  rcases h.vals i j hi hj with h0 | h1 | h2
  · exact Or.inl h0
  · exact Or.inr h1
  · have := (h.prime i j hi hj h2).2
    rw [(all_columns_covered_iff n s).mp hcov j hj] at this; cases this

theorem final_rows {n : Nat} {s : State} (h : MaskInv n s)
    (hcov : all_columns_covered n s = true) :
    ∀ i, i < n → ∃ j, j < n ∧ s.mask i j = 1 := by
  apply pigeonhole (fun j i => s.mask i j = 1)
  · intro j hj
    exact h.colcov j hj ((all_columns_covered_iff n s).mp hcov j hj)
  · intro j k i hj hk hi h1 h2
    exact h.stars.rowuniq i j k hi hj hk h1 h2

theorem final_graph {n : Nat} {s : State} (h : MaskInv n s)
    (hcov : all_columns_covered n s = true) :
    ∃ σ : Equiv.Perm (Fin n), ∀ i j : Fin n, s.mask i j = 1 ↔ σ i = j := by
  classical
  have hrows := final_rows h hcov
  let f : Fin n → Fin n := fun i =>
    ⟨Classical.choose (hrows i i.2), (Classical.choose_spec (hrows i i.2)).1⟩
  have hf : ∀ i : Fin n, s.mask i (f i) = 1 := fun i => (Classical.choose_spec (hrows i i.2)).2
  have hinj : Function.Injective f := by
    intro a b hab
    apply Fin.ext
    have h1 := hf a
    rw [hab] at h1
    exact h.stars.coluniq a b (f b) a.2 b.2 (f b).2 h1 (hf b)
  have hbij : Function.Bijective f := ⟨hinj, Finite.injective_iff_surjective.mp hinj⟩
  refine ⟨Equiv.ofBijective f hbij, ?_⟩
  intro i j
  rw [Equiv.ofBijective_apply]
  constructor
  · intro h1
    exact Fin.ext (h.stars.rowuniq i (f i) j i.2 (f i).2 j.2 (hf i) h1)
  · intro he
    rw [← he]; exact hf i

theorem list_sum_range (n : Nat) (f : Nat → Int) :
    ((List.range n).map f).sum = ∑ i : Fin n, f i := by
  rw [← Finset.sum_range]
  induction n with
  | zero => simp
  | succ n ih => rw [List.sum_range_succ, Finset.sum_range_succ, ih]

theorem selected_cost_graph {n : Nat} {cost mask : Matrix Int} (hr : mask.nrows = n)
    (hc : mask.ncols = n) {σ : Equiv.Perm (Fin n)} (hg : IsGraphOf mask σ) :
    selected_cost cost mask = assignment_cost cost σ := by
  unfold selected_cost assignment_cost
  rw [hr, hc, list_sum_range]
  apply Finset.sum_congr rfl
  intro i _
  rw [list_sum_range]
  have : ∀ j : Fin n, (if mask.get i j = 1 then cost.get i j else 0)
      = if σ i = j then cost.get i j else 0 := by
    intro j
    by_cases h1 : mask.get i j = 1
    · simp [h1, (hg i j).mp h1]
    · have : ¬ σ i = j := fun he => h1 ((hg i j).mpr he)
      simp [h1, this]
  rw [Finset.sum_congr rfl (fun j _ => this j)]
  simp

theorem assignment_optimal {n : Nat} {cost : Matrix Int} {s : State}
    (h : Inv n cost.get s) {σ : Equiv.Perm (Fin n)}
    (hg : ∀ i j : Fin n, s.mask i j = 1 ↔ σ i = j) (τ : Equiv.Perm (Fin n)) :
    assignment_cost cost σ ≤ assignment_cost cost τ := by
  obtain ⟨u, v, huv⟩ := h.pot
  unfold assignment_cost
  have hsplit : ∀ ρ : Equiv.Perm (Fin n), ∑ i : Fin n, cost.get i (ρ i)
      = ∑ i : Fin n, s.c i (ρ i) + ∑ i : Fin n, u i + ∑ j : Fin n, v j := by
    intro ρ
    rw [← Equiv.sum_comp ρ (fun j : Fin n => v j), ← Finset.sum_add_distrib,
      ← Finset.sum_add_distrib]
    apply Finset.sum_congr rfl
    intro i _
    have := huv i (ρ i) i.2 (ρ i).2
    omega
  rw [hsplit σ, hsplit τ]
  have hz : ∑ i : Fin n, s.c i (σ i) = 0 := by
    apply Finset.sum_eq_zero
    intro i _
    apply h.zero i (σ i) i.2 (σ i).2
    rw [(hg i (σ i)).mpr rfl]; omega
  have hnn : 0 ≤ ∑ i : Fin n, s.c i (τ i) :=
    Finset.sum_nonneg (fun i _ => h.nonneg i (τ i) i.2 (τ i).2)
  omega

theorem graph_unique {n : Nat} {mask : Matrix Int} {σ : Equiv.Perm (Fin n)}
    (hg : IsGraphOf mask σ) :
    (∀ i, i < n → ∃! j, j < n ∧ mask.get i j = 1) ∧
    (∀ j, j < n → ∃! i, i < n ∧ mask.get i j = 1) := by
  constructor
  · intro i hi
    refine ⟨σ ⟨i, hi⟩, ⟨(σ ⟨i, hi⟩).2, (hg ⟨i, hi⟩ (σ ⟨i, hi⟩)).mpr rfl⟩, ?_⟩
    rintro j ⟨hj, h1⟩
    have := (hg ⟨i, hi⟩ ⟨j, hj⟩).mp h1
    rw [this]
  · intro j hj
    refine ⟨σ.symm ⟨j, hj⟩, ⟨(σ.symm ⟨j, hj⟩).2,
      (hg (σ.symm ⟨j, hj⟩) ⟨j, hj⟩).mpr (Equiv.apply_symm_apply σ _)⟩, ?_⟩
    rintro i ⟨hi, h1⟩
    have := (hg ⟨i, hi⟩ ⟨j, hj⟩).mp h1
    rw [← this, Equiv.symm_apply_apply]

theorem run_result_mask {w : Int → Int} (hw : w = exact_int ∨ w = wrap_int32)
    {cost mask : Matrix Int} {fuel : Nat}
    (h : run_munkres_algorithm w fuel cost = .ok mask) :
    mask.nrows = cost.nrows ∧ mask.ncols = cost.nrows ∧
    (∀ i j, i < cost.nrows → j < cost.nrows → mask.get i j = 0 ∨ mask.get i j = 1) ∧
    ∃ σ : Equiv.Perm (Fin cost.nrows), IsGraphOf mask σ := by
  obtain ⟨_, s, hr, hcov, rfl⟩ := run_spec h
  have hinv := reach_mask hw hr
  obtain ⟨σ, hσ⟩ := final_graph hinv hcov
  exact ⟨rfl, rfl, final_vals hinv hcov, σ, hσ⟩

theorem run_result {cost mask : Matrix Int} {fuel : Nat}
    (h : run_munkres_algorithm exact_int fuel cost = .ok mask) :
    mask.nrows = cost.nrows ∧ mask.ncols = cost.nrows ∧
    ∃ σ : Equiv.Perm (Fin cost.nrows), IsGraphOf mask σ ∧
      selected_cost cost mask = assignment_cost cost σ ∧
      ∀ τ : Equiv.Perm (Fin cost.nrows), assignment_cost cost σ ≤ assignment_cost cost τ := by
  obtain ⟨_, s, hr, hcov, rfl⟩ := run_spec h
  have hinv := reach_inv hr
  obtain ⟨σ, hσ⟩ := final_graph hinv.toMaskInv hcov
  have hg : IsGraphOf { nrows := cost.nrows, ncols := cost.nrows, get := s.mask } σ := hσ
  exact ⟨rfl, rfl, σ, hg, selected_cost_graph rfl rfl hg, assignment_optimal hinv hσ⟩

theorem example_state_reach (w : Int → Int) (hw : w = exact_int ∨ w = wrap_int32) :
    Reach w example_cost (example_state w) := by
  rcases hw with rfl | rfl
  · exact Reach.handle 1 (initial_state exact_int example_cost) (example_state exact_int)
      (2, 2) Reach.init (by decide) (by decide) (handle_zero_cover (by decide))
  · exact Reach.handle 1 (initial_state wrap_int32 example_cost) (example_state wrap_int32)
      (2, 2) Reach.init (by decide) (by decide) (handle_zero_cover (by decide))

theorem cover_state_reach (w : Int → Int) (hw : w = exact_int ∨ w = wrap_int32) :
    Reach w cover_cost (cover_state w) := by
  rcases hw with rfl | rfl
  · exact Reach.handle 1 (initial_state exact_int cover_cost) (cover_state exact_int)
      (0, 1) Reach.init (by decide) (by decide) (handle_zero_cover (by decide))
  · exact Reach.handle 1 (initial_state wrap_int32 cover_cost) (cover_state wrap_int32)
      (0, 1) Reach.init (by decide) (by decide) (handle_zero_cover (by decide))

theorem overflow_state_reach : Reach wrap_int32 overflow_cost overflow_state :=
  Reach.handle 1 (initial_state wrap_int32 overflow_cost) overflow_state (0, 2) Reach.init
    (by decide) (by decide) (handle_zero_cover (by decide))

/-! ## Bounds on the working costs in exact arithmetic -/

theorem le_min_element {n : Nat} {row : Nat → Int} {lb : Int} (h0 : lb ≤ row 0)
    (h : ∀ j, j < n → lb ≤ row j) : lb ≤ min_element n row := by
  unfold min_element
  apply le_foldl _ h0
  intro m j hj hm
  split
  · exact h j (List.mem_range.mp hj)
  · exact hm

theorem pot_bounds {n : Nat} {cost : Nat → Nat → Int} {M : Int} {s : State} {u v : Nat → Int}
    (h : Inv n cost s)
    (hcost : ∀ i, i < n → ∀ j, j < n → 0 ≤ cost i j ∧ cost i j ≤ M)
    (huv : ∀ i j, i < n → j < n → s.c i j = cost i j - u i - v j)
    (hu : ∀ i, i < n → (∀ j, j < n → s.mask i j ≠ 1) → 0 ≤ u i)
    (hfree : ∃ i, i < n ∧ ∀ j, j < n → s.mask i j ≠ 1) :
    (∀ j, j < n → v j ≤ M) ∧ (∀ i, i < n → -M ≤ u i) := by
  obtain ⟨i0, hi0, hno⟩ := hfree
  have hu0 := hu i0 hi0 hno
  have hv : ∀ j, j < n → v j ≤ M := by
    intro j hj
    have h1 := h.nonneg i0 j hi0 hj
    have h2 := huv i0 j hi0 hj
    have h3 := (hcost i0 hi0 j hj).2
    omega
  refine ⟨hv, ?_⟩
  intro i hi
  by_cases hs : ∀ j, j < n → s.mask i j ≠ 1
  · have := hu i hi hs
    have := hcost i0 hi0 i0 hi0
    omega
  · push_neg at hs
    obtain ⟨j, hj, h1⟩ := hs
    have h2 := h.zero i j hi hj (by rw [h1]; omega)
    have h3 := huv i j hi hj
    have h4 := hv j hj
    have h5 := (hcost i hi j hj).1
    omega

theorem adjust_sum_le {cost : Matrix Int} {M : Int} {s : State}
    (hcost : ∀ i, i < cost.nrows → ∀ j, j < cost.nrows → 0 ≤ cost.get i j ∧ cost.get i j ≤ M)
    (h : Inv cost.nrows cost.get s) (hp : PotInv cost.nrows cost.get M s)
    (hcov : all_columns_covered cost.nrows s = false) :
    PotInv cost.nrows cost.get M (adjust exact_int cost.nrows s) ∧
    ∀ i j, i < cost.nrows → j < cost.nrows → s.row_covered i = true →
      s.c i j + min_uncovered cost.nrows s ≤ 2 * M := by
  obtain ⟨u, v, huv, hv, hu, _⟩ := hp
  have hd := min_uncovered_nonneg h
  have hfree := free_row h.toMaskInv hcov
  have hinv2 := inv_adjust h
  have huv2 : ∀ i j, i < cost.nrows → j < cost.nrows → (adjust exact_int cost.nrows s).c i j
      = cost.get i j
        - (u i - (if s.row_covered i = true then min_uncovered cost.nrows s else 0))
        - (v j + (if s.col_covered j = false then min_uncovered cost.nrows s else 0)) := by
    intro i j hi hj
    have h0 := huv i j hi hj
    unfold adjust
    rcases Bool.eq_false_or_eq_true (s.row_covered i) with hr | hr <;>
      rcases Bool.eq_false_or_eq_true (s.col_covered j) with hc | hc
    · rw [adjust_by_cc hr hc]; simp [hr, hc, exact_int]; omega
    · rw [adjust_by_cu hr hc]; simp [hr, hc, exact_int]; omega
    · rw [adjust_by_uc hr hc]; simp [hr, hc]; omega
    · rw [adjust_by_uu hr hc]; simp [hr, hc, exact_int]; omega
  have hv2 : ∀ j, j < cost.nrows →
      0 ≤ v j + (if s.col_covered j = false then min_uncovered cost.nrows s else 0) := by
    intro j hj
    have := hv j hj
    split <;> omega
  have hu2 : ∀ i, i < cost.nrows → (∀ j, j < cost.nrows →
      (adjust exact_int cost.nrows s).mask i j ≠ 1) →
      0 ≤ u i - (if s.row_covered i = true then min_uncovered cost.nrows s else 0) := by
    intro i hi hno
    have hr : s.row_covered i = false := by
      rcases Bool.eq_false_or_eq_true (s.row_covered i) with hr | hr
      · obtain ⟨k, hk, h1⟩ := h.rowcov i hi hr
        exact absurd h1 (hno k hk)
      · exact hr
    have := hu i hi hno
    simp only [hr, Bool.false_eq_true, if_false]; omega
  obtain ⟨hvM, huM⟩ := pot_bounds hinv2 hcost huv2 hu2 hfree
  constructor
  · refine ⟨_, _, huv2, hv2, hu2, ?_⟩
    intro i j hi hj
    have h1 := huv2 i j hi hj
    have h2 := huM i hi
    have h3 := hv2 j hj
    have h4 := (hcost i hi j hj).2
    omega
  · intro i j hi hj hr
    have h1 := huv i j hi hj
    have h2 := huM i hi
    simp only [hr, if_true] at h2
    have h3 := hv j hj
    have h4 := (hcost i hi j hj).2
    omega

/-! ## Costs that the arithmetic stores without loss -/

theorem fixes_exact (B : Int) : FixesTo exact_int B :=
  fun _ _ _ => rfl

theorem fixes_wrap {B : Int} (h : B ≤ INT_MAX) : FixesTo wrap_int32 B := by
  intro x h0 h1
  exact wrap_int32_of_range (by omega) (by omega)

theorem col_min_congr {n : Nat} {c c1 : Nat → Nat → Int} {j : Nat}
    (h : ∀ i, i < n → c1 i j = c i j) : col_min n c1 j = col_min n c j := by
  unfold col_min
  apply List.foldl_ext
  intro m i hi
  rw [h i (List.mem_range.mp hi)]

section Small

variable {w : Int → Int} {cost : Matrix Int} {M : Int}

theorem row_reduce_small (hw : FixesTo w (2 * M))
    (hb : ∀ i, i < cost.nrows → ∀ j, j < cost.nrows → 0 ≤ cost.get i j ∧ cost.get i j ≤ M)
    {i j : Nat} (hi : i < cost.nrows) (hj : j < cost.nrows) :
    row_reduce w cost.nrows cost.get i j = cost.get i j - min_element cost.nrows (cost.get i) ∧
    0 ≤ cost.get i j - min_element cost.nrows (cost.get i) ∧
    cost.get i j - min_element cost.nrows (cost.get i) ≤ M := by
  have h1 : 0 ≤ min_element cost.nrows (cost.get i) :=
    le_min_element (hb i hi 0 (by omega)).1 (fun j hj => (hb i hi j hj).1)
  have h2 := min_element_le (cost.get i) hj
  have h3 := (hb i hi j hj).2
  refine ⟨hw _ (by omega) (by omega), by omega, by omega⟩

theorem col_reduce_small (hw : FixesTo w (2 * M))
    (hb : ∀ i, i < cost.nrows → ∀ j, j < cost.nrows → 0 ≤ cost.get i j ∧ cost.get i j ≤ M)
    {i j : Nat} (hi : i < cost.nrows) (hj : j < cost.nrows) :
    col_reduce w cost.nrows (row_reduce w cost.nrows cost.get) i j
      = cost.get i j - min_element cost.nrows (cost.get i)
        - col_min cost.nrows (row_reduce exact_int cost.nrows cost.get) j ∧
    0 ≤ col_min cost.nrows (row_reduce exact_int cost.nrows cost.get) j ∧
    0 ≤ cost.get i j - min_element cost.nrows (cost.get i)
        - col_min cost.nrows (row_reduce exact_int cost.nrows cost.get) j ∧
    cost.get i j - min_element cost.nrows (cost.get i)
        - col_min cost.nrows (row_reduce exact_int cost.nrows cost.get) j ≤ M := by
  have hcm : col_min cost.nrows (row_reduce w cost.nrows cost.get) j
      = col_min cost.nrows (row_reduce exact_int cost.nrows cost.get) j :=
    col_min_congr (fun i hi => (row_reduce_small hw hb hi hj).1)
  obtain ⟨h1, h2, h3⟩ := row_reduce_small hw hb hi hj
  have h4 : col_min cost.nrows (row_reduce exact_int cost.nrows cost.get) j
      ≤ cost.get i j - min_element cost.nrows (cost.get i) :=
    col_min_le (row_reduce exact_int cost.nrows cost.get) j hi
  have h5 : 0 ≤ col_min cost.nrows (row_reduce exact_int cost.nrows cost.get) j :=
    col_min_nonneg _ j (fun i _ => row_reduce_nonneg cost.get hj)
  refine ⟨?_, h5, by omega, by omega⟩
  show w (row_reduce w cost.nrows cost.get i j
    - col_min cost.nrows (row_reduce w cost.nrows cost.get) j) = _
  rw [hcm, h1]
  exact hw _ (by omega) (by omega)

theorem small_init (hw : FixesTo w (2 * M))
    (hb : ∀ i, i < cost.nrows → ∀ j, j < cost.nrows → 0 ≤ cost.get i j ∧ cost.get i j ≤ M) :
    Inv cost.nrows cost.get (initial_state w cost) ∧
    PotInv cost.nrows cost.get M (initial_state w cost) := by
  have hc := initial_state_c w cost
  have hu : ∀ i, i < cost.nrows → 0 ≤ min_element cost.nrows (cost.get i) := fun i hi =>
    le_min_element (hb i hi 0 (by omega)).1 (fun j hj => (hb i hi j hj).1)
  constructor
  · refine ⟨initial_state_mask w cost, ?_, ?_⟩
    · intro i j hi hj
      rw [hc, (col_reduce_small hw hb hi hj).1]
      exact (col_reduce_small hw hb hi hj).2.2.1
    · refine ⟨fun i => min_element cost.nrows (cost.get i),
        fun j => col_min cost.nrows (row_reduce exact_int cost.nrows cost.get) j, ?_⟩
      intro i j hi hj
      rw [hc, (col_reduce_small hw hb hi hj).1]
  · refine ⟨fun i => min_element cost.nrows (cost.get i),
      fun j => col_min cost.nrows (row_reduce exact_int cost.nrows cost.get) j, ?_, ?_,
      fun i hi _ => hu i hi, ?_⟩
    · intro i j hi hj
      rw [hc, (col_reduce_small hw hb hi hj).1]
    · intro j hj
      by_cases hn : 0 < cost.nrows
      · exact (col_reduce_small hw hb hn hj).2.1
      · omega
    · intro i j hi hj
      rw [hc, (col_reduce_small hw hb hi hj).1]
      have := (col_reduce_small hw hb hi hj).2.2.2
      have := (col_reduce_small hw hb hi hj).2.2.1
      omega

theorem inv_congr {n : Nat} {f : Nat → Nat → Int} {s t : State}
    (hc : ∀ i j, i < n → j < n → t.c i j = s.c i j) (hm : t.mask = s.mask)
    (hr : t.row_covered = s.row_covered) (hcc : t.col_covered = s.col_covered)
    (h : Inv n f s) : Inv n f t := by
  refine ⟨⟨?_, ?_, ?_, ?_, ?_, ?_, ?_, ?_, ?_, ?_⟩, ?_, ?_⟩
  · rw [hm]; exact h.vals
  · intro i j hi hj hne
    rw [hc i j hi hj]; rw [hm] at hne; exact h.zero i j hi hj hne
  · rw [hm]; exact h.stars
  · rw [hm, hr, hcc]; exact h.starcov
  · rw [hm, hcc]; exact h.colcov
  · rw [hm, hr]; exact h.rowcov
  · rw [hm, hr]; exact h.rowprime
  · rw [hm, hr, hcc]; exact h.prime
  · rw [hm, hr]; exact h.ranked
  · rw [hm, hcc]; exact h.free
  · intro i j hi hj; rw [hc i j hi hj]; exact h.nonneg i j hi hj
  · obtain ⟨u, v, huv⟩ := h.pot
    exact ⟨u, v, fun i j hi hj => by rw [hc i j hi hj]; exact huv i j hi hj⟩

theorem potinv_congr {n : Nat} {f : Nat → Nat → Int} {s t : State}
    (hc : ∀ i j, i < n → j < n → t.c i j = s.c i j) (hm : t.mask = s.mask)
    (h : PotInv n f M s) : PotInv n f M t := by
  obtain ⟨u, v, huv, hv, hu, hle⟩ := h
  refine ⟨u, v, ?_, hv, ?_, ?_⟩
  · intro i j hi hj; rw [hc i j hi hj]; exact huv i j hi hj
  · rw [hm]; exact hu
  · intro i j hi hj; rw [hc i j hi hj]; exact hle i j hi hj

theorem adjust_agrees (hw : FixesTo w (2 * M))
    (hb : ∀ i, i < cost.nrows → ∀ j, j < cost.nrows → 0 ≤ cost.get i j ∧ cost.get i j ≤ M)
    {s : State} (h : Inv cost.nrows cost.get s) (hp : PotInv cost.nrows cost.get M s)
    (hcov : all_columns_covered cost.nrows s = false) :
    ∀ i j, i < cost.nrows → j < cost.nrows →
      (adjust w cost.nrows s).c i j = (adjust exact_int cost.nrows s).c i j := by
  intro i j hi hj
  have hd := min_uncovered_nonneg h
  have h0 := h.nonneg i j hi hj
  obtain ⟨hp2, hsum⟩ := adjust_sum_le hb h hp hcov
  obtain ⟨_, _, _, _, _, hle2⟩ := hp2
  obtain ⟨_, _, _, _, _, hle⟩ := hp
  have hnew := (inv_adjust h).nonneg i j hi hj
  have hnewle := hle2 i j hi hj
  unfold adjust at hnew hnewle ⊢
  rcases Bool.eq_false_or_eq_true (s.row_covered i) with hr | hr <;>
    rcases Bool.eq_false_or_eq_true (s.col_covered j) with hc | hc
  · rw [adjust_by_cc hr hc, adjust_by_cc hr hc]
    exact hw _ (by omega) (hsum i j hi hj hr)
  · rw [adjust_by_cu hr hc, adjust_by_cu hr hc]
    rw [hw _ (by omega) (hsum i j hi hj hr)]
    show w (s.c i j + min_uncovered cost.nrows s - min_uncovered cost.nrows s)
      = s.c i j + min_uncovered cost.nrows s - min_uncovered cost.nrows s
    have := hle i j hi hj
    exact hw _ (by omega) (by omega)
  · rw [adjust_by_uc hr hc, adjust_by_uc hr hc]
  · rw [adjust_by_uu hr hc] at hnew hnewle ⊢
    rw [adjust_by_uu hr hc]
    exact hw _ hnew hnewle

theorem small_preserved (hw : FixesTo w (2 * M))
    (hb : ∀ i, i < cost.nrows → ∀ j, j < cost.nrows → 0 ≤ cost.get i j ∧ cost.get i j ≤ M) :
    Preserved w cost.nrows
      (fun s => Inv cost.nrows cost.get s ∧ PotInv cost.nrows cost.get M s) := by
  have hadj : ∀ s, Inv cost.nrows cost.get s ∧ PotInv cost.nrows cost.get M s →
      all_columns_covered cost.nrows s = false → find_a_zero cost.nrows s = none →
      Inv cost.nrows cost.get (adjust w cost.nrows s) ∧
        PotInv cost.nrows cost.get M (adjust w cost.nrows s) := by
    intro s h hcov _
    have hag := adjust_agrees hw hb h.1 h.2 hcov
    exact ⟨inv_congr hag rfl rfl rfl (inv_adjust h.1),
      potinv_congr hag rfl (adjust_sum_le hb h.1 h.2 hcov).1⟩
  refine ⟨fun _ h => h.1.toMaskInv, hadj, ?_, ?_⟩
  · intro s s1 h hm hc hrows
    refine ⟨⟨hm, fun i j hi hj => by rw [hc]; exact h.1.nonneg i j hi hj,
      by rw [hc]; exact h.1.pot⟩, ?_⟩
    obtain ⟨u, v, huv, hv, hu, hle⟩ := h.2
    refine ⟨u, v, ?_, hv, ?_, ?_⟩
    · intro i j hi hj; rw [hc]; exact huv i j hi hj
    · intro i hi hno
      apply hu i hi
      intro j hj h1
      obtain ⟨k, hk, hk1⟩ := hrows i j hi hj h1
      exact hno k hk hk1
    · intro i j hi hj; rw [hc]; exact hle i j hi hj
  · intro s h hcov
    refine search_zero_total_dec
      (P := fun s => Inv cost.nrows cost.get s ∧ PotInv cost.nrows cost.get M s)
      (fun _ h => h.1.toMaskInv) (fun _ h => h.1.nonneg) hadj ?_ h hcov
    intro s h hcov hz i j hi hj hr hc
    rw [adjust_agrees hw hb h.1 h.2 hcov i j hi hj]
    have hd := min_uncovered_pos h.1 hz
    have hadj2 : (adjust exact_int cost.nrows s).c i j
        = s.c i j - min_uncovered cost.nrows s := adjust_by_uu hr hc
    rw [hadj2]; omega

theorem reach_small (hw : FixesTo w (2 * M))
    (hb : ∀ i, i < cost.nrows → ∀ j, j < cost.nrows → 0 ≤ cost.get i j ∧ cost.get i j ≤ M)
    {s : State} (h : Reach w cost s) :
    Inv cost.nrows cost.get s ∧ PotInv cost.nrows cost.get M s :=
  reach_keeps (small_preserved hw hb) (small_init hw hb) h

end Small

/-! ## The claims -/

theorem run_result_small {w : Int → Int} {cost mask : Matrix Int} {M : Int} {fuel : Nat}
    (hw : FixesTo w (2 * M))
    (hb : ∀ i, i < cost.nrows → ∀ j, j < cost.nrows → 0 ≤ cost.get i j ∧ cost.get i j ≤ M)
    (h : run_munkres_algorithm w fuel cost = .ok mask) :
    ∃ σ : Equiv.Perm (Fin cost.nrows), IsGraphOf mask σ ∧
      selected_cost cost mask = assignment_cost cost σ ∧
      ∀ τ : Equiv.Perm (Fin cost.nrows), assignment_cost cost σ ≤ assignment_cost cost τ := by
  obtain ⟨_, s, hr, hcov, rfl⟩ := run_spec h
  have hinv := (reach_small hw hb hr).1
  obtain ⟨σ, hσ⟩ := final_graph hinv.toMaskInv hcov
  have hg : IsGraphOf { nrows := cost.nrows, ncols := cost.nrows, get := s.mask } σ := hσ
  exact ⟨σ, hg, selected_cost_graph rfl rfl hg, assignment_optimal hinv hσ⟩

/-- C1 (optimality): in exact integer arithmetic, on every square cost matrix (of any size,
with any integer entries) the run returns a mask, and the sum of `cost(i, j)` over the cells
of the returned mask that hold 1 is the cost of some permutation and is at most the cost of
every permutation of the rows to the columns: it is the minimum over all permutations.  The
same holds in 32-bit `int` arithmetic when the costs are non-negative and at most
`INT_MAX / 2`. -/
theorem munkres_optimal (cost : Matrix Int) (hsq : cost.nrows = cost.ncols) :
    ((∃ fuel mask, ∀ f, fuel ≤ f → run_munkres_algorithm exact_int f cost = .ok mask) ∧
      ∀ fuel mask, run_munkres_algorithm exact_int fuel cost = .ok mask →
        (∃ σ : Equiv.Perm (Fin cost.nrows),
          selected_cost cost mask = assignment_cost cost σ) ∧
        ∀ τ : Equiv.Perm (Fin cost.nrows), selected_cost cost mask ≤ assignment_cost cost τ) ∧
    ((∃ M, 2 * M ≤ INT_MAX ∧
        ∀ i, i < cost.nrows → ∀ j, j < cost.nrows → 0 ≤ cost.get i j ∧ cost.get i j ≤ M) →
      (∃ fuel mask, ∀ f, fuel ≤ f → run_munkres_algorithm wrap_int32 f cost = .ok mask) ∧
      ∀ fuel mask, run_munkres_algorithm wrap_int32 fuel cost = .ok mask →
        (∃ σ : Equiv.Perm (Fin cost.nrows),
          selected_cost cost mask = assignment_cost cost σ) ∧
        ∀ τ : Equiv.Perm (Fin cost.nrows),
          selected_cost cost mask ≤ assignment_cost cost τ) := by
  refine ⟨⟨run_total_of (Or.inl rfl) cost hsq, ?_⟩, ?_⟩
  · intro fuel mask h
    obtain ⟨_, _, σ, _, hsel, hopt⟩ := run_result h
    exact ⟨⟨σ, hsel⟩, fun τ => hsel ▸ hopt τ⟩
  · rintro ⟨M, hM, hb⟩
    refine ⟨run_total_of (Or.inr rfl) cost hsq, ?_⟩
    intro fuel mask h
    obtain ⟨σ, _, hsel, hopt⟩ := run_result_small (fixes_wrap hM) hb h
    exact ⟨⟨σ, hsel⟩, fun τ => hsel ▸ hopt τ⟩

theorem munkres_optimal_witness :
    ((∃ fuel mask, ∀ f, fuel ≤ f →
        run_munkres_algorithm exact_int f example_cost = .ok mask) ∧
      ∀ fuel mask, run_munkres_algorithm exact_int fuel example_cost = .ok mask →
        (∃ σ : Equiv.Perm (Fin example_cost.nrows),
          selected_cost example_cost mask = assignment_cost example_cost σ) ∧
        ∀ τ : Equiv.Perm (Fin example_cost.nrows),
          selected_cost example_cost mask ≤ assignment_cost example_cost τ) ∧
    ((∃ fuel mask, ∀ f, fuel ≤ f →
        run_munkres_algorithm wrap_int32 f example_cost = .ok mask) ∧
      ∀ fuel mask, run_munkres_algorithm wrap_int32 fuel example_cost = .ok mask →
        (∃ σ : Equiv.Perm (Fin example_cost.nrows),
          selected_cost example_cost mask = assignment_cost example_cost σ) ∧
        ∀ τ : Equiv.Perm (Fin example_cost.nrows),
          selected_cost example_cost mask ≤ assignment_cost example_cost τ) :=
  ⟨(munkres_optimal example_cost rfl).1,
    (munkres_optimal example_cost rfl).2 ⟨5, by decide, by decide⟩⟩

/-- C2 (matching validity): in exact arithmetic and in 32-bit `int` arithmetic alike, on
every square cost matrix the run returns a mask of the same dimensions that has exactly one
cell holding 1 in every row and exactly one in every column; the cells holding 1 are the
graph of a permutation. -/
theorem mask_is_permutation (w : Int → Int) (hw : w = exact_int ∨ w = wrap_int32)
    (cost : Matrix Int) (hsq : cost.nrows = cost.ncols) :
    (∃ fuel mask, ∀ f, fuel ≤ f → run_munkres_algorithm w f cost = .ok mask) ∧
    ∀ fuel mask, run_munkres_algorithm w fuel cost = .ok mask →
      mask.nrows = cost.nrows ∧ mask.ncols = cost.nrows ∧
      (∀ i, i < cost.nrows → ∃! j, j < cost.nrows ∧ mask.get i j = 1) ∧
      (∀ j, j < cost.nrows → ∃! i, i < cost.nrows ∧ mask.get i j = 1) ∧
      ∃ σ : Equiv.Perm (Fin cost.nrows), IsGraphOf mask σ := by
  refine ⟨run_total_of hw cost hsq, ?_⟩
  intro fuel mask h
  obtain ⟨h1, h2, _, σ, hg⟩ := run_result_mask hw h
  exact ⟨h1, h2, (graph_unique hg).1, (graph_unique hg).2, σ, hg⟩

theorem mask_is_permutation_witness :
    (∃ fuel mask, ∀ f, fuel ≤ f → run_munkres_algorithm wrap_int32 f cover_cost = .ok mask) ∧
    ∀ fuel mask, run_munkres_algorithm wrap_int32 fuel cover_cost = .ok mask →
      mask.nrows = cover_cost.nrows ∧ mask.ncols = cover_cost.nrows ∧
      (∀ i, i < cover_cost.nrows → ∃! j, j < cover_cost.nrows ∧ mask.get i j = 1) ∧
      (∀ j, j < cover_cost.nrows → ∃! i, i < cover_cost.nrows ∧ mask.get i j = 1) ∧
      ∃ σ : Equiv.Perm (Fin cover_cost.nrows), IsGraphOf mask σ :=
  mask_is_permutation wrap_int32 (Or.inr rfl) cover_cost rfl

/-- C3 (shape check): whatever the arithmetic and the fuel, a run on a matrix whose row
count differs from its column count fails with
`invalid_argument "Cost matrix must be square."` and so returns no mask; a run on a matrix
with equal row and column counts never fails with an `invalid_argument` error. -/
theorem shape_check (w : Int → Int) (cost : Matrix Int) (fuel : Nat) :
    (cost.nrows ≠ cost.ncols →
      run_munkres_algorithm w fuel cost = .error (.invalid_argument not_square)) ∧
    (cost.nrows = cost.ncols →
      ∀ what, run_munkres_algorithm w fuel cost ≠ .error (.invalid_argument what)) ∧
    (run_munkres_algorithm w fuel cost = .error (.invalid_argument not_square) ↔
      cost.nrows ≠ cost.ncols) := by
  have hne : cost.nrows ≠ cost.ncols →
      run_munkres_algorithm w fuel cost = .error (.invalid_argument not_square) := by
    intro h
    unfold run_munkres_algorithm not_square
    simp [h]
  have heq : cost.nrows = cost.ncols →
      ∀ what, run_munkres_algorithm w fuel cost ≠ .error (.invalid_argument what) := by
    intro h what hrun
    unfold run_munkres_algorithm at hrun
    simp only [h, ne_eq, not_true_eq_false, if_false] at hrun
    split at hrun
    · rename_i e he
      simp only [Except.error.injEq] at hrun
      subst hrun
      rcases main_loop_error _ _ he with h1 | h1 <;> cases h1
    · cases hrun
  refine ⟨hne, heq, ?_, hne⟩
  intro hrun hsq
  exact heq hsq _ hrun

/-- C4 (totality): in exact arithmetic and in 32-bit `int` arithmetic alike, on every square
cost matrix the run terminates with a mask, the same for every sufficient fuel; and from
every state of the main loop in which some column is uncovered, the search-or-adjust loop
terminates with a zero, the path loop started at a found zero terminates with a path, and
handling the zero terminates with the next state. -/
theorem munkres_terminates (w : Int → Int) (hw : w = exact_int ∨ w = wrap_int32)
    (cost : Matrix Int) (hsq : cost.nrows = cost.ncols) :
    (∃ fuel mask, ∀ f, fuel ≤ f → run_munkres_algorithm w f cost = .ok mask) ∧
    (∀ s, Reach w cost s → all_columns_covered cost.nrows s = false →
      ∃ fuel r, search_zero w fuel cost.nrows s = .ok r) ∧
    (∀ s z, Reach w cost s → all_columns_covered cost.nrows s = false →
      find_a_zero cost.nrows s = some z →
      ∃ fuel path, build_path fuel cost.nrows
        { c := s.c, mask := set2 s.mask z.1 z.2 2, row_covered := s.row_covered,
          col_covered := s.col_covered } z.2 [z] = .ok path) ∧
    (∀ s z, Reach w cost s → all_columns_covered cost.nrows s = false →
      find_a_zero cost.nrows s = some z →
      ∃ fuel s1, handle_zero fuel cost.nrows s z = .ok s1) := by
  refine ⟨run_total_of hw cost hsq, ?_, ?_, ?_⟩
  · intro s hr hcov
    exact search_zero_total_of hw hr hcov
  · intro s z hr _ hz
    exact build_path_total_at (reach_mask hw hr) (zeroAt_of_find hz)
  · intro s z hr _ hz
    exact handle_zero_total (reach_mask hw hr) (zeroAt_of_find hz)

theorem munkres_terminates_witness :
    (∃ fuel mask, ∀ f, fuel ≤ f →
      run_munkres_algorithm wrap_int32 f overflow_cost = .ok mask) ∧
    (∀ s, Reach wrap_int32 overflow_cost s →
      all_columns_covered overflow_cost.nrows s = false →
      ∃ fuel r, search_zero wrap_int32 fuel overflow_cost.nrows s = .ok r) ∧
    (∀ s z, Reach wrap_int32 overflow_cost s →
      all_columns_covered overflow_cost.nrows s = false →
      find_a_zero overflow_cost.nrows s = some z →
      ∃ fuel path, build_path fuel overflow_cost.nrows
        { c := s.c, mask := set2 s.mask z.1 z.2 2, row_covered := s.row_covered,
          col_covered := s.col_covered } z.2 [z] = .ok path) ∧
    (∀ s z, Reach wrap_int32 overflow_cost s →
      all_columns_covered overflow_cost.nrows s = false →
      find_a_zero overflow_cost.nrows s = some z →
      ∃ fuel s1, handle_zero fuel overflow_cost.nrows s z = .ok s1) :=
  munkres_terminates wrap_int32 (Or.inr rfl) overflow_cost rfl

/-- C5 (observable values): in exact arithmetic and in 32-bit `int` arithmetic alike, on
every square cost matrix the run returns a mask, and every cell of the returned mask holds 0
or 1; none holds the primed marker 2. -/
theorem mask_values (w : Int → Int) (hw : w = exact_int ∨ w = wrap_int32)
    (cost : Matrix Int) (hsq : cost.nrows = cost.ncols) :
    (∃ fuel mask, ∀ f, fuel ≤ f → run_munkres_algorithm w f cost = .ok mask) ∧
    ∀ fuel mask, run_munkres_algorithm w fuel cost = .ok mask →
      ∀ i j, i < mask.nrows → j < mask.ncols →
        (mask.get i j = 0 ∨ mask.get i j = 1) ∧ mask.get i j ≠ 2 := by
  refine ⟨run_total_of hw cost hsq, ?_⟩
  intro fuel mask h i j hi hj
  obtain ⟨h1, h2, hv, _⟩ := run_result_mask hw h
  rw [h1] at hi
  rw [h2] at hj
  have := hv i j hi hj
  refine ⟨this, ?_⟩
  rcases this with h0 | h0 <;> rw [h0] <;> omega

theorem mask_values_witness :
    (∃ fuel mask, ∀ f, fuel ≤ f →
      run_munkres_algorithm exact_int f (of_rows [[7, 3], [2, 9]]) = .ok mask) ∧
    ∀ fuel mask, run_munkres_algorithm exact_int fuel (of_rows [[7, 3], [2, 9]]) = .ok mask →
      ∀ i j, i < mask.nrows → j < mask.ncols →
        (mask.get i j = 0 ∨ mask.get i j = 1) ∧ mask.get i j ≠ 2 :=
  mask_values exact_int (Or.inl rfl) (of_rows [[7, 3], [2, 9]]) rfl

/-- C6, as stated, fails in `int` arithmetic: on the non-negative matrix
`[[0,M,0],[M,0,M],[M,0,M]]` with `M = INT_MAX` both reductions subtract 0, the first zero
`(0, 2)` gets row 0 covered and column 0 uncovered, and then the adjustment runs with
`delta = INT_MAX`; at the doubly-covered cell `(0, 1)` the statement `c[i][j] += min_uncovered`
adds `INT_MAX` to `INT_MAX`, which overflows, and the entry stored by the 32-bit run is `-2`. -/
theorem working_costs_overflow_counterexample :
    (∀ i, i < 3 → ∀ j, j < 3 →
      0 ≤ overflow_cost.get i j ∧ overflow_cost.get i j ≤ INT_MAX ∧
      overflow_state.c i j = overflow_cost.get i j) ∧
    Reach wrap_int32 overflow_cost overflow_state ∧
    all_columns_covered 3 overflow_state = false ∧ find_a_zero 3 overflow_state = none ∧
    overflow_state.row_covered 0 = true ∧ overflow_state.col_covered 1 = true ∧
    overflow_state.c 0 1 = INT_MAX ∧ min_uncovered 3 overflow_state = INT_MAX ∧
    INT_MAX < overflow_state.c 0 1 + min_uncovered 3 overflow_state ∧
    Reach wrap_int32 overflow_cost (adjust wrap_int32 3 overflow_state) ∧
    (adjust wrap_int32 3 overflow_state).c 0 1 = -2 :=
  ⟨by decide, overflow_state_reach, by decide, by decide, by decide, by decide, by decide,
    by decide, by decide,
    Reach.adjust overflow_state overflow_state_reach (by decide) (by decide), by decide⟩

/-- C6, amended: let the costs lie between 0 and `M` and let the arithmetic store every
value between 0 and `2 * M` as it is (exact arithmetic does for every `M`, 32-bit `int`
arithmetic does when `M` is at most `INT_MAX / 2`).  Then the working matrix never has an
entry below 0 or above `2 * M`: not when the first `k` rows have been row-reduced (any `k`),
not when in addition the first `k` columns have been column-reduced, not on entry to the main
loop, after an adjustment pass or after a handled zero; and when the adjustment runs, the
intermediate sum `c[i][j] + delta` formed in a covered row lies between 0 and `2 * M` and is
stored as it is. -/
theorem working_costs_bounded (w : Int → Int) (cost : Matrix Int) (M : Int)
    (hw : FixesTo w (2 * M))
    (hb : ∀ i, i < cost.nrows → ∀ j, j < cost.nrows → 0 ≤ cost.get i j ∧ cost.get i j ≤ M) :
    (∀ k i j, i < cost.nrows → j < cost.nrows →
      0 ≤ (if i < k then row_reduce w cost.nrows cost.get i j else cost.get i j) ∧
      (if i < k then row_reduce w cost.nrows cost.get i j else cost.get i j) ≤ M) ∧
    (∀ k i j, i < cost.nrows → j < cost.nrows →
      0 ≤ (if j < k then col_reduce w cost.nrows (row_reduce w cost.nrows cost.get) i j
        else row_reduce w cost.nrows cost.get i j) ∧
      (if j < k then col_reduce w cost.nrows (row_reduce w cost.nrows cost.get) i j
        else row_reduce w cost.nrows cost.get i j) ≤ M) ∧
    (∀ s, Reach w cost s → ∀ i j, i < cost.nrows → j < cost.nrows →
      0 ≤ s.c i j ∧ s.c i j ≤ 2 * M) ∧
    (∀ s, Reach w cost s → all_columns_covered cost.nrows s = false →
      find_a_zero cost.nrows s = none → ∀ i j, i < cost.nrows → j < cost.nrows →
        (s.row_covered i = true →
          0 ≤ s.c i j + min_uncovered cost.nrows s ∧
          s.c i j + min_uncovered cost.nrows s ≤ 2 * M ∧
          w (s.c i j + min_uncovered cost.nrows s) = s.c i j + min_uncovered cost.nrows s) ∧
        0 ≤ (adjust w cost.nrows s).c i j ∧ (adjust w cost.nrows s).c i j ≤ 2 * M) := by
  have hrr : ∀ i j, i < cost.nrows → j < cost.nrows →
      0 ≤ row_reduce w cost.nrows cost.get i j ∧ row_reduce w cost.nrows cost.get i j ≤ M := by
    intro i j hi hj
    obtain ⟨h1, h2, h3⟩ := row_reduce_small hw hb hi hj
    rw [h1]; exact ⟨h2, h3⟩
  have hbound : ∀ s, Reach w cost s → ∀ i j, i < cost.nrows → j < cost.nrows →
      0 ≤ s.c i j ∧ s.c i j ≤ 2 * M := by
    intro s hr i j hi hj
    obtain ⟨hinv, _, _, _, _, _, hle⟩ := reach_small hw hb hr
    exact ⟨hinv.nonneg i j hi hj, hle i j hi hj⟩
  refine ⟨?_, ?_, hbound, ?_⟩
  · intro k i j hi hj
    split
    · exact hrr i j hi hj
    · exact hb i hi j hj
  · intro k i j hi hj
    split
    · obtain ⟨h1, _, h2, h3⟩ := col_reduce_small hw hb hi hj
      rw [h1]; exact ⟨h2, h3⟩
    · exact hrr i j hi hj
  · intro s hr hcov hz i j hi hj
    refine ⟨?_, hbound _ (Reach.adjust s hr hcov hz) i j hi hj⟩
    intro hrow
    obtain ⟨hinv, hpot⟩ := reach_small hw hb hr
    have h1 := hinv.nonneg i j hi hj
    have h2 := min_uncovered_nonneg hinv
    have h3 := (adjust_sum_le hb hinv hpot hcov).2 i j hi hj hrow
    exact ⟨by omega, h3, hw _ (by omega) h3⟩

theorem working_costs_bounded_witness :
    (∀ k i j, i < example_cost.nrows → j < example_cost.nrows →
      0 ≤ (if i < k then row_reduce wrap_int32 example_cost.nrows example_cost.get i j
        else example_cost.get i j) ∧
      (if i < k then row_reduce wrap_int32 example_cost.nrows example_cost.get i j
        else example_cost.get i j) ≤ 5) ∧
    (∀ k i j, i < example_cost.nrows → j < example_cost.nrows →
      0 ≤ (if j < k then col_reduce wrap_int32 example_cost.nrows
            (row_reduce wrap_int32 example_cost.nrows example_cost.get) i j
        else row_reduce wrap_int32 example_cost.nrows example_cost.get i j) ∧
      (if j < k then col_reduce wrap_int32 example_cost.nrows
            (row_reduce wrap_int32 example_cost.nrows example_cost.get) i j
        else row_reduce wrap_int32 example_cost.nrows example_cost.get i j) ≤ 5) ∧
    (∀ s, Reach wrap_int32 example_cost s →
      ∀ i j, i < example_cost.nrows → j < example_cost.nrows →
        0 ≤ s.c i j ∧ s.c i j ≤ 2 * 5) ∧
    (∀ s, Reach wrap_int32 example_cost s →
      all_columns_covered example_cost.nrows s = false →
      find_a_zero example_cost.nrows s = none →
      ∀ i j, i < example_cost.nrows → j < example_cost.nrows →
        (s.row_covered i = true →
          0 ≤ s.c i j + min_uncovered example_cost.nrows s ∧
          s.c i j + min_uncovered example_cost.nrows s ≤ 2 * 5 ∧
          wrap_int32 (s.c i j + min_uncovered example_cost.nrows s)
            = s.c i j + min_uncovered example_cost.nrows s) ∧
        0 ≤ (adjust wrap_int32 example_cost.nrows s).c i j ∧
        (adjust wrap_int32 example_cost.nrows s).c i j ≤ 2 * 5) :=
  working_costs_bounded wrap_int32 example_cost 5 (fixes_wrap (by decide)) (by decide)

/-- C7 (example): on the cost matrix `[[4,1,3],[2,0,5],[3,2,2]]` the run returns, in exact
and in 32-bit arithmetic and for every fuel from 3 on, the mask that selects exactly the
cells (0,1), (1,0), (2,2); their total cost is 5, every assignment costs at least 5 and no
other assignment costs 5. -/
theorem example_assignment :
    (∃ mask, (∀ f, 3 ≤ f → run_munkres_algorithm exact_int f example_cost = .ok mask) ∧
      to_rows mask = [[0, 1, 0], [1, 0, 0], [0, 0, 1]] ∧
      selected_cost example_cost mask = 5) ∧
    (∃ mask, (∀ f, 3 ≤ f → run_munkres_algorithm wrap_int32 f example_cost = .ok mask) ∧
      to_rows mask = [[0, 1, 0], [1, 0, 0], [0, 0, 1]] ∧
      selected_cost example_cost mask = 5) ∧
    (∀ a b c : Fin 3, a ≠ b → a ≠ c → b ≠ c →
      5 ≤ example_cost.get 0 a + example_cost.get 1 b + example_cost.get 2 c ∧
      (example_cost.get 0 a + example_cost.get 1 b + example_cost.get 2 c = 5 →
        a = 1 ∧ b = 0 ∧ c = 2)) := by
  refine ⟨?_, ?_, by decide⟩
  · have h3 : ∃ mask, run_munkres_algorithm exact_int 3 example_cost = .ok mask ∧
        to_rows mask = [[0, 1, 0], [1, 0, 0], [0, 0, 1]] ∧
        selected_cost example_cost mask = 5 := ⟨_, rfl, by decide, by decide⟩
    obtain ⟨mask, hrun, hrows, hcost⟩ := h3
    exact ⟨mask, fun f hf => run_mono hf hrun, hrows, hcost⟩
  · have h3 : ∃ mask, run_munkres_algorithm wrap_int32 3 example_cost = .ok mask ∧
        to_rows mask = [[0, 1, 0], [1, 0, 0], [0, 0, 1]] ∧
        selected_cost example_cost mask = 5 := ⟨_, rfl, by decide, by decide⟩
    obtain ⟨mask, hrun, hrows, hcost⟩ := h3
    exact ⟨mask, fun f hf => run_mono hf hrun, hrows, hcost⟩

/-- C8 (uniform cost): in exact and in 32-bit arithmetic, on the `n × n` matrix whose entries
all equal `v` the run returns a mask with exactly one selected cell in every row and in every
column, the graph of a permutation, whose total cost is `n * v`; for `n = 1` the single cell
is selected and the cost is `v`. -/
theorem uniform_cost (w : Int → Int) (hw : w = exact_int ∨ w = wrap_int32) (n : Nat)
    (v : Int) :
    (∃ fuel mask, ∀ f, fuel ≤ f → run_munkres_algorithm w f (uniform n v) = .ok mask) ∧
    ∀ fuel mask, run_munkres_algorithm w fuel (uniform n v) = .ok mask →
      mask.nrows = n ∧ mask.ncols = n ∧
      (∀ i, i < n → ∃! j, j < n ∧ mask.get i j = 1) ∧
      (∀ j, j < n → ∃! i, i < n ∧ mask.get i j = 1) ∧
      (∃ σ : Equiv.Perm (Fin n), IsGraphOf mask σ) ∧
      selected_cost (uniform n v) mask = n * v ∧
      (n = 1 → mask.get 0 0 = 1 ∧ selected_cost (uniform n v) mask = v) := by
  refine ⟨run_total_of hw (uniform n v) rfl, ?_⟩
  intro fuel mask h
  obtain ⟨h1, h2, _, σ, hg⟩ := run_result_mask hw h
  have hg' : @IsGraphOf n mask σ := hg
  have hcost : selected_cost (uniform n v) mask = n * v := by
    rw [selected_cost_graph h1 h2 hg']
    show ∑ _i : Fin n, v = n * v
    simp
  refine ⟨h1, h2, (graph_unique hg').1, (graph_unique hg').2, ⟨σ, hg'⟩, hcost, ?_⟩
  intro hn
  subst hn
  obtain ⟨j, ⟨hj, hj1⟩, _⟩ := (graph_unique hg').1 0 (by omega)
  have : j = 0 := by omega
  subst this
  exact ⟨hj1, by rw [hcost]; simp⟩

theorem uniform_cost_witness :
    (∃ fuel mask, ∀ f, fuel ≤ f →
      run_munkres_algorithm wrap_int32 f (uniform 1 7) = .ok mask) ∧
    ∀ fuel mask, run_munkres_algorithm wrap_int32 fuel (uniform 1 7) = .ok mask →
      mask.nrows = 1 ∧ mask.ncols = 1 ∧
      (∀ i, i < 1 → ∃! j, j < 1 ∧ mask.get i j = 1) ∧
      (∀ j, j < 1 → ∃! i, i < 1 ∧ mask.get i j = 1) ∧
      (∃ σ : Equiv.Perm (Fin 1), IsGraphOf mask σ) ∧
      selected_cost (uniform 1 7) mask = (1 : Nat) * 7 ∧
      ((1 : Nat) = 1 → mask.get 0 0 = 1 ∧ selected_cost (uniform 1 7) mask = 7) :=
  uniform_cost wrap_int32 (Or.inr rfl) 1 7

theorem min_uncovered_ne_zero {w : Int → Int} (hw : Bounded w) {n : Nat} {s : State}
    (h : StoredInv w n s) (hcov : all_columns_covered n s = false)
    (hz : find_a_zero n s = none) : min_uncovered n s ≠ 0 := by
  obtain ⟨i, j, hi, hj, hr, hc⟩ := exists_uncovered h.toMaskInv hcov
  have hle : s.c i j ≤ INT_MAX := by
    rw [← h.stored i j hi hj]; exact hw.le _
  obtain ⟨a, b, ha, hb, har, hbc, hmin⟩ := min_uncovered_attained hi hj hr hc hle
  rw [hmin]
  exact find_a_zero_none hz a b ha hb har hbc

theorem wrap_add_sub {x d : Int} (hx : wrap_int32 x = x) :
    wrap_int32 (wrap_int32 (x + d) - d) = x := by
  unfold wrap_int32 at *; omega

theorem wrap_add_ne {x d : Int} (hd : wrap_int32 d = d)
    (h0 : d ≠ 0) : wrap_int32 (x + d) ≠ x := by
  unfold wrap_int32 at *; omega

theorem wrap_sub_ne {x d : Int} (hd : wrap_int32 d = d)
    (h0 : d ≠ 0) : wrap_int32 (x - d) ≠ x := by
  unfold wrap_int32 at *; omega

/-- C9, as stated, fails: in the run on `[[4,1,3],[2,0,5],[3,2,2]]`, in exact and in 32-bit
arithmetic, the adjustment runs in the state reached after the first handled zero (some
column is uncovered and no uncovered zero is left); there row 2 and column 1 are both
covered, and the pass changes the entry `(2, 1)` from 0 to 1. -/
theorem adjust_doubly_covered_counterexample :
    (Reach exact_int example_cost (example_state exact_int) ∧
      all_columns_covered 3 (example_state exact_int) = false ∧
      find_a_zero 3 (example_state exact_int) = none ∧
      (example_state exact_int).row_covered 2 = true ∧
      (example_state exact_int).col_covered 1 = true ∧
      (example_state exact_int).c 2 1 = 0 ∧
      (adjust exact_int 3 (example_state exact_int)).c 2 1 = 1) ∧
    (Reach wrap_int32 example_cost (example_state wrap_int32) ∧
      all_columns_covered 3 (example_state wrap_int32) = false ∧
      find_a_zero 3 (example_state wrap_int32) = none ∧
      (example_state wrap_int32).row_covered 2 = true ∧
      (example_state wrap_int32).col_covered 1 = true ∧
      (example_state wrap_int32).c 2 1 = 0 ∧
      (adjust wrap_int32 3 (example_state wrap_int32)).c 2 1 = 1) :=
  ⟨⟨example_state_reach exact_int (Or.inl rfl), by decide, by decide, by decide, by decide,
      by decide, by decide⟩,
    ⟨example_state_reach wrap_int32 (Or.inr rfl), by decide, by decide, by decide, by decide,
      by decide, by decide⟩⟩

/-- C9, amended: whenever the adjustment runs in a state of the main loop, in exact or in
32-bit arithmetic, `delta` (the smallest uncovered entry) is not 0, and at least 1 in exact
arithmetic; an entry whose row and column are both covered gets `delta` added and so is
changed; the entries left unchanged are those with exactly one of row and column covered
(for a covered row and uncovered column by the net effect of `+delta` and `-delta`); an entry
whose row and column are both uncovered gets `delta` subtracted. -/
theorem adjust_effect (w : Int → Int) (hw : w = exact_int ∨ w = wrap_int32)
    (cost : Matrix Int) (s : State) (hr : Reach w cost s)
    (hcov : all_columns_covered cost.nrows s = false)
    (hz : find_a_zero cost.nrows s = none) (i j : Nat) (hi : i < cost.nrows)
    (hj : j < cost.nrows) :
    min_uncovered cost.nrows s ≠ 0 ∧
    (w = exact_int → 1 ≤ min_uncovered cost.nrows s) ∧
    (s.row_covered i = true → s.col_covered j = true →
      (adjust w cost.nrows s).c i j = w (s.c i j + min_uncovered cost.nrows s) ∧
      (adjust w cost.nrows s).c i j ≠ s.c i j) ∧
    (s.row_covered i = true → s.col_covered j = false →
      (adjust w cost.nrows s).c i j = s.c i j) ∧
    (s.row_covered i = false → s.col_covered j = true →
      (adjust w cost.nrows s).c i j = s.c i j) ∧
    (s.row_covered i = false → s.col_covered j = false →
      (adjust w cost.nrows s).c i j = w (s.c i j - min_uncovered cost.nrows s) ∧
      (adjust w cost.nrows s).c i j ≠ s.c i j) := by
  rcases hw with rfl | rfl
  · have hd := min_uncovered_pos (reach_inv hr) hz
    refine ⟨by omega, fun _ => hd, ?_, ?_, ?_, ?_⟩
    · intro h1 h2
      have : (adjust exact_int cost.nrows s).c i j = s.c i j + min_uncovered cost.nrows s :=
        adjust_by_cc h1 h2
      exact ⟨this, by rw [this]; omega⟩
    · intro h1 h2
      have : (adjust exact_int cost.nrows s).c i j
          = s.c i j + min_uncovered cost.nrows s - min_uncovered cost.nrows s :=
        adjust_by_cu h1 h2
      rw [this]; omega
    · intro h1 h2
      exact adjust_by_uc h1 h2
    · intro h1 h2
      have : (adjust exact_int cost.nrows s).c i j = s.c i j - min_uncovered cost.nrows s :=
        adjust_by_uu h1 h2
      exact ⟨this, by rw [this]; omega⟩
  · have hst := reach_stored bounded_wrap hr
    have hd := min_uncovered_ne_zero bounded_wrap hst hcov hz
    have hds := min_uncovered_stored bounded_wrap.toStoring hst.stored
    have hc := hst.stored i j hi hj
    refine ⟨hd, ?_, ?_, ?_, ?_, ?_⟩
    · intro he
      have h4 : wrap_int32 4294967296 = exact_int 4294967296 := congrFun he 4294967296
      exact absurd h4 (by decide)
    · intro h1 h2
      have : (adjust wrap_int32 cost.nrows s).c i j
          = wrap_int32 (s.c i j + min_uncovered cost.nrows s) := adjust_by_cc h1 h2
      exact ⟨this, by rw [this]; exact wrap_add_ne hds hd⟩
    · intro h1 h2
      have : (adjust wrap_int32 cost.nrows s).c i j
          = wrap_int32 (wrap_int32 (s.c i j + min_uncovered cost.nrows s)
            - min_uncovered cost.nrows s) := adjust_by_cu h1 h2
      rw [this]; exact wrap_add_sub hc
    · intro h1 h2
      exact adjust_by_uc h1 h2
    · intro h1 h2
      have : (adjust wrap_int32 cost.nrows s).c i j
          = wrap_int32 (s.c i j - min_uncovered cost.nrows s) := adjust_by_uu h1 h2
      exact ⟨this, by rw [this]; exact wrap_sub_ne hds hd⟩

theorem adjust_effect_witness :
    min_uncovered example_cost.nrows (example_state exact_int) ≠ 0 ∧
    (exact_int = exact_int → 1 ≤ min_uncovered example_cost.nrows (example_state exact_int)) ∧
    ((example_state exact_int).row_covered 2 = true →
      (example_state exact_int).col_covered 1 = true →
      (adjust exact_int example_cost.nrows (example_state exact_int)).c 2 1
        = exact_int ((example_state exact_int).c 2 1
          + min_uncovered example_cost.nrows (example_state exact_int)) ∧
      (adjust exact_int example_cost.nrows (example_state exact_int)).c 2 1
        ≠ (example_state exact_int).c 2 1) ∧
    ((example_state exact_int).row_covered 2 = true →
      (example_state exact_int).col_covered 1 = false →
      (adjust exact_int example_cost.nrows (example_state exact_int)).c 2 1
        = (example_state exact_int).c 2 1) ∧
    ((example_state exact_int).row_covered 2 = false →
      (example_state exact_int).col_covered 1 = true →
      (adjust exact_int example_cost.nrows (example_state exact_int)).c 2 1
        = (example_state exact_int).c 2 1) ∧
    ((example_state exact_int).row_covered 2 = false →
      (example_state exact_int).col_covered 1 = false →
      (adjust exact_int example_cost.nrows (example_state exact_int)).c 2 1
        = exact_int ((example_state exact_int).c 2 1
          - min_uncovered example_cost.nrows (example_state exact_int)) ∧
      (adjust exact_int example_cost.nrows (example_state exact_int)).c 2 1
        ≠ (example_state exact_int).c 2 1) :=
  adjust_effect exact_int (Or.inl rfl) example_cost (example_state exact_int)
    (example_state_reach exact_int (Or.inl rfl)) (by decide) (by decide) 2 1 (by decide)
    (by decide)

/-- C10, as stated, fails: in the run on `[[0,0],[0,1]]`, in exact and in 32-bit arithmetic,
after the first zero `(0, 1)` is primed, row 0 covered and column 0 (the column of the star in
row 0) uncovered, column 0 is not covered although it still holds the starred cell `(0, 0)`. -/
theorem cover_invariant_counterexample :
    (Reach exact_int cover_cost (cover_state exact_int) ∧
      (cover_state exact_int).col_covered 0 = false ∧ (cover_state exact_int).mask 0 0 = 1 ∧
      ¬ (∀ j, j < 2 → ((cover_state exact_int).col_covered j = true ↔
        ∃ i, i < 2 ∧ (cover_state exact_int).mask i j = 1))) ∧
    (Reach wrap_int32 cover_cost (cover_state wrap_int32) ∧
      (cover_state wrap_int32).col_covered 0 = false ∧ (cover_state wrap_int32).mask 0 0 = 1 ∧
      ¬ (∀ j, j < 2 → ((cover_state wrap_int32).col_covered j = true ↔
        ∃ i, i < 2 ∧ (cover_state wrap_int32).mask i j = 1))) := by
  refine ⟨⟨cover_state_reach exact_int (Or.inl rfl), by decide, by decide, ?_⟩,
    ⟨cover_state_reach wrap_int32 (Or.inr rfl), by decide, by decide, ?_⟩⟩
  · intro h
    have := (h 0 (by omega)).mpr ⟨0, by omega, by decide⟩
    revert this
    decide
  · intro h
    have := (h 0 (by omega)).mpr ⟨0, by omega, by decide⟩
    revert this
    decide

/-- C10, amended: in every state of the main loop (on entry, after every adjustment, after
every cover step and after every augmentation), in exact and in 32-bit arithmetic, a column
is covered exactly when it holds a starred cell whose row is not covered; so when no row is
covered, as on entry to the loop and after every augmentation, the covered columns are
exactly the columns that hold a starred cell. -/
theorem cover_invariant (w : Int → Int) (hw : w = exact_int ∨ w = wrap_int32)
    (cost : Matrix Int) (s : State) (hr : Reach w cost s) (j : Nat) (hj : j < cost.nrows) :
    (s.col_covered j = true ↔
      ∃ i, i < cost.nrows ∧ s.mask i j = 1 ∧ s.row_covered i = false) ∧
    ((∀ i, i < cost.nrows → s.row_covered i = false) →
      (s.col_covered j = true ↔ ∃ i, i < cost.nrows ∧ s.mask i j = 1)) := by
  have hinv := reach_mask hw hr
  have hiff : s.col_covered j = true ↔
      ∃ i, i < cost.nrows ∧ s.mask i j = 1 ∧ s.row_covered i = false := by
    constructor
    · intro hc
      obtain ⟨i, hi, h1⟩ := hinv.colcov j hj hc
      exact ⟨i, hi, h1, (hinv.starcov i j hi hj h1).mp hc⟩
    · rintro ⟨i, hi, h1, hrc⟩
      exact (hinv.starcov i j hi hj h1).mpr hrc
  refine ⟨hiff, ?_⟩
  intro hnone
  rw [hiff]
  constructor
  · rintro ⟨i, hi, h1, _⟩
    exact ⟨i, hi, h1⟩
  · rintro ⟨i, hi, h1⟩
    exact ⟨i, hi, h1, hnone i hi⟩

theorem cover_invariant_witness :
    ((cover_state wrap_int32).col_covered 0 = true ↔
      ∃ i, i < cover_cost.nrows ∧ (cover_state wrap_int32).mask i 0 = 1 ∧
        (cover_state wrap_int32).row_covered i = false) ∧
    ((∀ i, i < cover_cost.nrows → (cover_state wrap_int32).row_covered i = false) →
      ((cover_state wrap_int32).col_covered 0 = true ↔
        ∃ i, i < cover_cost.nrows ∧ (cover_state wrap_int32).mask i 0 = 1)) :=
  cover_invariant wrap_int32 (Or.inr rfl) cover_cost (cover_state wrap_int32)
    (cover_state_reach wrap_int32 (Or.inr rfl)) 0 (by decide)

/-! ## Progress of the search for a zero -/

theorem min_uncovered_le_max (n : Nat) (s : State) : min_uncovered n s ≤ INT_MAX := by
  unfold min_uncovered
  refine foldl_le_init ?_ _ _
  intro m i
  split
  · exact le_refl _
  · refine foldl_le_init ?_ _ _
    intro m j
    split
    · rename_i h; exact le_of_lt h.2
    · exact le_refl _

theorem adjust_zero_of_attained {w : Int → Int} (hw0 : w 0 = 0) {n : Nat} {s : State}
    {a b : Nat} (ha : a < n) (hb : b < n) (har : s.row_covered a = false)
    (hbc : s.col_covered b = false) (hmin : min_uncovered n s = s.c a b) :
    ∃ z, find_a_zero n (adjust w n s) = some z := by
  cases hz : find_a_zero n (adjust w n s) with
  | some z => exact ⟨z, rfl⟩
  | none =>
    have hne := find_a_zero_none hz a b ha hb har hbc
    have h0 : (adjust w n s).c a b = 0 := by
      unfold adjust
      rw [adjust_by_uu har hbc, hmin, sub_self, hw0]
    exact absurd h0 hne

theorem search_zero_one_pass {w : Int → Int} {n : Nat} {s : State} {z : Nat × Nat}
    (hz : find_a_zero n s = none) (hz2 : find_a_zero n (adjust w n s) = some z) :
    ∀ fuel, 2 ≤ fuel → search_zero w fuel n s = .ok (adjust w n s, z) := by
  intro fuel hf
  obtain ⟨f, rfl⟩ : ∃ f, fuel = f + 2 := ⟨fuel - 2, by omega⟩
  simp [search_zero, hz, hz2]

/-- C11, as stated, fails: in the run on the non-negative matrix `[[0,M,0],[M,0,M],[M,0,M]]`
with `M = INT_MAX`, in the state reached after the first handled zero `(0, 2)`, every working
cost is non-negative, a column is uncovered and `find_a_zero` finds no uncovered zero; the
uncovered cells are `(1, 0)` and `(2, 0)`, both hold `INT_MAX`, and so `delta` is
`INT_MAX`, the value of the sentinel. -/
theorem delta_sentinel_counterexample :
    Reach wrap_int32 overflow_cost overflow_state ∧
    all_columns_covered 3 overflow_state = false ∧
    find_a_zero 3 overflow_state = none ∧
    (∀ i, i < 3 → ∀ j, j < 3 → 0 ≤ overflow_state.c i j) ∧
    overflow_state.row_covered 1 = false ∧ overflow_state.col_covered 0 = false ∧
    overflow_state.c 1 0 = INT_MAX ∧
    ¬ (0 < min_uncovered 3 overflow_state ∧ min_uncovered 3 overflow_state ≠ INT_MAX) :=
  ⟨overflow_state_reach, by decide, by decide, by decide, by decide, by decide, by decide,
    by decide⟩

/-- C11, amended: in every state of the main loop in which some column is uncovered and
`find_a_zero` reports no uncovered zero, at least one uncovered cell exists; in exact
arithmetic `delta` is strictly positive; in 32-bit arithmetic, and in exact arithmetic when
some uncovered entry is at most `INT_MAX`, `delta` is the value of an uncovered cell, is not
0, is strictly positive when the working costs are all non-negative, equals `INT_MAX` exactly
when no uncovered entry is below `INT_MAX`, and after the adjustment pass there is an
uncovered zero, so that the body of the inner loop runs exactly once in this search. -/
theorem adjust_progress (w : Int → Int) (hw : w = exact_int ∨ w = wrap_int32)
    (cost : Matrix Int) (s : State) (hr : Reach w cost s)
    (hcov : all_columns_covered cost.nrows s = false)
    (hz : find_a_zero cost.nrows s = none) :
    (∃ i j, i < cost.nrows ∧ j < cost.nrows ∧ s.row_covered i = false ∧
      s.col_covered j = false) ∧
    (w = exact_int → 0 < min_uncovered cost.nrows s) ∧
    ((w = wrap_int32 ∨ ∃ i j, i < cost.nrows ∧ j < cost.nrows ∧ s.row_covered i = false ∧
        s.col_covered j = false ∧ s.c i j ≤ INT_MAX) →
      (∃ a b, a < cost.nrows ∧ b < cost.nrows ∧ s.row_covered a = false ∧
        s.col_covered b = false ∧ min_uncovered cost.nrows s = s.c a b) ∧
      min_uncovered cost.nrows s ≠ 0 ∧
      ((∀ i j, i < cost.nrows → j < cost.nrows → 0 ≤ s.c i j) →
        0 < min_uncovered cost.nrows s) ∧
      (min_uncovered cost.nrows s = INT_MAX ↔
        ∀ i j, i < cost.nrows → j < cost.nrows → s.row_covered i = false →
          s.col_covered j = false → INT_MAX ≤ s.c i j) ∧
      ∃ z, find_a_zero cost.nrows (adjust w cost.nrows s) = some z ∧
        z.1 < cost.nrows ∧ z.2 < cost.nrows ∧
        (adjust w cost.nrows s).row_covered z.1 = false ∧
        (adjust w cost.nrows s).col_covered z.2 = false ∧
        (adjust w cost.nrows s).c z.1 z.2 = 0 ∧
        ∀ fuel, 2 ≤ fuel →
          search_zero w fuel cost.nrows s = .ok (adjust w cost.nrows s, z)) := by
  have hmask := reach_mask hw hr
  have hunc := exists_uncovered hmask hcov
  have hw0 : w 0 = 0 := by
    rcases hw with rfl | rfl
    · exact storing_exact.zero
    · exact bounded_wrap.zero
  refine ⟨hunc, ?_, ?_⟩
  · rintro rfl
    have := min_uncovered_pos (reach_inv hr) hz
    omega
  · intro hpre
    have hex : ∃ i j, i < cost.nrows ∧ j < cost.nrows ∧ s.row_covered i = false ∧
        s.col_covered j = false ∧ s.c i j ≤ INT_MAX := by
      rcases hpre with rfl | h
      · obtain ⟨i, j, hi, hj, hri, hcj⟩ := hunc
        have hst := reach_stored bounded_wrap hr
        refine ⟨i, j, hi, hj, hri, hcj, ?_⟩
        rw [← hst.stored i j hi hj]; exact bounded_wrap.le _
      · exact h
    obtain ⟨i, j, hi, hj, hri, hcj, hle⟩ := hex
    obtain ⟨a, b, ha, hb, har, hbc, hmin⟩ := min_uncovered_attained hi hj hri hcj hle
    have hne : min_uncovered cost.nrows s ≠ 0 := by
      rw [hmin]; exact find_a_zero_none hz a b ha hb har hbc
    obtain ⟨z, hz2⟩ := adjust_zero_of_attained (w := w) hw0 ha hb har hbc hmin
    refine ⟨⟨a, b, ha, hb, har, hbc, hmin⟩, hne, ?_, ?_, z, hz2, ?_⟩
    · intro hnn
      have := hnn a b ha hb
      omega
    · constructor
      · intro he i j hi hj hri hcj
        rw [← he]; exact min_uncovered_le s hi hj hri hcj
      · intro hall
        exact le_antisymm (min_uncovered_le_max _ _)
          (le_min_uncovered s (le_refl _) hall)
    · obtain ⟨h1, h2, h3, h4, h5⟩ := find_a_zero_some hz2
      exact ⟨h1, h2, h3, h4, h5, search_zero_one_pass hz hz2⟩

theorem adjust_progress_witness :
    (∃ i j, i < overflow_cost.nrows ∧ j < overflow_cost.nrows ∧
        overflow_state.row_covered i = false ∧
      overflow_state.col_covered j = false) ∧
    (wrap_int32 = exact_int → 0 < min_uncovered overflow_cost.nrows overflow_state) ∧
    ((wrap_int32 = wrap_int32 ∨ ∃ i j, i < overflow_cost.nrows ∧ j < overflow_cost.nrows ∧
        overflow_state.row_covered i = false ∧
        overflow_state.col_covered j = false ∧ overflow_state.c i j ≤ INT_MAX) →
      (∃ a b, a < overflow_cost.nrows ∧ b < overflow_cost.nrows ∧
          overflow_state.row_covered a = false ∧
        overflow_state.col_covered b = false ∧
            min_uncovered overflow_cost.nrows overflow_state = overflow_state.c a b) ∧
      min_uncovered overflow_cost.nrows overflow_state ≠ 0 ∧
      ((∀ i j, i < overflow_cost.nrows → j < overflow_cost.nrows → 0 ≤ overflow_state.c i j) →
        0 < min_uncovered overflow_cost.nrows overflow_state) ∧
      (min_uncovered overflow_cost.nrows overflow_state = INT_MAX ↔
        ∀ i j, i < overflow_cost.nrows → j < overflow_cost.nrows →
            overflow_state.row_covered i = false →
          overflow_state.col_covered j = false → INT_MAX ≤ overflow_state.c i j) ∧
      ∃ z, find_a_zero overflow_cost.nrows (adjust wrap_int32 overflow_cost.nrows overflow_state) =
          some z ∧
        z.1 < overflow_cost.nrows ∧ z.2 < overflow_cost.nrows ∧
        (adjust wrap_int32 overflow_cost.nrows overflow_state).row_covered z.1 = false ∧
        (adjust wrap_int32 overflow_cost.nrows overflow_state).col_covered z.2 = false ∧
        (adjust wrap_int32 overflow_cost.nrows overflow_state).c z.1 z.2 = 0 ∧
        ∀ fuel, 2 ≤ fuel →
          search_zero wrap_int32 fuel overflow_cost.nrows overflow_state =
              .ok (adjust wrap_int32 overflow_cost.nrows overflow_state, z)) :=
  adjust_progress wrap_int32 (Or.inr rfl) overflow_cost overflow_state overflow_state_reach
    (by decide) (by decide)

/-! ## The starred cells -/

/-- C12 (star-matching invariant): in exact and in 32-bit arithmetic, the starred cells (value
1) form a partial matching, at most one in every row and at most one in every column: after
every step of the initial starring loop and at its end, in every state of the main loop (on
entry, after every adjustment, cover step and augmentation), after the priming of the zero
that was found, and in the returned mask. -/
theorem star_matching (w : Int → Int) (hw : w = exact_int ∨ w = wrap_int32)
    (cost : Matrix Int) :
    (∀ c0 s i j, i < cost.nrows → j < cost.nrows → StarInv cost.nrows c0 s →
      StarInv cost.nrows c0 (star_cell s i j) ∧ StarsOk cost.nrows (star_cell s i j).mask) ∧
    StarsOk cost.nrows (initial_state w cost).mask ∧
    (∀ s, Reach w cost s → StarsOk cost.nrows s.mask) ∧
    (∀ s z, Reach w cost s → find_a_zero cost.nrows s = some z →
      StarsOk cost.nrows (set2 s.mask z.1 z.2 2)) ∧
    (∀ fuel mask, run_munkres_algorithm w fuel cost = .ok mask →
      StarsOk cost.nrows mask.get) := by
  refine ⟨?_, (initial_state_mask w cost).stars, fun s hr => (reach_mask hw hr).stars, ?_, ?_⟩
  · intro c0 s i j hi hj h
    have := star_cell_inv hi hj h
    exact ⟨this, this.stars⟩
  · intro s z hr hz
    exact primed_stars (reach_mask hw hr) (zeroAt_of_find hz)
  · intro fuel mask h
    obtain ⟨_, s, hr, _, rfl⟩ := run_spec h
    exact (reach_mask hw hr).stars

theorem star_matching_witness :
    (∀ c0 s i j, i < example_cost.nrows → j < example_cost.nrows → StarInv example_cost.nrows c0 s →
      StarInv example_cost.nrows c0 (star_cell s i j) ∧
          StarsOk example_cost.nrows (star_cell s i j).mask) ∧
    StarsOk example_cost.nrows (initial_state wrap_int32 example_cost).mask ∧
    (∀ s, Reach wrap_int32 example_cost s → StarsOk example_cost.nrows s.mask) ∧
    (∀ s z, Reach wrap_int32 example_cost s → find_a_zero example_cost.nrows s = some z →
      StarsOk example_cost.nrows (set2 s.mask z.1 z.2 2)) ∧
    (∀ fuel mask, run_munkres_algorithm wrap_int32 fuel example_cost = .ok mask →
      StarsOk example_cost.nrows mask.get) :=
  star_matching wrap_int32 (Or.inr rfl) example_cost

/-! ## Counting the starred cells -/

theorem countP_le_one {p : Nat → Bool} :
    ∀ l : List Nat, l.Nodup → (∀ a, a ∈ l → ∀ b, b ∈ l → p a = true → p b = true → a = b) →
      l.countP p ≤ 1 := by
  intro l
  induction l with
  | nil => intro _ _; simp
  | cons a l ih =>
    intro hnd huniq
    have hnd2 := List.nodup_cons.mp hnd
    by_cases hpa : p a = true
    · have h0 : l.countP p = 0 := by
        rw [List.countP_eq_zero]
        intro b hb hpb
        have : a = b := huniq a (List.mem_cons_self _ _) b (List.mem_cons_of_mem _ hb) hpa hpb
        exact hnd2.1 (this ▸ hb)
      rw [List.countP_cons_of_pos _ _ hpa, h0]
    · rw [List.countP_cons_of_neg _ _ hpa]
      exact ih hnd2.2 (fun x hx y hy => huniq x (List.mem_cons_of_mem _ hx) y
        (List.mem_cons_of_mem _ hy))

theorem sum_map_indicator (q : Nat → Bool) (l : List Nat) :
    (l.map (fun i => if q i = true then 1 else 0)).sum = l.countP q := by
  induction l with
  | nil => rfl
  | cons a l ih =>
    by_cases h : q a = true
    · simp only [List.map_cons, List.sum_cons, h, if_true, List.countP_cons_of_pos _ _ h, ih]
      omega
    · simp only [List.map_cons, List.sum_cons, h, if_false, Bool.false_eq_true,
        List.countP_cons_of_neg _ _ h, ih]
      omega

theorem countP_succ {p q : Nat → Bool} {a : Nat} :
    ∀ l : List Nat, l.Nodup → a ∈ l → p a = false → q a = true →
      (∀ x, x ∈ l → x ≠ a → q x = p x) → l.countP q = l.countP p + 1 := by
  intro l
  induction l with
  | nil => intro _ ha; cases ha
  | cons b l ih =>
    intro hnd ha hpa hqa hpq
    have hnd2 := List.nodup_cons.mp hnd
    by_cases hba : b = a
    · subst hba
      have hcongr : l.countP q = l.countP p := by
        apply List.countP_congr
        intro x hx
        have hxb : x ≠ b := fun he => hnd2.1 (he ▸ hx)
        rw [hpq x (List.mem_cons_of_mem _ hx) hxb]
      rw [List.countP_cons_of_pos _ _ hqa,
        List.countP_cons_of_neg _ _ (by rw [hpa]; exact Bool.false_ne_true), hcongr]
    · have ha2 : a ∈ l := by
        rcases List.mem_cons.mp ha with h | h
        · exact absurd h.symm hba
        · exact h
      have hih := ih hnd2.2 ha2 hpa hqa (fun x hx => hpq x (List.mem_cons_of_mem _ hx))
      have hb := hpq b (List.mem_cons_self _ _) hba
      by_cases hpb : p b = true
      · rw [List.countP_cons_of_pos _ _ hpb, List.countP_cons_of_pos _ _ (hb.trans hpb), hih]
      · rw [List.countP_cons_of_neg _ _ hpb,
          List.countP_cons_of_neg _ _ (by rw [hb]; exact hpb), hih]

theorem star_count_congr {n : Nat} {m m1 : Nat → Nat → Int}
    (h : ∀ i j, i < n → j < n → (m i j = 1 ↔ m1 i j = 1)) :
    star_count n m = star_count n m1 := by
  unfold star_count
  congr 1
  apply List.map_congr_left
  intro i hi
  apply List.countP_congr
  intro j hj
  have := h i j (List.mem_range.mp hi) (List.mem_range.mp hj)
  simp only [decide_eq_true_eq]
  exact this

theorem star_count_eq_rows {n : Nat} {s : State} (hs : StarsOk n s.mask) :
    star_count n s.mask = starred_rows n s := by
  unfold star_count starred_rows
  rw [← sum_map_indicator]
  congr 1
  apply List.map_congr_left
  intro i hi
  have hin := List.mem_range.mp hi
  by_cases hsome : (find_star_in_row n s i).isSome = true
  · rw [if_pos hsome]
    obtain ⟨j, hj, h1⟩ := has_star_iff.mp hsome
    apply le_antisymm
    · apply countP_le_one _ (List.nodup_range n)
      intro a ha b hb hpa hpb
      exact hs.rowuniq i a b hin (List.mem_range.mp ha) (List.mem_range.mp hb)
        (of_decide_eq_true hpa) (of_decide_eq_true hpb)
    · exact List.countP_pos_iff.mpr ⟨j, List.mem_range.mpr hj, decide_eq_true h1⟩
  · rw [if_neg hsome, List.countP_eq_zero]
    intro j hj hpj
    exact hsome (has_star_iff.mpr ⟨j, List.mem_range.mp hj, of_decide_eq_true hpj⟩)

theorem star_count_le {n : Nat} {s : State} (hs : StarsOk n s.mask) :
    star_count n s.mask ≤ n := by
  rw [star_count_eq_rows hs]
  exact starred_rows_le n s

theorem chain_path_count {n : Nat} {m : Nat → Nat → Int} {c_ : Nat} {l : List (Nat × Nat)}
    (h : Chain n m c_ l) : path_count m 2 l = path_count m 1 l := by
  induction h with
  | nil c_ _ => rfl
  | cons c_ r c1 l _ _ hs hp _ ih =>
    unfold path_count at *
    simp only [List.countP_cons, hs, hp, ih]
    simp

theorem handle_zero_branch {fuel n : Nat} {s s1 : State} {z : Nat × Nat}
    (hh : handle_zero fuel n s z = .ok s1) :
    (augments n s z = false ∧ s1.mask = set2 s.mask z.1 z.2 2) ∨
    (augments n s z = true ∧ ∃ path, build_path fuel n (prime_zero s z) z.2 [z] = .ok path ∧
      s1.mask = clear_primes (augment_path (set2 s.mask z.1 z.2 2) path)) := by
  unfold handle_zero at hh
  dsimp only at hh
  unfold augments prime_zero
  split at hh
  · rename_i sc hsc
    simp only [Except.ok.injEq] at hh
    subst hh
    left
    exact ⟨by rw [hsc]; rfl, rfl⟩
  · rename_i hnone
    split at hh
    · cases hh
    · rename_i path hpath
      simp only [Except.ok.injEq] at hh
      subst hh
      right
      exact ⟨by rw [hnone]; rfl, path, hpath, rfl⟩

theorem star_count_cover {fuel n : Nat} {s s1 : State} {z : Nat × Nat}
    (h : MaskInv n s) (hz : ZeroAt n s z) (hh : handle_zero fuel n s z = .ok s1)
    (ha : augments n s z = false) : star_count n s1.mask = star_count n s.mask := by
  rcases handle_zero_branch hh with ⟨_, hm⟩ | ⟨ha2, _⟩
  · rw [hm]
    exact star_count_congr (fun i j _ _ => primed_eq_one h hz i j)
  · rw [ha] at ha2; cases ha2

theorem augment_effect {fuel n : Nat} {s s1 : State} {z : Nat × Nat}
    (h : MaskInv n s) (hcov : all_columns_covered n s = false) (hz : ZeroAt n s z)
    (hh : handle_zero fuel n s z = .ok s1) (ha : augments n s z = true) :
    ∃ path, build_path fuel n (prime_zero s z) z.2 [z] = .ok path ∧
      (∀ p, p ∈ path → (prime_zero s z).mask p.1 p.2 = 1 → s1.mask p.1 p.2 = 0) ∧
      (∀ p, p ∈ path → (prime_zero s z).mask p.1 p.2 = 2 → s1.mask p.1 p.2 = 1) ∧
      path_count (prime_zero s z).mask 2 path = path_count (prime_zero s z).mask 1 path + 1 ∧
      star_count n s1.mask = star_count n s.mask + 1 := by
  rcases handle_zero_branch hh with ⟨ha2, _⟩ | ⟨_, path, hpath, hm⟩
  · rw [ha] at ha2; cases ha2
  have hinv1 := (handle_zero_mask h hcov hz hh).1
  obtain ⟨l, hl, hch⟩ := build_path_chain _ _ _ _ hpath
  have hpl : path = z :: l := by simpa using hl
  subst hpl
  have hch2 : Chain n (set2 s.mask z.1 z.2 2) z.2 l := hch
  have hone := primed_eq_one h hz
  have hno2 : ∀ j, j < n → set2 s.mask z.1 z.2 2 z.1 j ≠ 1 := by
    intro j hj
    have hnone : find_star_in_row n (prime_zero s z) z.1 = none := by
      unfold augments at ha
      exact Option.isNone_iff_eq_none.mp ha
    exact find_star_in_row_none hnone j hj
  obtain ⟨rank, b, _, hr⟩ := primed_ranked h hz
  have hz2 : set2 s.mask z.1 z.2 2 z.1 z.2 = 2 := set2_two_eq_two.mpr (Or.inl ⟨rfl, rfl⟩)
  have hnd : (z :: l).Nodup := path_nodup hr hz.lt2 hno2 hch2 hz2
  obtain ⟨_, hrows, hnew⟩ := augment_stars (primed_stars h hz) hr hz.lt2 hz2 hno2 hch2
  have hval : ∀ p, p ∈ z :: l → s1.mask p.1 p.2
      = clear_primes (fun i j => flip_val (set2 s.mask z.1 z.2 2 i j)) p.1 p.2 := by
    intro p hp
    rw [hm]
    unfold clear_primes
    rw [augment_path_eq_flipped _ _ hnd]
    unfold flipped
    rw [if_pos (show (p.1, p.2) ∈ z :: l from hp)]
  refine ⟨z :: l, hpath, ?_, ?_, ?_, ?_⟩
  · intro p hp h1
    rw [hval p hp]
    have h1s : set2 s.mask z.1 z.2 2 p.1 p.2 = 1 := h1
    unfold clear_primes flip_val
    simp only [h1s]; decide
  · intro p hp h2
    rw [hval p hp]
    have h2s : set2 s.mask z.1 z.2 2 p.1 p.2 = 2 := h2
    unfold clear_primes flip_val
    simp only [h2s]; decide
  · have hc := chain_path_count hch2
    unfold path_count at *
    show List.countP _ (z :: l) = List.countP _ (z :: l) + 1
    rw [List.countP_cons_of_pos _ _ (by simpa using hz2),
      List.countP_cons_of_neg _ _ (by
        rw [decide_eq_true_eq]
        show ¬ set2 s.mask z.1 z.2 2 z.1 z.2 = 1
        rw [hz2]; decide)]
    exact congrArg (· + 1) hc
  · rw [star_count_eq_rows hinv1.stars, star_count_eq_rows h.stars]
    have hno : ∀ j, j < n → s.mask z.1 j ≠ 1 := fun j hj h1 => hno2 j hj ((hone z.1 j).mpr h1)
    apply countP_succ (a := z.1) _ (List.nodup_range n) (List.mem_range.mpr hz.lt1)
    · cases hf : (find_star_in_row n s z.1).isSome with
      | false => rfl
      | true =>
        obtain ⟨j, hj, h1⟩ := has_star_iff.mp hf
        exact absurd h1 (hno j hj)
    · apply has_star_iff.mpr
      refine ⟨z.2, hz.lt2, ?_⟩
      rw [hm]
      exact (new_mask_eq_one hnd z.1 z.2).mpr hnew
    · intro i hi hne
      have hin := List.mem_range.mp hi
      apply Bool.eq_iff_iff.mpr
      rw [has_star_iff, has_star_iff]
      constructor
      · rintro ⟨j, hj, h1⟩
        rw [hm] at h1
        have hf := (new_mask_eq_one hnd i j).mp h1
        rcases flipped_eq_one.mp hf with ⟨hmem, h2⟩ | ⟨_, h1s⟩
        · rcases List.mem_cons.mp hmem with he | hl
          · exact absurd (congrArg Prod.fst he) hne
          · obtain ⟨k, hk, hk1⟩ := chain_prime_prev hch2 i j hl h2
            exact ⟨k, (chain_lt hz.lt2 hch2 _ hk).2, (hone i k).mp hk1⟩
        · exact ⟨j, hj, (hone i j).mp h1s⟩
      · rintro ⟨j, hj, h1⟩
        obtain ⟨k, hk, hk1⟩ := hrows i j hin hj ((hone i j).mpr h1)
        exact ⟨k, hk, by rw [hm]; exact (new_mask_eq_one hnd i k).mpr hk1⟩

theorem main_loop_count_fst {w : Int → Int} {fuel n : Nat} :
    ∀ (k : Nat) (s : State) (a : Nat),
      main_loop w fuel n k s = (main_loop_count w fuel n k s a).map Prod.fst := by
  intro k
  induction k with
  | zero => intro s a; rfl
  | succ k ih =>
    intro s a
    unfold main_loop main_loop_count loop_body
    cases hc : all_columns_covered n s with
    | true => rfl
    | false =>
      simp only [Bool.false_eq_true, if_false]
      cases hs : search_zero w fuel n s with
      | error e => rfl
      | ok r =>
        obtain ⟨s1, z⟩ := r
        dsimp only
        cases hh : handle_zero fuel n s1 z with
        | error e => rfl
        | ok s2 => exact ih s2 _

theorem search_zero_same_mask {w : Int → Int} {n : Nat} :
    ∀ (fuel : Nat) (s s1 : State) (z : Nat × Nat),
      search_zero w fuel n s = .ok (s1, z) → s1.mask = s.mask := by
  intro fuel
  induction fuel with
  | zero => intro s s1 z h; cases h
  | succ f ih =>
    intro s s1 z h
    unfold search_zero at h
    cases hz : find_a_zero n s with
    | some z1 =>
      simp only [hz, Except.ok.injEq, Prod.mk.injEq] at h
      rw [← h.1]
    | none =>
      simp only [hz] at h
      exact ih (adjust w n s) s1 z h

theorem main_loop_count_stars {w : Int → Int} (hw : w = exact_int ∨ w = wrap_int32)
    {cost : Matrix Int} {fuel : Nat} :
    ∀ (k : Nat) (s s1 : State) (a a1 : Nat), Reach w cost s →
      main_loop_count w fuel cost.nrows k s a = .ok (s1, a1) →
      Reach w cost s1 ∧ a1 + star_count cost.nrows s.mask = a + star_count cost.nrows s1.mask := by
  intro k
  induction k with
  | zero => intro s s1 a a1 _ h; cases h
  | succ k ih =>
    intro s s1 a a1 hr h
    unfold main_loop_count at h
    cases hc : all_columns_covered cost.nrows s with
    | true =>
      simp only [hc, if_true, Except.ok.injEq, Prod.mk.injEq] at h
      obtain ⟨rfl, rfl⟩ := h
      exact ⟨hr, rfl⟩
    | false =>
      simp only [hc, Bool.false_eq_true, if_false] at h
      cases hs : search_zero w fuel cost.nrows s with
      | error e => rw [hs] at h; cases h
      | ok r =>
        obtain ⟨s2, z⟩ := r
        rw [hs] at h
        dsimp only at h
        obtain ⟨hr2, hz2, hc2⟩ := search_zero_reach fuel s s2 z hr hc hs
        have hm2 : s2.mask = s.mask := search_zero_same_mask fuel s s2 z hs
        cases hh : handle_zero fuel cost.nrows s2 z with
        | error e => rw [hh] at h; cases h
        | ok s3 =>
          rw [hh] at h
          dsimp only at h
          have hr3 : Reach w cost s3 := Reach.handle fuel s2 s3 z hr2 hc2 hz2 hh
          obtain ⟨hr1, hcount⟩ := ih s3 s1 _ a1 hr3 h
          refine ⟨hr1, ?_⟩
          have hinv2 := reach_mask hw hr2
          rw [← hm2]
          cases ha : augments cost.nrows s2 z with
          | true =>
            obtain ⟨_, _, _, _, _, hsc⟩ :=
              augment_effect hinv2 hc2 (zeroAt_of_find hz2) hh ha
            rw [ha] at hcount
            simp only [if_true] at hcount
            omega
          | false =>
            have hsc := star_count_cover hinv2 (zeroAt_of_find hz2) hh ha
            rw [ha] at hcount
            simp only [Bool.false_eq_true, if_false] at hcount
            omega

/-- C13 (augmentation progress): in exact and in 32-bit arithmetic, whenever the handling of
a zero takes the augmentation branch, the path loop returns a path on which every starred
cell becomes 0 and every primed cell becomes 1, the path holds one more primed than starred
cell, and the mask has exactly one more starred cell afterwards than before.  The cover
branch and the matrix adjustment leave the number of starred cells unchanged, this number
is at most `n` in every state of the main loop, and so the number of augmentation branches
taken in a run, as counted by `main_loop_count`, is at most `n`. -/
theorem augmentation_progress (w : Int → Int) (hw : w = exact_int ∨ w = wrap_int32)
    (cost : Matrix Int) :
    (∀ fuel s s1 z, Reach w cost s → all_columns_covered cost.nrows s = false →
      find_a_zero cost.nrows s = some z → handle_zero fuel cost.nrows s z = .ok s1 →
      augments cost.nrows s z = true →
      ∃ path, build_path fuel cost.nrows (prime_zero s z) z.2 [z] = .ok path ∧
        (∀ p, p ∈ path → (prime_zero s z).mask p.1 p.2 = 1 → s1.mask p.1 p.2 = 0) ∧
        (∀ p, p ∈ path → (prime_zero s z).mask p.1 p.2 = 2 → s1.mask p.1 p.2 = 1) ∧
        path_count (prime_zero s z).mask 2 path
          = path_count (prime_zero s z).mask 1 path + 1 ∧
        star_count cost.nrows s1.mask = star_count cost.nrows s.mask + 1) ∧
    (∀ fuel s s1 z, Reach w cost s → all_columns_covered cost.nrows s = false →
      find_a_zero cost.nrows s = some z → handle_zero fuel cost.nrows s z = .ok s1 →
      augments cost.nrows s z = false →
      star_count cost.nrows s1.mask = star_count cost.nrows s.mask) ∧
    (∀ s, star_count cost.nrows (adjust w cost.nrows s).mask
      = star_count cost.nrows s.mask) ∧
    (∀ s, Reach w cost s → star_count cost.nrows s.mask ≤ cost.nrows) ∧
    (∀ fuel k, main_loop w fuel cost.nrows k (initial_state w cost)
      = (main_loop_count w fuel cost.nrows k (initial_state w cost) 0).map Prod.fst) ∧
    (∀ fuel k s1 a,
      main_loop_count w fuel cost.nrows k (initial_state w cost) 0 = .ok (s1, a) →
      star_count cost.nrows s1.mask
        = star_count cost.nrows (initial_state w cost).mask + a ∧
      a ≤ cost.nrows) := by
  refine ⟨?_, ?_, fun _ => rfl, fun s hr => star_count_le (reach_mask hw hr).stars,
    fun fuel k => main_loop_count_fst k _ 0, ?_⟩
  · intro fuel s s1 z hr hcov hz hh ha
    exact augment_effect (reach_mask hw hr) hcov (zeroAt_of_find hz) hh ha
  · intro fuel s s1 z hr _ hz hh ha
    exact star_count_cover (reach_mask hw hr) (zeroAt_of_find hz) hh ha
  · intro fuel k s1 a h
    obtain ⟨hr1, hcount⟩ := main_loop_count_stars hw k _ s1 0 a Reach.init h
    have hle := star_count_le (reach_mask hw hr1).stars
    omega

theorem augmentation_progress_witness :
    (∀ fuel s s1 z, Reach wrap_int32 example_cost s →
        all_columns_covered example_cost.nrows s = false →
      find_a_zero example_cost.nrows s = some z → handle_zero fuel example_cost.nrows s z = .ok s1 →
      augments example_cost.nrows s z = true →
      ∃ path, build_path fuel example_cost.nrows (prime_zero s z) z.2 [z] = .ok path ∧
        (∀ p, p ∈ path → (prime_zero s z).mask p.1 p.2 = 1 → s1.mask p.1 p.2 = 0) ∧
        (∀ p, p ∈ path → (prime_zero s z).mask p.1 p.2 = 2 → s1.mask p.1 p.2 = 1) ∧
        path_count (prime_zero s z).mask 2 path
          = path_count (prime_zero s z).mask 1 path + 1 ∧
        star_count example_cost.nrows s1.mask = star_count example_cost.nrows s.mask + 1) ∧
    (∀ fuel s s1 z, Reach wrap_int32 example_cost s →
        all_columns_covered example_cost.nrows s = false →
      find_a_zero example_cost.nrows s = some z → handle_zero fuel example_cost.nrows s z = .ok s1 →
      augments example_cost.nrows s z = false →
      star_count example_cost.nrows s1.mask = star_count example_cost.nrows s.mask) ∧
    (∀ s, star_count example_cost.nrows (adjust wrap_int32 example_cost.nrows s).mask
      = star_count example_cost.nrows s.mask) ∧
    (∀ s, Reach wrap_int32 example_cost s →
        star_count example_cost.nrows s.mask ≤ example_cost.nrows) ∧
    (∀ fuel k, main_loop wrap_int32 fuel example_cost.nrows k
        (initial_state wrap_int32 example_cost)
      = (main_loop_count wrap_int32 fuel example_cost.nrows k
          (initial_state wrap_int32 example_cost) 0).map Prod.fst) ∧
    (∀ fuel k s1 a,
      main_loop_count wrap_int32 fuel example_cost.nrows k
          (initial_state wrap_int32 example_cost) 0 = .ok (s1, a) →
      star_count example_cost.nrows s1.mask
        = star_count example_cost.nrows (initial_state wrap_int32 example_cost).mask + a ∧
      a ≤ example_cost.nrows) :=
  augmentation_progress wrap_int32 (Or.inr rfl) example_cost

/-! ## The reductions -/

theorem min_element_attained {n : Nat} (hn : 0 < n) (row : Nat → Int) :
    ∃ j, j < n ∧ min_element n row = row j := by
  unfold min_element
  apply foldl_invariant (fun m => ∃ j, j < n ∧ m = row j)
  · intro m j hj hm
    dsimp only
    split
    · exact ⟨j, List.mem_range.mp hj, rfl⟩
    · exact hm
  · exact ⟨0, hn, rfl⟩

theorem col_min_mem (n : Nat) (c : Nat → Nat → Int) (j : Nat) :
    col_min n c j = INT_MAX ∨ ∃ i, i < n ∧ col_min n c j = c i j := by
  unfold col_min
  apply foldl_invariant (fun m => m = INT_MAX ∨ ∃ i, i < n ∧ m = c i j)
  · intro m i hi hm
    rcases le_total m (c i j) with h | h
    · rw [min_eq_left h]; exact hm
    · rw [min_eq_right h]; exact Or.inr ⟨i, List.mem_range.mp hi, rfl⟩
  · exact Or.inl rfl

theorem col_min_attained {n : Nat} {c : Nat → Nat → Int} {j i : Nat} (hi : i < n)
    (h : c i j ≤ INT_MAX) : ∃ k, k < n ∧ col_min n c j = c k j := by
  rcases col_min_mem n c j with hm | hm
  · have := col_min_le c j hi
    exact ⟨i, hi, by omega⟩
  · exact hm

theorem reduce_nonneg {n : Nat} (c : Nat → Nat → Int) {i j : Nat} (hi : i < n) :
    0 ≤ col_reduce exact_int n (row_reduce exact_int n c) i j := by
  show 0 ≤ row_reduce exact_int n c i j - col_min n (row_reduce exact_int n c) j
  have := col_min_le (row_reduce exact_int n c) j hi
  omega

theorem reduce_row_zero {n : Nat} (c : Nat → Nat → Int) {i : Nat} (hi : i < n) :
    ∃ j, j < n ∧ col_reduce exact_int n (row_reduce exact_int n c) i j = 0 := by
  obtain ⟨j, hj, hmin⟩ := min_element_attained (by omega : 0 < n) (c i)
  refine ⟨j, hj, ?_⟩
  show row_reduce exact_int n c i j - col_min n (row_reduce exact_int n c) j = 0
  have h0 : row_reduce exact_int n c i j = 0 := by
    show c i j - min_element n (c i) = 0
    omega
  have h1 := col_min_le (row_reduce exact_int n c) j hi
  have h2 : 0 ≤ col_min n (row_reduce exact_int n c) j :=
    col_min_nonneg _ j (fun k _ => row_reduce_nonneg c hj)
  omega

theorem reduce_col_zero {n : Nat} (c : Nat → Nat → Int) {i j : Nat} (hi : i < n)
    (h : row_reduce exact_int n c i j ≤ INT_MAX) :
    ∃ k, k < n ∧ col_reduce exact_int n (row_reduce exact_int n c) k j = 0 := by
  obtain ⟨k, hk, hmin⟩ := col_min_attained hi h
  refine ⟨k, hk, ?_⟩
  show row_reduce exact_int n c k j - col_min n (row_reduce exact_int n c) j = 0
  omega

theorem reduce_agrees {w : Int → Int} (hw : FixesTo w INT_MAX) {n : Nat}
    (c : Nat → Nat → Int)
    (hb : ∀ i j, i < n → j < n → c i j - min_element n (c i) ≤ INT_MAX)
    {i j : Nat} (hi : i < n) (hj : j < n) :
    row_reduce w n c i j = row_reduce exact_int n c i j ∧
    col_reduce w n (row_reduce w n c) i j
      = col_reduce exact_int n (row_reduce exact_int n c) i j ∧
    col_reduce exact_int n (row_reduce exact_int n c) i j ≤ INT_MAX := by
  have hrr : ∀ k, k < n → row_reduce w n c k j = row_reduce exact_int n c k j := by
    intro k hk
    show w (c k j - min_element n (c k)) = c k j - min_element n (c k)
    have := min_element_le (c k) hj
    exact hw _ (by omega) (hb k j hk hj)
  have hcm : col_min n (row_reduce w n c) j = col_min n (row_reduce exact_int n c) j :=
    col_min_congr hrr
  have h1 := col_min_le (row_reduce exact_int n c) j hi
  have h2 : 0 ≤ col_min n (row_reduce exact_int n c) j :=
    col_min_nonneg _ j (fun k _ => row_reduce_nonneg c hj)
  have h3 : row_reduce exact_int n c i j ≤ INT_MAX := hb i j hi hj
  refine ⟨hrr i hi, ?_, ?_⟩
  · show w (row_reduce w n c i j - col_min n (row_reduce w n c) j)
      = row_reduce exact_int n c i j - col_min n (row_reduce exact_int n c) j
    rw [hcm, hrr i hi]
    exact hw _ (by omega) (by omega)
  · show row_reduce exact_int n c i j - col_min n (row_reduce exact_int n c) j ≤ INT_MAX
    omega

theorem reduce_in_range {n : Nat} {c : Nat → Nat → Int}
    (hb : ∀ i, i < n → ∀ j, j < n → 0 ≤ c i j ∧ c i j ≤ INT_MAX) :
    ∀ i, i < n → ∀ j, j < n → c i j - min_element n (c i) ≤ INT_MAX := by
  intro i hi j hj
  have h0 : 0 ≤ min_element n (c i) :=
    le_min_element (hb i hi 0 (by omega)).1 (fun k hk => (hb i hi k hk).1)
  have := (hb i hi j hj).2
  omega

/-- C14 (reduction postcondition): take an `n × n` integer matrix on which the arithmetic of
the two passes is exact, that is, on which no `int` operation overflows: no difference
`c[i][j] - min_val` of the row reduction (line 31) exceeds `INT_MAX`; such a difference is
never negative, and the subtraction of the column reduction (line 41) cannot overflow after
it.  Then, in exact arithmetic and in 32-bit `int` arithmetic alike, after the row reduction
every entry lies between 0 and `INT_MAX`, and after the row-reduction and column-reduction
passes every entry of the working matrix is `>= 0` (and at most `INT_MAX`), every row contains
at least one zero and every column contains at least one zero; the working matrix is the same
in the two arithmetics. -/
theorem reduction_postcondition (w : Int → Int) (hw : w = exact_int ∨ w = wrap_int32)
    (cost : Matrix Int)
    (hb : ∀ i, i < cost.nrows → ∀ j, j < cost.nrows →
      cost.get i j - min_element cost.nrows (cost.get i) ≤ INT_MAX) :
    (∀ i j, i < cost.nrows → j < cost.nrows →
      0 ≤ row_reduce w cost.nrows cost.get i j ∧
      row_reduce w cost.nrows cost.get i j ≤ INT_MAX) ∧
    (∀ i j, i < cost.nrows → j < cost.nrows →
      0 ≤ col_reduce w cost.nrows (row_reduce w cost.nrows cost.get) i j ∧
      col_reduce w cost.nrows (row_reduce w cost.nrows cost.get) i j ≤ INT_MAX ∧
      col_reduce w cost.nrows (row_reduce w cost.nrows cost.get) i j
        = col_reduce exact_int cost.nrows (row_reduce exact_int cost.nrows cost.get) i j) ∧
    (∀ i, i < cost.nrows → ∃ j, j < cost.nrows ∧
      col_reduce w cost.nrows (row_reduce w cost.nrows cost.get) i j = 0) ∧
    (∀ j, j < cost.nrows → ∃ i, i < cost.nrows ∧
      col_reduce w cost.nrows (row_reduce w cost.nrows cost.get) i j = 0) := by
  have hfix : FixesTo w INT_MAX := by
    rcases hw with rfl | rfl
    · exact fixes_exact INT_MAX
    · exact fixes_wrap (le_refl _)
  have hb2 : ∀ i j, i < cost.nrows → j < cost.nrows →
      cost.get i j - min_element cost.nrows (cost.get i) ≤ INT_MAX :=
    fun i j hi hj => hb i hi j hj
  have hag := fun i j (hi : i < cost.nrows) (hj : j < cost.nrows) =>
    reduce_agrees hfix cost.get hb2 hi hj
  refine ⟨?_, ?_, ?_, ?_⟩
  · intro i j hi hj
    rw [(hag i j hi hj).1]
    exact ⟨row_reduce_nonneg cost.get hj, hb i hi j hj⟩
  · intro i j hi hj
    obtain ⟨_, h2, h3⟩ := hag i j hi hj
    rw [h2]
    exact ⟨reduce_nonneg cost.get hi, h3, rfl⟩
  · intro i hi
    obtain ⟨j, hj, h0⟩ := reduce_row_zero cost.get hi
    exact ⟨j, hj, by rw [(hag i j hi hj).2.1]; exact h0⟩
  · intro j hj
    have hn : 0 < cost.nrows := by omega
    obtain ⟨i, hi, h0⟩ := reduce_col_zero cost.get hn (hb 0 hn j hj)
    exact ⟨i, hi, by rw [(hag i j hi hj).2.1]; exact h0⟩

theorem reduction_postcondition_witness :
    (∀ i j, i < signed_cost.nrows → j < signed_cost.nrows →
      0 ≤ row_reduce wrap_int32 signed_cost.nrows signed_cost.get i j ∧
      row_reduce wrap_int32 signed_cost.nrows signed_cost.get i j ≤ INT_MAX) ∧
    (∀ i j, i < signed_cost.nrows → j < signed_cost.nrows →
      0 ≤ col_reduce wrap_int32 signed_cost.nrows
        (row_reduce wrap_int32 signed_cost.nrows signed_cost.get) i j ∧
      col_reduce wrap_int32 signed_cost.nrows
        (row_reduce wrap_int32 signed_cost.nrows signed_cost.get) i j ≤ INT_MAX ∧
      col_reduce wrap_int32 signed_cost.nrows
        (row_reduce wrap_int32 signed_cost.nrows signed_cost.get) i j
        = col_reduce exact_int signed_cost.nrows
          (row_reduce exact_int signed_cost.nrows signed_cost.get) i j) ∧
    (∀ i, i < signed_cost.nrows → ∃ j, j < signed_cost.nrows ∧
      col_reduce wrap_int32 signed_cost.nrows
        (row_reduce wrap_int32 signed_cost.nrows signed_cost.get) i j = 0) ∧
    (∀ j, j < signed_cost.nrows → ∃ i, i < signed_cost.nrows ∧
      col_reduce wrap_int32 signed_cost.nrows
        (row_reduce wrap_int32 signed_cost.nrows signed_cost.get) i j = 0) :=
  reduction_postcondition wrap_int32 (Or.inr rfl) signed_cost (by decide)

/-! ## Potentials -/

theorem potential_sum {n : Nat} {cost : Matrix Int} {c : Nat → Nat → Int} {u v : Nat → Int}
    (huv : ∀ i j, i < n → j < n → c i j = cost.get i j - u i - v j)
    (σ : Equiv.Perm (Fin n)) :
    ∑ i : Fin n, c i (σ i)
      = ∑ i : Fin n, cost.get i (σ i) - (∑ i : Fin n, u i + ∑ j : Fin n, v j) := by
  have hsplit : ∑ i : Fin n, cost.get i (σ i)
      = ∑ i : Fin n, c i (σ i) + ∑ i : Fin n, u i + ∑ j : Fin n, v j := by
    rw [← Equiv.sum_comp σ (fun j : Fin n => v j), ← Finset.sum_add_distrib,
      ← Finset.sum_add_distrib]
    apply Finset.sum_congr rfl
    intro i _
    have := huv i (σ i) i.2 (σ i).2
    omega
  omega

theorem optimal_of_shift {n : Nat} {m m1 : Matrix Int} {K : Int}
    (h : ∀ σ : Equiv.Perm (Fin n), assignment_cost m1 σ = assignment_cost m σ - K)
    (σ : Equiv.Perm (Fin n)) : IsOptimal m1 σ ↔ IsOptimal m σ := by
  unfold IsOptimal
  constructor
  · intro ho τ
    have := ho τ
    rw [h σ, h τ] at this
    omega
  · intro ho τ
    have := ho τ
    rw [h σ, h τ]
    omega

theorem reduced_shift (cost : Matrix Int) (σ : Equiv.Perm (Fin cost.nrows)) :
    assignment_cost (reduced exact_int cost) σ
      = assignment_cost cost σ - reduction_constant cost := by
  unfold assignment_cost reduction_constant
  rw [list_sum_range, list_sum_range]
  exact potential_sum (c := (reduced exact_int cost).get)
    (u := fun i => min_element cost.nrows (cost.get i))
    (v := fun j => col_min cost.nrows (row_reduce exact_int cost.nrows cost.get) j)
    (fun i j _ _ => rfl) σ

theorem working_shift {cost : Matrix Int} {s : State} (h : Inv cost.nrows cost.get s) :
    ∃ u v : Nat → Int,
      (∀ i j, i < cost.nrows → j < cost.nrows → s.c i j = cost.get i j - u i - v j) ∧
      (∀ σ : Equiv.Perm (Fin cost.nrows),
        assignment_cost (working cost.nrows s) σ
          = assignment_cost cost σ
            - (∑ i : Fin cost.nrows, u i + ∑ j : Fin cost.nrows, v j)) ∧
      ∀ σ : Equiv.Perm (Fin cost.nrows), IsOptimal (working cost.nrows s) σ ↔ IsOptimal cost σ := by
  obtain ⟨u, v, huv⟩ := h.pot
  have hs : ∀ σ : Equiv.Perm (Fin cost.nrows),
      assignment_cost (working cost.nrows s) σ
        = assignment_cost cost σ
          - (∑ i : Fin cost.nrows, u i + ∑ j : Fin cost.nrows, v j) :=
    fun σ => potential_sum (c := s.c) huv σ
  exact ⟨u, v, huv, hs, optimal_of_shift hs⟩

/-- C15, as stated, fails in `int` arithmetic: in the run on the non-negative matrix
`[[0,M,0],[M,0,M],[M,0,M]]` with `M = INT_MAX`, after the first matrix-adjustment pass (in
which `INT_MAX + INT_MAX` overflows at the cell `(0, 1)`) the working matrix is
`[[0,-2,0],[0,0,0],[0,0,0]]`: the identity assignment costs 0 on the working matrix and `M`
on the cost matrix, the assignment `(0,1), (1,0), (2,2)` costs `-2` on the working matrix and
`3 * M` on the cost matrix, so no constant `K` relates the two costs for every permutation. -/
theorem adjust_potential_counterexample :
    Reach wrap_int32 overflow_cost (adjust wrap_int32 3 overflow_state) ∧
    to_rows (working 3 (adjust wrap_int32 3 overflow_state))
      = [[0, -2, 0], [0, 0, 0], [0, 0, 0]] ∧
    ¬ ∃ K : Int, ∀ σ : Equiv.Perm (Fin 3),
      assignment_cost (working 3 (adjust wrap_int32 3 overflow_state)) σ
        = assignment_cost overflow_cost σ - K := by
  refine ⟨Reach.adjust overflow_state overflow_state_reach (by decide) (by decide),
    by decide, ?_⟩
  rintro ⟨K, hK⟩
  have e1 := hK 1
  have e2 := hK (Equiv.swap 0 1)
  have a1 : assignment_cost (working 3 (adjust wrap_int32 3 overflow_state))
      (1 : Equiv.Perm (Fin 3)) = 0 := by decide
  have a2 : assignment_cost overflow_cost (1 : Equiv.Perm (Fin 3)) = 2147483647 := by decide
  have a3 : assignment_cost (working 3 (adjust wrap_int32 3 overflow_state))
      (Equiv.swap (0 : Fin 3) 1) = -2 := by decide
  have a4 : assignment_cost overflow_cost (Equiv.swap (0 : Fin 3) 1) = 6442450941 := by
    decide
  rw [a1, a2] at e1
  rw [a3, a4] at e2
  omega

/-- C15, amended: in exact integer arithmetic, for every `n × n` integer matrix and every
permutation `σ`, the cost of `σ` on the matrix after row and column reduction is its cost on
the input minus the constant `K`, the sum of the subtracted row minima and column minima,
so a permutation minimises the reduced cost exactly when it minimises the original cost; and
in every state of the main loop, so after every matrix-adjustment pass, the working matrix
is the cost matrix minus a row potential `u` and a column potential `v`, the cost of every
permutation on it is its cost on the input minus the sum of the potentials, and the minimising
permutations are the same.  All of this holds in 32-bit `int` arithmetic as well when the
costs are non-negative and at most `INT_MAX / 2`. -/
theorem reduction_preserves_optimum (cost : Matrix Int) :
    (∀ σ : Equiv.Perm (Fin cost.nrows),
      assignment_cost (reduced exact_int cost) σ
        = assignment_cost cost σ - reduction_constant cost) ∧
    (∀ σ : Equiv.Perm (Fin cost.nrows),
      IsOptimal (reduced exact_int cost) σ ↔ IsOptimal cost σ) ∧
    (∀ s, Reach exact_int cost s →
      ∃ u v : Nat → Int,
        (∀ i j, i < cost.nrows → j < cost.nrows → s.c i j = cost.get i j - u i - v j) ∧
        (∀ σ : Equiv.Perm (Fin cost.nrows),
          assignment_cost (working cost.nrows s) σ
            = assignment_cost cost σ
              - (∑ i : Fin cost.nrows, u i + ∑ j : Fin cost.nrows, v j)) ∧
        ∀ σ : Equiv.Perm (Fin cost.nrows),
          IsOptimal (working cost.nrows s) σ ↔ IsOptimal cost σ) ∧
    ((∃ M, 2 * M ≤ INT_MAX ∧
        ∀ i, i < cost.nrows → ∀ j, j < cost.nrows → 0 ≤ cost.get i j ∧ cost.get i j ≤ M) →
      (∀ σ : Equiv.Perm (Fin cost.nrows),
        assignment_cost (reduced wrap_int32 cost) σ
          = assignment_cost cost σ - reduction_constant cost) ∧
      (∀ σ : Equiv.Perm (Fin cost.nrows),
        IsOptimal (reduced wrap_int32 cost) σ ↔ IsOptimal cost σ) ∧
      ∀ s, Reach wrap_int32 cost s →
        ∃ u v : Nat → Int,
          (∀ i j, i < cost.nrows → j < cost.nrows → s.c i j = cost.get i j - u i - v j) ∧
          (∀ σ : Equiv.Perm (Fin cost.nrows),
            assignment_cost (working cost.nrows s) σ
              = assignment_cost cost σ
                - (∑ i : Fin cost.nrows, u i + ∑ j : Fin cost.nrows, v j)) ∧
          ∀ σ : Equiv.Perm (Fin cost.nrows),
            IsOptimal (working cost.nrows s) σ ↔ IsOptimal cost σ) := by
  refine ⟨reduced_shift cost, optimal_of_shift (reduced_shift cost),
    fun s hr => working_shift (reach_inv hr), ?_⟩
  rintro ⟨M, hM, hb⟩
  have hw := fixes_wrap hM
  have hred : ∀ σ : Equiv.Perm (Fin cost.nrows),
      assignment_cost (reduced wrap_int32 cost) σ
        = assignment_cost cost σ - reduction_constant cost := by
    intro σ
    unfold assignment_cost reduction_constant
    rw [list_sum_range, list_sum_range]
    exact potential_sum (c := (reduced wrap_int32 cost).get)
      (u := fun i => min_element cost.nrows (cost.get i))
      (v := fun j => col_min cost.nrows (row_reduce exact_int cost.nrows cost.get) j)
      (fun i j hi hj => (col_reduce_small hw hb hi hj).1) σ
  exact ⟨hred, optimal_of_shift hred, fun s hr => working_shift (reach_small hw hb hr).1⟩

/-! ## Safety of the path loop -/

theorem prime_of_star {n : Nat} {s : State} {z : Nat × Nat} (h : MaskInv n s)
    (hz : ZeroAt n s z) {r c_ : Nat} (hr : r < n) (hc : c_ < n)
    (hcov : s.col_covered c_ = false) (h1 : (prime_zero s z).mask r c_ = 1) :
    ∃ c1, find_prime_in_row n (prime_zero s z) r = some c1 ∧ c1 < n ∧
      (prime_zero s z).mask r c1 = 2 ∧ s.col_covered c1 = false := by
  have h1s : s.mask r c_ = 1 := (primed_eq_one h hz r c_).mp h1
  have hrow : s.row_covered r = true := star_row_covered h hr hc h1s hcov
  obtain ⟨j, hj, hp⟩ := h.rowprime r hr hrow
  have hp2 : (prime_zero s z).mask r j = 2 := set2_two_eq_two.mpr (Or.inr hp)
  obtain ⟨c1, hc1⟩ := find_prime_in_row_isSome hj hp2
  obtain ⟨hlt, h2⟩ := find_prime_in_row_some hc1
  exact ⟨c1, hc1, hlt, h2, primed_col_uncovered h hz hr hlt h2⟩

theorem build_path_safe {n : Nat} {s : State} {z : Nat × Nat} (h : MaskInv n s)
    (hz : ZeroAt n s z) :
    ∀ (fuel c_ : Nat) (acc : List (Nat × Nat)), c_ < n → s.col_covered c_ = false →
      (∀ p, p ∈ acc → p.1 < n ∧ p.2 < n) →
      build_path fuel n (prime_zero s z) c_ acc ≠ .error .out_of_range ∧
      ∀ path, build_path fuel n (prime_zero s z) c_ acc = .ok path →
        ∀ p, p ∈ path → p.1 < n ∧ p.2 < n := by
  intro fuel
  induction fuel with
  | zero =>
    intro c_ acc _ _ _
    exact ⟨fun he => (by cases he), fun path he => (by cases he)⟩
  | succ f ih =>
    intro c_ acc hc hcov hacc
    unfold build_path
    cases hs : find_star_in_col n (prime_zero s z) c_ with
    | none =>
      dsimp only
      refine ⟨fun he => (by cases he), ?_⟩
      intro path he
      simp only [Except.ok.injEq] at he
      subst he
      exact hacc
    | some r =>
      dsimp only
      obtain ⟨hr, h1⟩ := find_star_in_col_some hs
      obtain ⟨c1, hc1, hlt, _, hcov1⟩ := prime_of_star h hz hr hc hcov h1
      rw [hc1]
      dsimp only
      apply ih c1 _ hlt hcov1
      intro p hp
      rcases List.mem_append.mp hp with hp | hp
      · exact hacc p hp
      · simp only [List.mem_cons, List.mem_singleton, List.not_mem_nil, or_false] at hp
        rcases hp with rfl | rfl
        · exact ⟨hr, hc⟩
        · exact ⟨hr, hlt⟩

theorem handle_zero_safe {fuel n : Nat} {s : State} {z : Nat × Nat} (h : MaskInv n s)
    (hz : ZeroAt n s z) : handle_zero fuel n s z ≠ .error .out_of_range := by
  unfold handle_zero
  dsimp only
  split
  · intro he; cases he
  · have hsafe := (build_path_safe h hz fuel z.2 [z] hz.lt2 hz.col (by
      intro p hp
      simp only [List.mem_singleton] at hp
      subst hp
      exact ⟨hz.lt1, hz.lt2⟩)).1
    have hsafe2 : build_path fuel n
        { c := s.c, mask := set2 s.mask z.1 z.2 2, row_covered := s.row_covered,
          col_covered := s.col_covered } z.2 [z] ≠ .error .out_of_range := hsafe
    split
    · rename_i e he
      intro h2
      simp only [Except.error.injEq] at h2
      subst h2
      exact hsafe2 he
    · intro he; cases he

theorem main_loop_safe {w : Int → Int} (hw : w = exact_int ∨ w = wrap_int32)
    {cost : Matrix Int} {fuel : Nat} :
    ∀ (k : Nat) (s : State), Reach w cost s →
      main_loop w fuel cost.nrows k s ≠ .error .out_of_range := by
  intro k
  induction k with
  | zero => intro s _ he; cases he
  | succ k ih =>
    intro s hr
    unfold main_loop loop_body
    cases hc : all_columns_covered cost.nrows s with
    | true => intro he; cases he
    | false =>
      simp only [Bool.false_eq_true, if_false]
      cases hs : search_zero w fuel cost.nrows s with
      | error e =>
        dsimp only
        intro he
        simp only [Except.error.injEq] at he
        subst he
        have := search_zero_error fuel s hs
        cases this
      | ok r =>
        obtain ⟨s1, z⟩ := r
        dsimp only
        obtain ⟨hr1, hz1, hc1⟩ := search_zero_reach fuel s s1 z hr hc hs
        cases hh : handle_zero fuel cost.nrows s1 z with
        | error e =>
          dsimp only
          intro he
          simp only [Except.error.injEq] at he
          subst he
          exact handle_zero_safe (reach_mask hw hr1) (zeroAt_of_find hz1) hh
        | ok s2 =>
          dsimp only
          exact ih s2 (Reach.handle fuel s1 s2 z hr1 hc1 hz1 hh)

/-- C16 (path-construction safety): in exact and in 32-bit arithmetic, on every input, the zero
handed to the priming step by the search is a cell of the matrix (never the pair `-1, -1`)
that holds 0 and is unmarked, so not starred; in the primed state every starred cell in an
uncovered column lies in a row for which `find_prime_in_row` returns a column below `n` that
is again uncovered, so the path loop, which starts in the uncovered column of the zero, never
receives `-1` (the outcome `out_of_range`), every cell of the path it returns is in
range, the column returned by `find_star_in_row` in the cover branch is below `n`, the
handling of the zero returns a state for every large enough fuel, and no run ends with
`out_of_range`. -/
theorem path_safety (w : Int → Int) (hw : w = exact_int ∨ w = wrap_int32)
    (cost : Matrix Int) :
    (∀ fuel s s1 z, Reach w cost s → all_columns_covered cost.nrows s = false →
      search_zero w fuel cost.nrows s = .ok (s1, z) →
      z.1 < cost.nrows ∧ z.2 < cost.nrows ∧ s1.c z.1 z.2 = 0 ∧ s1.mask z.1 z.2 = 0) ∧
    (∀ s z, Reach w cost s → all_columns_covered cost.nrows s = false →
      find_a_zero cost.nrows s = some z →
      (∀ sc, find_star_in_row cost.nrows (prime_zero s z) z.1 = some sc → sc < cost.nrows) ∧
      (∀ r c_, r < cost.nrows → c_ < cost.nrows → s.col_covered c_ = false →
        (prime_zero s z).mask r c_ = 1 →
        ∃ c1, find_prime_in_row cost.nrows (prime_zero s z) r = some c1 ∧ c1 < cost.nrows ∧
          (prime_zero s z).mask r c1 = 2 ∧ s.col_covered c1 = false) ∧
      (∀ fuel,
        build_path fuel cost.nrows (prime_zero s z) z.2 [z] ≠ .error .out_of_range ∧
        ∀ path, build_path fuel cost.nrows (prime_zero s z) z.2 [z] = .ok path →
          ∀ p, p ∈ path → p.1 < cost.nrows ∧ p.2 < cost.nrows) ∧
      (∀ fuel, handle_zero fuel cost.nrows s z ≠ .error .out_of_range) ∧
      ∃ fuel s1, ∀ f, fuel ≤ f → handle_zero f cost.nrows s z = .ok s1) ∧
    (∀ fuel, run_munkres_algorithm w fuel cost ≠ .error .out_of_range) := by
  refine ⟨?_, ?_, ?_⟩
  · intro fuel s s1 z hr hcov hs
    obtain ⟨hr1, hz1, _⟩ := search_zero_reach fuel s s1 z hr hcov hs
    have hz := zeroAt_of_find hz1
    exact ⟨hz.lt1, hz.lt2, hz.zero, mask_at_zero (reach_mask hw hr1) hz⟩
  · intro s z hr hcov hzf
    have h := reach_mask hw hr
    have hz := zeroAt_of_find hzf
    refine ⟨fun sc hsc => (find_star_in_row_some hsc).1,
      fun r c_ hr hc hcv h1 => prime_of_star h hz hr hc hcv h1, ?_,
      fun fuel => handle_zero_safe h hz, ?_⟩
    · intro fuel
      apply build_path_safe h hz fuel z.2 [z] hz.lt2 hz.col
      intro p hp
      simp only [List.mem_singleton] at hp
      subst hp
      exact ⟨hz.lt1, hz.lt2⟩
    · obtain ⟨fuel, s1, hh⟩ := handle_zero_total h hz
      exact ⟨fuel, s1, fun f hf => handle_zero_mono hf hh⟩
  · intro fuel
    unfold run_munkres_algorithm
    split
    · intro he; cases he
    · split
      · rename_i e he
        intro h2
        simp only [Except.error.injEq] at h2
        subst h2
        exact main_loop_safe hw fuel _ Reach.init he
      · intro he; cases he

theorem path_safety_witness :
    (∀ fuel s s1 z, Reach exact_int example_cost s →
        all_columns_covered example_cost.nrows s = false →
      search_zero exact_int fuel example_cost.nrows s = .ok (s1, z) →
      z.1 < example_cost.nrows ∧ z.2 < example_cost.nrows ∧ s1.c z.1 z.2 = 0 ∧
          s1.mask z.1 z.2 = 0) ∧
    (∀ s z, Reach exact_int example_cost s → all_columns_covered example_cost.nrows s = false →
      find_a_zero example_cost.nrows s = some z →
      (∀ sc, find_star_in_row example_cost.nrows (prime_zero s z) z.1 = some sc →
          sc < example_cost.nrows) ∧
      (∀ r c_, r < example_cost.nrows → c_ < example_cost.nrows → s.col_covered c_ = false →
        (prime_zero s z).mask r c_ = 1 →
        ∃ c1, find_prime_in_row example_cost.nrows (prime_zero s z) r = some c1 ∧
            c1 < example_cost.nrows ∧
          (prime_zero s z).mask r c1 = 2 ∧ s.col_covered c1 = false) ∧
      (∀ fuel,
        build_path fuel example_cost.nrows (prime_zero s z) z.2 [z] ≠ .error .out_of_range ∧
        ∀ path, build_path fuel example_cost.nrows (prime_zero s z) z.2 [z] = .ok path →
          ∀ p, p ∈ path → p.1 < example_cost.nrows ∧ p.2 < example_cost.nrows) ∧
      (∀ fuel, handle_zero fuel example_cost.nrows s z ≠ .error .out_of_range) ∧
      ∃ fuel s1, ∀ f, fuel ≤ f → handle_zero f example_cost.nrows s z = .ok s1) ∧
    (∀ fuel, run_munkres_algorithm exact_int fuel example_cost ≠ .error .out_of_range) :=
  path_safety exact_int (Or.inl rfl) example_cost

/-! ## The marked cells hold zeros -/

theorem adjust_marked_same {w : Int → Int} (hw : w = exact_int ∨ w = wrap_int32)
    {cost : Matrix Int} {s : State} (hr : Reach w cost s) {i j : Nat} (hi : i < cost.nrows)
    (hj : j < cost.nrows) (hm : s.mask i j = 1 ∨ s.mask i j = 2) :
    (adjust w cost.nrows s).c i j = s.c i j := by
  have h := reach_mask hw hr
  have hcu : s.row_covered i = true → s.col_covered j = false →
      (adjust w cost.nrows s).c i j = s.c i j := by
    intro h1 h2
    have he : (adjust w cost.nrows s).c i j
        = w (w (s.c i j + min_uncovered cost.nrows s) - min_uncovered cost.nrows s) :=
      adjust_by_cu h1 h2
    rw [he]
    rcases hw with rfl | rfl
    · show s.c i j + min_uncovered cost.nrows s - min_uncovered cost.nrows s = s.c i j
      omega
    · exact wrap_add_sub ((reach_stored bounded_wrap hr).stored i j hi hj)
  rcases hm with h1 | h2
  · rcases Bool.eq_false_or_eq_true (s.row_covered i) with hrc | hrc
    · have hcc : s.col_covered j = false := by
        cases hc : s.col_covered j with
        | false => rfl
        | true => rw [(h.starcov i j hi hj h1).mp hc] at hrc; cases hrc
      exact hcu hrc hcc
    · have hcc : s.col_covered j = true := (h.starcov i j hi hj h1).mpr hrc
      exact adjust_by_uc hrc hcc
  · obtain ⟨hrc, hcc⟩ := h.prime i j hi hj h2
    exact hcu hrc hcc

/-- C17 (zero-location invariant): in exact and in 32-bit arithmetic, in every state of the
main loop (on entry, after every matrix-adjustment pass, cover step and augmentation), in the
state after the priming of the zero that was found, and in the state whose mask is returned,
every cell whose mask value is 1 or 2 has working cost 0; and a matrix-adjustment pass leaves
the value at every starred or primed cell as it was. -/
theorem zero_location (w : Int → Int) (hw : w = exact_int ∨ w = wrap_int32)
    (cost : Matrix Int) :
    (∀ s, Reach w cost s → ∀ i j, i < cost.nrows → j < cost.nrows →
      s.mask i j = 1 ∨ s.mask i j = 2 → s.c i j = 0) ∧
    (∀ s z, Reach w cost s → find_a_zero cost.nrows s = some z →
      ∀ i j, i < cost.nrows → j < cost.nrows →
        (prime_zero s z).mask i j = 1 ∨ (prime_zero s z).mask i j = 2 →
        (prime_zero s z).c i j = 0) ∧
    (∀ s, Reach w cost s → ∀ i j, i < cost.nrows → j < cost.nrows →
      s.mask i j = 1 ∨ s.mask i j = 2 →
      (adjust w cost.nrows s).c i j = s.c i j ∧ (adjust w cost.nrows s).c i j = 0 ∧
      (adjust w cost.nrows s).mask i j = s.mask i j) ∧
    (∀ fuel mask, run_munkres_algorithm w fuel cost = .ok mask →
      ∃ s, Reach w cost s ∧ all_columns_covered cost.nrows s = true ∧ mask.get = s.mask ∧
        ∀ i j, i < cost.nrows → j < cost.nrows → mask.get i j = 1 ∨ mask.get i j = 2 →
          s.c i j = 0) := by
  have hzero : ∀ s, Reach w cost s → ∀ i j, i < cost.nrows → j < cost.nrows →
      s.mask i j = 1 ∨ s.mask i j = 2 → s.c i j = 0 := by
    intro s hr i j hi hj hm
    apply (reach_mask hw hr).zero i j hi hj
    rcases hm with h | h <;> rw [h] <;> decide
  refine ⟨hzero, ?_, ?_, ?_⟩
  · intro s z hr hzf i j hi hj hm
    have hz := zeroAt_of_find hzf
    show s.c i j = 0
    by_cases he : i = z.1 ∧ j = z.2
    · rw [he.1, he.2]; exact hz.zero
    · apply hzero s hr i j hi hj
      have hsame : (prime_zero s z).mask i j = s.mask i j := by
        show set2 s.mask z.1 z.2 2 i j = s.mask i j
        unfold set2
        rw [if_neg he]
      rw [← hsame]; exact hm
  · intro s hr i j hi hj hm
    have h1 := adjust_marked_same hw hr hi hj hm
    exact ⟨h1, by rw [h1]; exact hzero s hr i j hi hj hm, rfl⟩
  · intro fuel mask h
    obtain ⟨_, s, hr, hcov, rfl⟩ := run_spec h
    exact ⟨s, hr, hcov, rfl, fun i j hi hj hm => hzero s hr i j hi hj hm⟩

theorem zero_location_witness :
    (∀ s, Reach wrap_int32 overflow_cost s → ∀ i j, i < overflow_cost.nrows →
        j < overflow_cost.nrows →
      s.mask i j = 1 ∨ s.mask i j = 2 → s.c i j = 0) ∧
    (∀ s z, Reach wrap_int32 overflow_cost s → find_a_zero overflow_cost.nrows s = some z →
      ∀ i j, i < overflow_cost.nrows → j < overflow_cost.nrows →
        (prime_zero s z).mask i j = 1 ∨ (prime_zero s z).mask i j = 2 →
        (prime_zero s z).c i j = 0) ∧
    (∀ s, Reach wrap_int32 overflow_cost s → ∀ i j, i < overflow_cost.nrows →
        j < overflow_cost.nrows →
      s.mask i j = 1 ∨ s.mask i j = 2 →
      (adjust wrap_int32 overflow_cost.nrows s).c i j = s.c i j ∧
          (adjust wrap_int32 overflow_cost.nrows s).c i j = 0 ∧
      (adjust wrap_int32 overflow_cost.nrows s).mask i j = s.mask i j) ∧
    (∀ fuel mask, run_munkres_algorithm wrap_int32 fuel overflow_cost = .ok mask →
      ∃ s, Reach wrap_int32 overflow_cost s ∧ all_columns_covered overflow_cost.nrows s = true ∧
          mask.get = s.mask ∧
        ∀ i j, i < overflow_cost.nrows → j < overflow_cost.nrows →
            mask.get i j = 1 ∨ mask.get i j = 2 →
          s.c i j = 0) :=
  zero_location wrap_int32 (Or.inr rfl) overflow_cost

end Munkres

namespace Task2

/-! ## The greedy choice is optimal -/

theorem scan_down_some {layout : List Int} {u : Int} :
    ∀ (k : Nat) (i b : Int), scan_down layout u k i = some b →
      i - (k : Int) < b ∧ b ≤ i ∧ layout.getD b.toNat 0 = u ∧
      ∀ x : Int, b < x → x ≤ i → layout.getD x.toNat 0 ≠ u := by
  intro k
  induction k with
  | zero => intro i b h; cases h
  | succ k ih =>
    intro i b h
    unfold scan_down at h
    split at h
    · rename_i hu
      simp only [Option.some.injEq] at h
      subst h
      refine ⟨by push_cast; omega, le_refl _, hu, ?_⟩
      intro x h1 h2; omega
    · rename_i hu
      obtain ⟨h1, h2, h3, h4⟩ := ih (i - 1) b h
      refine ⟨by push_cast; omega, by omega, h3, ?_⟩
      intro x hx1 hx2
      by_cases hxi : x = i
      · subst hxi; exact hu
      · exact h4 x hx1 (by omega)

theorem scan_down_none {layout : List Int} {u : Int} :
    ∀ (k : Nat) (i : Int), scan_down layout u k i = none →
      ∀ x : Int, i - (k : Int) < x → x ≤ i → layout.getD x.toNat 0 ≠ u := by
  intro k
  induction k with
  | zero => intro i _ x h1 h2; simp at h1; omega
  | succ k ih =>
    intro i h x h1 h2
    unfold scan_down at h
    split at h
    · cases h
    · rename_i hu
      by_cases hxi : x = i
      · subst hxi; exact hu
      · exact ih (i - 1) h x (by push_cast at h1; omega) (by omega)

theorem find_host_some {layout : List Int} {u L R b : Int}
    (h : find_host layout u L R = some b) :
    L ≤ b ∧ b ≤ R ∧ layout.getD b.toNat 0 = u ∧
    ∀ x : Int, b < x → x ≤ R → layout.getD x.toNat 0 ≠ u := by
  unfold find_host at h
  obtain ⟨h1, h2, h3, h4⟩ := scan_down_some _ _ _ h
  refine ⟨?_, h2, h3, h4⟩
  have := Int.toNat_of_nonneg (show 0 ≤ R - L + 1 by omega)
  omega

theorem find_host_none {layout : List Int} {u L R : Int}
    (h : find_host layout u L R = none) :
    ∀ x : Int, L ≤ x → x ≤ R → layout.getD x.toNat 0 ≠ u := by
  unfold find_host at h
  intro x h1 h2
  apply scan_down_none _ _ h x _ h2
  have := Int.toNat_of_nonneg (show 0 ≤ R - L + 1 by omega)
  omega

theorem covers_mono {layout : List Int} {u range f f1 : Int} (hle : f ≤ f1) {S : Finset Nat}
    (h : CoversFrom layout u range f S) : CoversFrom layout u range f1 S :=
  ⟨h.1, fun j hj hn => h.2 j (by omega) hn⟩

theorem host_in_window {layout : List Int} {u range f : Int} {S : Finset Nat}
    (h : CoversFrom layout u range f S) (h0 : 0 ≤ f) (hn : f < (layout.length : Int)) :
    ∃ i, i ∈ S ∧ max 0 (f - range + 1) ≤ (i : Int) ∧
      (i : Int) ≤ min ((layout.length : Int) - 1) (f + range - 1) ∧
      layout.getD ((i : Int).toNat) 0 = u := by
  obtain ⟨i, hi, hab⟩ := h.2 f.toNat (by rw [Int.toNat_of_nonneg h0]) (by omega)
  rw [Int.toNat_of_nonneg h0] at hab
  obtain ⟨h1, h2⟩ := abs_lt.mp hab
  obtain ⟨hlt, hu⟩ := h.1 i hi
  refine ⟨i, hi, ?_, ?_, ?_⟩
  · apply max_le <;> omega
  · apply le_min <;> omega
  · rw [Int.toNat_natCast]; exact hu

theorem place_units_spec {layout : List Int} {u range : Int} :
    ∀ (fuel : Nat) (f cnt : Int), 0 ≤ f → 0 < fuel →
      (layout.length : Int) - f < (fuel : Int) →
      ∃ r, place_units layout u range fuel f cnt = some r ∧
        ((r = -1 ∧ ¬ ∃ S, CoversFrom layout u range f S) ∨
         (∃ k : Nat, r = cnt + (k : Int) ∧
            (∃ S, CoversFrom layout u range f S ∧ S.card ≤ k) ∧
            ∀ S, CoversFrom layout u range f S → k ≤ S.card)) := by
  intro fuel
  induction fuel with
  | zero => intro f cnt _ hpos; omega
  | succ fuel ih =>
    intro f cnt h0 _ hf
    unfold place_units
    by_cases hn : f < (layout.length : Int)
    · rw [if_pos hn]
      cases hh : find_host layout u (max 0 (f - range + 1))
          (min ((layout.length : Int) - 1) (f + range - 1)) with
      | none =>
        refine ⟨-1, rfl, Or.inl ⟨rfl, ?_⟩⟩
        rintro ⟨S, hS⟩
        obtain ⟨i, _, h1, h2, h3⟩ := host_in_window hS h0 hn
        exact find_host_none hh i h1 h2 h3
      | some b =>
        dsimp only
        obtain ⟨hb1, hb2, hb3, hb4⟩ := find_host_some hh
        have hL : 0 ≤ b ∧ f - range + 1 ≤ b := by
          have := le_max_left 0 (f - range + 1)
          have := le_max_right 0 (f - range + 1)
          omega
        have hR : b ≤ (layout.length : Int) - 1 ∧ b ≤ f + range - 1 := by
          have := min_le_left ((layout.length : Int) - 1) (f + range - 1)
          have := min_le_right ((layout.length : Int) - 1) (f + range - 1)
          omega
        obtain ⟨r, hrun, hspec⟩ := ih (b + range) (cnt + 1) (by omega)
          (by push_cast at hf; omega) (by push_cast at hf; omega)
        refine ⟨r, hrun, ?_⟩
        rcases hspec with ⟨hr1, hno⟩ | ⟨k, hk, ⟨S1, hS1, hcard⟩, hmin⟩
        · left
          refine ⟨hr1, ?_⟩
          rintro ⟨S, hS⟩
          exact hno ⟨S, covers_mono (by omega) hS⟩
        · right
          refine ⟨k + 1, by push_cast; omega, ⟨insert b.toNat S1, ⟨?_, ?_⟩, ?_⟩, ?_⟩
          · intro i hi
            rcases Finset.mem_insert.mp hi with rfl | hi
            · exact ⟨by omega, hb3⟩
            · exact hS1.1 i hi
          · intro j hj hjn
            by_cases hjb : (j : Int) < b + range
            · refine ⟨b.toNat, Finset.mem_insert_self _ _, ?_⟩
              rw [Int.toNat_of_nonneg hL.1]
              apply abs_lt.mpr
              constructor <;> omega
            · obtain ⟨i, hi, hab⟩ := hS1.2 j (by omega) hjn
              exact ⟨i, Finset.mem_insert_of_mem hi, hab⟩
          · exact le_trans (Finset.card_insert_le _ _) (by omega)
          · intro S hS
            obtain ⟨h, hh1, hw1, hw2, hw3⟩ := host_in_window hS h0 hn
            have hhb : (h : Int) ≤ b := by
              by_contra hc
              exact hb4 h (by omega) hw2 hw3
            have hcov : CoversFrom layout u range (b + range) (S.erase h) := by
              refine ⟨fun i hi => hS.1 i (Finset.mem_of_mem_erase hi), ?_⟩
              intro j hj hjn
              obtain ⟨i, hi, hab⟩ := hS.2 j (by omega) hjn
              refine ⟨i, Finset.mem_erase.mpr ⟨?_, hi⟩, hab⟩
              rintro rfl
              obtain ⟨_, h2⟩ := abs_lt.mp hab
              omega
            have hk1 := hmin _ hcov
            rw [Finset.card_erase_of_mem hh1] at hk1
            have hpos : 0 < S.card := Finset.card_pos.mpr ⟨h, hh1⟩
            omega
    · rw [if_neg hn]
      refine ⟨cnt, rfl, Or.inr ⟨0, by simp, ⟨∅, ⟨?_, ?_⟩, by simp⟩, fun S _ => Nat.zero_le _⟩⟩
      · intro i hi; simp at hi
      · intro j hj hjn; omega

theorem min_cover_unique {layout : List Int} {u range : Int} {r r1 : Int}
    (h : (r = -1 ∧ ¬ ∃ S, Covers layout u range S) ∨
      (∃ k : Nat, r = 0 + (k : Int) ∧ (∃ S, Covers layout u range S ∧ S.card ≤ k) ∧
        ∀ S, Covers layout u range S → k ≤ S.card))
    (h1 : (r1 = -1 ∧ ¬ ∃ S, Covers layout u range S) ∨
      (∃ k : Nat, r1 = 0 + (k : Int) ∧ (∃ S, Covers layout u range S ∧ S.card ≤ k) ∧
        ∀ S, Covers layout u range S → k ≤ S.card)) : r = r1 := by
  rcases h with ⟨hr, hno⟩ | ⟨k, hk, ⟨S, hS, hc⟩, hmin⟩
  · rcases h1 with ⟨hr1, _⟩ | ⟨_, _, ⟨S1, hS1, _⟩, _⟩
    · rw [hr, hr1]
    · exact absurd ⟨S1, hS1⟩ hno
  · rcases h1 with ⟨_, hno⟩ | ⟨k1, hk1, ⟨S1, hS1, hc1⟩, hmin1⟩
    · exact absurd ⟨S, hS⟩ hno
    · have := hmin S1 hS1
      have := hmin1 S hS
      omega

/-- C18 (greedy coverage is optimal): in exact integer arithmetic, for every layout, unit type
and range: when `range <= 0` the function returns `-1`; when `range >= 1` it returns, for
every fuel above the length of the layout, one value `r`, which is `-1` exactly when no set
of hosts (positions `i` with `layout[i] == unitType`, a unit at `i` covering the positions
`j` with `|i - j| < range`) covers all positions, and otherwise is the smallest cardinality
of a covering set of hosts; it is 0 for the empty layout. -/
theorem greedy_cover_optimal (layout : List Int) (unitType range : Int) :
    (range ≤ 0 → ∀ fuel, minUnitsNeeded fuel layout unitType range = some (-1)) ∧
    (1 ≤ range → ∃ r,
      (∀ fuel, layout.length + 1 ≤ fuel →
        minUnitsNeeded fuel layout unitType range = some r) ∧
      (r = -1 ↔ ¬ ∃ S, Covers layout unitType range S) ∧
      ((∃ S, Covers layout unitType range S) →
        ∃ S0, Covers layout unitType range S0 ∧ r = (S0.card : Int) ∧
          ∀ S, Covers layout unitType range S → S0.card ≤ S.card) ∧
      (layout = [] → r = 0)) := by
  constructor
  · intro hr fuel
    unfold minUnitsNeeded
    rw [if_pos hr]
  · intro hr
    have hrun : ∀ fuel, layout.length + 1 ≤ fuel →
        ∃ r, minUnitsNeeded fuel layout unitType range = some r ∧
          ((r = -1 ∧ ¬ ∃ S, Covers layout unitType range S) ∨
            (∃ k : Nat, r = 0 + (k : Int) ∧
              (∃ S, Covers layout unitType range S ∧ S.card ≤ k) ∧
              ∀ S, Covers layout unitType range S → k ≤ S.card)) := by
      intro fuel hf
      unfold minUnitsNeeded
      rw [if_neg (by omega)]
      exact place_units_spec fuel 0 0 (le_refl _) (by omega) (by omega)
    obtain ⟨r, hr0, hspec⟩ := hrun (layout.length + 1) (le_refl _)
    refine ⟨r, ?_, ?_, ?_, ?_⟩
    · intro fuel hf
      obtain ⟨r1, hr1, hspec1⟩ := hrun fuel hf
      rw [hr1, min_cover_unique hspec hspec1]
    · rcases hspec with ⟨h1, hno⟩ | ⟨k, hk, ⟨S, hS, _⟩, _⟩
      · exact ⟨fun _ => hno, fun _ => h1⟩
      · constructor
        · intro h1; omega
        · intro hno; exact absurd ⟨S, hS⟩ hno
    · rintro ⟨S, hS⟩
      rcases hspec with ⟨_, hno⟩ | ⟨k, hk, ⟨S0, hS0, hc⟩, hmin⟩
      · exact absurd ⟨S, hS⟩ hno
      · have hk0 := hmin S0 hS0
        have hcard : S0.card = k := by omega
        refine ⟨S0, hS0, by rw [hcard]; omega, ?_⟩
        intro S1 hS1
        rw [hcard]; exact hmin S1 hS1
    · intro hl
      have hcov : Covers layout unitType range ∅ := by
        refine ⟨fun i hi => by simp at hi, ?_⟩
        intro j _ hjn
        rw [hl] at hjn
        simp at hjn
      rcases hspec with ⟨_, hno⟩ | ⟨k, hk, _, hmin⟩
      · exact absurd ⟨∅, hcov⟩ hno
      · have := hmin ∅ hcov
        simp at this
        omega

end Task2

namespace Task5

/-! ## The sets -/

theorem mem_set_insert {x v : Nat} : ∀ l : List Nat, x ∈ set_insert v l ↔ x = v ∨ x ∈ l := by
  intro l
  induction l with
  | nil => simp [set_insert]
  | cons a l ih =>
    unfold set_insert
    split
    · simp
    · split
      · rename_i h; subst h; simp
      · simp only [List.mem_cons, ih]
        tauto

theorem sorted_set_insert {v : Nat} :
    ∀ l : List Nat, l.Pairwise (· < ·) → (set_insert v l).Pairwise (· < ·) := by
  intro l
  induction l with
  | nil => intro _; simp [set_insert]
  | cons a l ih =>
    intro h
    obtain ⟨h1, h2⟩ := List.pairwise_cons.mp h
    unfold set_insert
    split
    · rename_i hlt
      refine List.pairwise_cons.mpr ⟨?_, h⟩
      intro b hb
      rcases List.mem_cons.mp hb with rfl | hb
      · exact hlt
      · exact lt_trans hlt (h1 b hb)
    · split
      · exact h
      · rename_i hnlt hne
        refine List.pairwise_cons.mpr ⟨?_, ih h2⟩
        intro b hb
        rcases (mem_set_insert l).mp hb with rfl | hb
        · omega
        · exact h1 b hb

theorem mem_set_union {x : Nat} : ∀ X P : List Nat, x ∈ set_union P X ↔ x ∈ P ∨ x ∈ X := by
  intro X
  induction X with
  | nil => intro P; simp [set_union]
  | cons a X ih =>
    intro P
    have := ih (set_insert a P)
    unfold set_union at this ⊢
    rw [List.foldl_cons, this, mem_set_insert, List.mem_cons]
    tauto

theorem mem_neigh {G : Graph} {v j : Nat} :
    j ∈ neigh G v ↔ j < G.ncols ∧ G.get v j ≠ 0 := by
  unfold neigh
  simp [List.mem_filter]

theorem choose_pivot_mem {G : Graph} {P PuX : List Nat} {u : Nat}
    (h : (choose_pivot G P PuX).1 = some u) : u ∈ PuX := by
  have hinv : ∀ x, (choose_pivot G P PuX).1 = some x → x ∈ PuX := by
    unfold choose_pivot
    apply Munkres.foldl_invariant (fun best : Option Nat × Nat => ∀ x, best.1 = some x → x ∈ PuX)
    · intro best b hb hbest x hx
      split at hx
      · simp only [Option.some.injEq] at hx
        subst hx; exact hb
      · exact hbest x hx
    · intro x hx; cases hx
  exact hinv u h

theorem sorted_ext {C D : List Nat} (hC : C.Pairwise (· < ·)) (hD : D.Pairwise (· < ·))
    (h : ∀ a, a ∈ C ↔ a ∈ D) : C = D := by
  have hnC : C.Nodup := hC.imp (fun h => Nat.ne_of_lt h)
  have hnD : D.Nodup := hD.imp (fun h => Nat.ne_of_lt h)
  have hperm : C.Perm D := (List.perm_ext_iff_of_nodup hnC hnD).mpr h
  exact List.eq_of_perm_of_sorted hperm hC hD

/-! ## The invariant of the recursion -/

section Graphs

variable {n : Nat} {G : Graph} (hn : G.ncols = n)
  (hsym : ∀ u v, u < n → v < n → G.get u v = G.get v u)
  (hdiag : ∀ v, v < n → G.get v v = 0)

include hn hsym hdiag in
theorem inv_call {R P X : List Nat} {v : Nat} (h : BKInv n G R P X) (hv : v ∈ P) :
    BKInv n G (set_insert v R) (P.filter (fun x => decide (x ∈ neigh G v)))
      (X.filter (fun x => decide (x ∈ neigh G v))) := by
  obtain ⟨hvn, hvR, hvadj⟩ := (h.cand v).mp (Or.inl hv)
  refine ⟨sorted_set_insert R h.sorted, ?_, ?_, h.nodup.filter _, ?_⟩
  · intro a ha
    rcases (mem_set_insert R).mp ha with rfl | ha
    · exact hvn
    · exact h.bound a ha
  · intro a ha b hb hab
    rcases (mem_set_insert R).mp ha with hav | haR
    · rcases (mem_set_insert R).mp hb with hbv | hbR
      · exact absurd (hav.trans hbv.symm) hab
      · rw [hav]; exact hvadj b hbR
    · rcases (mem_set_insert R).mp hb with hbv | hbR
      · rw [hbv, hsym a v (h.bound a haR) hvn]; exact hvadj a haR
      · exact h.clique a haR b hbR hab
  · intro x
    simp only [List.mem_filter, decide_eq_true_eq, mem_neigh, hn]
    constructor
    · intro hx
      have hx1 : (x ∈ P ∨ x ∈ X) ∧ x < n ∧ G.get v x ≠ 0 := by tauto
      obtain ⟨hpx, hxn, hvx⟩ := hx1
      obtain ⟨_, hxR, hxadj⟩ := (h.cand x).mp hpx
      have hxv : x ≠ v := by
        rintro rfl
        exact hvx (hdiag x hxn)
      refine ⟨hxn, ?_, ?_⟩
      · intro hmem
        rcases (mem_set_insert R).mp hmem with he | hmem
        · exact hxv he
        · exact hxR hmem
      · intro a ha
        rcases (mem_set_insert R).mp ha with rfl | ha
        · rw [hsym x a hxn hvn]; exact hvx
        · exact hxadj a ha
    · rintro ⟨hxn, hxR, hxadj⟩
      have hpx : x ∈ P ∨ x ∈ X := (h.cand x).mpr
        ⟨hxn, fun hm => hxR ((mem_set_insert R).mpr (Or.inr hm)),
          fun a ha => hxadj a ((mem_set_insert R).mpr (Or.inr ha))⟩
      have hvx : G.get v x ≠ 0 := by
        rw [hsym v x hvn hxn]
        exact hxadj v ((mem_set_insert R).mpr (Or.inl rfl))
      tauto

theorem inv_move {R P X : List Nat} {v : Nat} (h : BKInv n G R P X) (hv : v ∈ P) :
    BKInv n G R (P.filter (fun x => decide (x ≠ v))) (set_insert v X) := by
  refine ⟨h.sorted, h.bound, h.clique, h.nodup.filter _, ?_⟩
  intro x
  rw [← h.cand x]
  simp only [List.mem_filter, decide_eq_true_eq, mem_set_insert]
  constructor
  · rintro (⟨hx, _⟩ | rfl | hx)
    · exact Or.inl hx
    · exact Or.inl hv
    · exact Or.inr hx
  · rintro (hx | hx)
    · by_cases he : x = v
      · exact Or.inr (Or.inl he)
      · exact Or.inl ⟨hx, he⟩
    · exact Or.inr (Or.inr hx)

theorem extends_base {R C : List Nat} (h : BKInv n G R [] []) :
    C ∈ [R] ↔ Extends n G R [] C := by
  have hmax : IsMaximalClique n G R := by
    refine ⟨h.bound, h.clique, ?_⟩
    intro v hv hvR
    by_contra hno
    have hcn : CommonNeighbour n G R v :=
      ⟨hv, hvR, fun a ha h0 => hno ⟨a, ha, h0⟩⟩
    have := (h.cand v).mpr hcn
    simp at this
  constructor
  · intro hC
    rw [List.mem_singleton] at hC
    subst hC
    exact ⟨h.sorted, hmax, fun a ha => ha, fun a ha => Or.inl ha⟩
  · rintro ⟨hs, _, hsub, hsup⟩
    rw [List.mem_singleton]
    apply sorted_ext hs h.sorted
    intro a
    constructor
    · intro ha
      rcases hsup a ha with h1 | h1
      · exact h1
      · cases h1
    · exact hsub a

include hdiag in
theorem extends_candidate {R P X C : List Nat} (h : BKInv n G R P X)
    (hne : ¬ (P.isEmpty ∧ X.isEmpty)) (hC : Extends n G R P C) :
    ∃ v, v ∈ P.filter (fun v => decide
      (v ∉ pivot_neigh G (choose_pivot G P (set_union P X)).1)) ∧ v ∈ C := by
  obtain ⟨_, ⟨_, _, hmax⟩, hsub, hsup⟩ := hC
  by_contra hno
  have hnone : ∀ v, v ∈ P → v ∈ C →
      v ∈ pivot_neigh G (choose_pivot G P (set_union P X)).1 := by
    intro v hv hvC
    by_contra hnu
    exact hno ⟨v, List.mem_filter.mpr ⟨hv, by simpa using hnu⟩, hvC⟩
  have key : ∀ u, CommonNeighbour n G R u →
      (∀ v, v ∈ P → v ∈ C → G.get u v ≠ 0) → False := by
    intro u ⟨hun, huR, huadj⟩ hadj
    have huC : u ∉ C := by
      intro huC
      rcases hsup u huC with h1 | h1
      · exact huR h1
      · exact hadj u h1 huC (hdiag u hun)
    obtain ⟨a, ha, h0⟩ := hmax u hun huC
    rcases hsup a ha with h1 | h1
    · exact huadj a h1 h0
    · exact hadj a h1 ha h0
  cases hp : (choose_pivot G P (set_union P X)).1 with
  | some u =>
    rw [hp] at hnone
    unfold pivot_neigh at hnone
    have hu : u ∈ P ∨ u ∈ X := (mem_set_union X P).mp (choose_pivot_mem hp)
    apply key u ((h.cand u).mp hu)
    intro v hv hvC
    exact (mem_neigh.mp (hnone v hv hvC)).2
  | none =>
    rw [hp] at hnone
    unfold pivot_neigh at hnone
    have hex : ∃ u, u ∈ P ∨ u ∈ X := by
      by_contra hall
      apply hne
      constructor
      · rw [List.isEmpty_iff]
        apply List.eq_nil_iff_forall_not_mem.mpr
        intro a ha; exact hall ⟨a, Or.inl ha⟩
      · rw [List.isEmpty_iff]
        apply List.eq_nil_iff_forall_not_mem.mpr
        intro a ha; exact hall ⟨a, Or.inr ha⟩
    obtain ⟨u, hu⟩ := hex
    apply key u ((h.cand u).mp hu)
    intro v hv hvC
    have := hnone v hv hvC
    simp at this

include hn hsym hdiag in
theorem bk_loop {fuel : Nat}
    (hcall : ∀ (R P X : List Nat) (out : List (List Nat)), BKInv n G R P X →
      P.length < fuel →
      ∃ L, bk G fuel R P X out = some (out ++ L) ∧ L.Nodup ∧
        ∀ C, C ∈ L ↔ Extends n G R P C)
    {R : List Nat} :
    ∀ (cs P X : List Nat) (out : List (List Nat)), BKInv n G R P X → cs.Nodup →
      (∀ v, v ∈ cs → v ∈ P) → P.length ≤ fuel →
      ∃ P1 X1 L,
        cs.foldl (bk_step G (fun R2 P2 X2 o => bk G fuel R2 P2 X2 o) R) (some (P, X, out))
          = some (P1, X1, out ++ L) ∧ L.Nodup ∧
        ∀ C, C ∈ L ↔ (Extends n G R P C ∧ ∃ v, v ∈ cs ∧ v ∈ C) := by
  intro cs
  induction cs with
  | nil =>
    intro P X out _ _ _ _
    refine ⟨P, X, [], by simp, List.nodup_nil, ?_⟩
    intro C
    simp
  | cons v cs ih =>
    intro P X out h hnd hsub hlen
    have hv : v ∈ P := hsub v (List.mem_cons_self _ _)
    obtain ⟨hvn, hvR, hvadj⟩ := (h.cand v).mp (Or.inl hv)
    obtain ⟨hvcs, hnd2⟩ := List.nodup_cons.mp hnd
    have hvN : v ∉ neigh G v := fun hm => (mem_neigh.mp hm).2 (hdiag v hvn)
    have hlt : (P.filter (fun x => decide (x ∈ neigh G v))).length < fuel := by
      have : (P.filter (fun x => decide (x ∈ neigh G v))).length < P.length :=
        List.length_filter_lt_length_iff_exists.mpr ⟨v, hv, by simpa using hvN⟩
      omega
    obtain ⟨L1, hrun1, hnd1, hmem1⟩ := hcall (set_insert v R)
      (P.filter (fun x => decide (x ∈ neigh G v)))
      (X.filter (fun x => decide (x ∈ neigh G v))) out (inv_call hn hsym hdiag h hv) hlt
    have hsub2 : ∀ x, x ∈ cs → x ∈ P.filter (fun x => decide (x ≠ v)) := by
      intro x hx
      refine List.mem_filter.mpr ⟨hsub x (List.mem_cons_of_mem _ hx), ?_⟩
      have : x ≠ v := fun he => hvcs (he ▸ hx)
      simpa using this
    have hlen2 : (P.filter (fun x => decide (x ≠ v))).length ≤ fuel :=
      le_trans (List.length_filter_le _ _) hlen
    obtain ⟨P1, X1, L2, hrun2, hnd2, hmem2⟩ := ih (P.filter (fun x => decide (x ≠ v)))
      (set_insert v X) (out ++ L1) (inv_move h hv) hnd2 hsub2 hlen2
    have hstep : bk_step G (fun R2 P2 X2 o => bk G fuel R2 P2 X2 o) R (some (P, X, out)) v
        = some (P.filter (fun x => decide (x ≠ v)), set_insert v X, out ++ L1) := by
      unfold bk_step
      simp only [hrun1]
    refine ⟨P1, X1, L1 ++ L2, ?_, ?_, ?_⟩
    · rw [List.foldl_cons, hstep, hrun2, List.append_assoc]
    · refine List.nodup_append.mpr ⟨hnd1, hnd2, ?_⟩
      intro C hC1 hC2
      have hvC : v ∈ C := ((hmem1 C).mp hC1).2.2.1 v ((mem_set_insert R).mpr (Or.inl rfl))
      rcases ((hmem2 C).mp hC2).1.2.2.2 v hvC with h1 | h1
      · exact hvR h1
      · have := (List.mem_filter.mp h1).2
        simp at this
    · intro C
      rw [List.mem_append, hmem1, hmem2]
      constructor
      · rintro (⟨hs, hmax, hsubC, hsupC⟩ | ⟨⟨hs, hmax, hsubC, hsupC⟩, x, hx, hxC⟩)
        · refine ⟨⟨hs, hmax, fun a ha => hsubC a ((mem_set_insert R).mpr (Or.inr ha)), ?_⟩,
            v, List.mem_cons_self _ _, hsubC v ((mem_set_insert R).mpr (Or.inl rfl))⟩
          intro a ha
          rcases hsupC a ha with h1 | h1
          · rcases (mem_set_insert R).mp h1 with h2 | h2
            · exact Or.inr (h2 ▸ hv)
            · exact Or.inl h2
          · exact Or.inr (List.mem_filter.mp h1).1
        · refine ⟨⟨hs, hmax, hsubC, ?_⟩, x, List.mem_cons_of_mem _ hx, hxC⟩
          intro a ha
          rcases hsupC a ha with h1 | h1
          · exact Or.inl h1
          · exact Or.inr (List.mem_filter.mp h1).1
      · rintro ⟨⟨hs, hmax, hsubC, hsupC⟩, x, hx, hxC⟩
        by_cases hvC : v ∈ C
        · left
          refine ⟨hs, hmax, ?_, ?_⟩
          · intro a ha
            rcases (mem_set_insert R).mp ha with h2 | h2
            · exact h2 ▸ hvC
            · exact hsubC a h2
          · intro a ha
            by_cases hav : a = v
            · exact Or.inl ((mem_set_insert R).mpr (Or.inl hav))
            · rcases hsupC a ha with h1 | h1
              · exact Or.inl ((mem_set_insert R).mpr (Or.inr h1))
              · right
                refine List.mem_filter.mpr ⟨h1, ?_⟩
                have hadj : G.get v a ≠ 0 := hmax.2.1 v hvC a ha (fun he => hav he.symm)
                have han : a < n := hmax.1 a ha
                simpa using mem_neigh.mpr ⟨by rw [hn]; exact han, hadj⟩
        · right
          have hxcs : x ∈ cs := by
            rcases List.mem_cons.mp hx with he | hx
            · exact absurd (he ▸ hxC) hvC
            · exact hx
          refine ⟨⟨hs, hmax, hsubC, ?_⟩, x, hxcs, hxC⟩
          intro a ha
          rcases hsupC a ha with h1 | h1
          · exact Or.inl h1
          · right
            refine List.mem_filter.mpr ⟨h1, ?_⟩
            have : a ≠ v := fun he => hvC (he ▸ ha)
            simpa using this

include hn hsym hdiag in
theorem bk_spec :
    ∀ (fuel : Nat) (R P X : List Nat) (out : List (List Nat)), BKInv n G R P X →
      P.length < fuel →
      ∃ L, bk G fuel R P X out = some (out ++ L) ∧ L.Nodup ∧
        ∀ C, C ∈ L ↔ Extends n G R P C := by
  intro fuel
  induction fuel with
  | zero => intro R P X out _ hlen; omega
  | succ fuel ih =>
    intro R P X out h hlen
    unfold bk
    by_cases hemp : P.isEmpty ∧ X.isEmpty
    · rw [if_pos hemp]
      obtain ⟨hP, hX⟩ := hemp
      rw [List.isEmpty_iff] at hP hX
      subst hP hX
      exact ⟨[R], rfl, List.nodup_singleton R, fun C => extends_base h⟩
    · rw [if_neg hemp]
      dsimp only
      obtain ⟨P1, X1, L, hrun, hnd, hmem⟩ := bk_loop hn hsym hdiag ih
        (P.filter (fun v => decide
          (v ∉ pivot_neigh G (choose_pivot G P (set_union P X)).1))) P X out h
        (h.nodup.filter _)
        (fun v hv => (List.mem_filter.mp hv).1) (by omega)
      refine ⟨L, by rw [hrun]; rfl, hnd, ?_⟩
      intro C
      rw [hmem]
      constructor
      · exact fun hC => hC.1
      · exact fun hC => ⟨hC, extends_candidate hdiag h hemp hC⟩

end Graphs

/-- C19 (maximal-clique enumeration): for every `n × n` adjacency matrix `G` that is symmetric
with zero diagonal, the call of `bk` on `G` with `R` and `X` empty and `P` the set of all
vertices returns for every fuel above `n` (the depth of the recursion is at most `n + 1`),
and what it appends to `out` is a list without repetition whose members are exactly the
maximal cliques of `G` (the cliques of vertices below `n` that no other vertex extends), each
as the list of its vertices in increasing order. -/
theorem maximal_cliques (G : Graph) (hsq : G.ncols = G.nrows)
    (hsym : ∀ u, u < G.nrows → ∀ v, v < G.nrows → G.get u v = G.get v u)
    (hdiag : ∀ v, v < G.nrows → G.get v v = 0) (out : List (List Nat)) (fuel : Nat)
    (hf : G.nrows + 1 ≤ fuel) :
    ∃ L, bk G fuel [] (List.range G.nrows) [] out = some (out ++ L) ∧ L.Nodup ∧
      ∀ C, C ∈ L ↔ (C.Pairwise (· < ·) ∧ IsMaximalClique G.nrows G C) := by
  have hinv : BKInv G.nrows G [] (List.range G.nrows) [] := by
    refine ⟨List.Pairwise.nil, fun a ha => (by cases ha), fun a ha => (by cases ha),
      List.nodup_range _, ?_⟩
    intro v
    unfold CommonNeighbour
    simp
  obtain ⟨L, hrun, hnd, hmem⟩ := bk_spec hsq (fun u v hu hv => hsym u hu v hv) hdiag fuel []
    (List.range G.nrows) [] out hinv (by rw [List.length_range]; omega)
  refine ⟨L, hrun, hnd, ?_⟩
  intro C
  rw [hmem]
  constructor
  · exact fun hC => ⟨hC.1, hC.2.1⟩
  · rintro ⟨hs, hmax⟩
    exact ⟨hs, hmax, fun a ha => (by cases ha),
      fun a ha => Or.inr (List.mem_range.mpr (hmax.1 a ha))⟩

theorem maximal_cliques_witness :
    ∃ L, bk kite 5 [] (List.range kite.nrows) [] [] = some ([] ++ L) ∧ L.Nodup ∧
      ∀ C, C ∈ L ↔ (C.Pairwise (· < ·) ∧ IsMaximalClique kite.nrows kite C) :=
  maximal_cliques kite (by decide) (by decide) (by decide) [] 5 (by decide)

end Task5

namespace Bloom

/-! ## No false negatives -/

section Filter

variable {Key : Type} {hash : Key → Nat → Nat} {m : Nat} {key : Key}

theorem fold_bits :
    ∀ (l : List Nat) (b : Nat → Bool) (ch : Bool) (p : Nat),
      (l.foldl (insert_step hash m key) (b, ch)).1 p = true ↔
        b p = true ∨ ∃ i, i ∈ l ∧ p = hash key i % m := by
  intro l
  induction l with
  | nil => intro b ch p; simp
  | cons i l ih =>
    intro b ch p
    rw [List.foldl_cons]
    by_cases hb : b (hash key i % m) = false
    · have hstep : insert_step hash m key (b, ch) i
          = (fun p => if p = hash key i % m then true else b p, true) := by
        unfold insert_step
        rw [if_pos hb]
      rw [hstep, ih]
      by_cases hp : p = hash key i % m
      · simp [hp]
      · simp only [hp, if_false, List.mem_cons, exists_eq_or_imp, false_or]
    · have hstep : insert_step hash m key (b, ch) i = (b, ch) := by
        unfold insert_step
        rw [if_neg hb]
      rw [hstep, ih]
      simp only [List.mem_cons, exists_eq_or_imp]
      constructor
      · rintro (h | h)
        · exact Or.inl h
        · exact Or.inr (Or.inr h)
      · rintro (h | h | h)
        · exact Or.inl h
        · left; rw [h]; simpa using hb
        · exact Or.inr h

theorem fold_changed :
    ∀ (l : List Nat) (b : Nat → Bool) (ch : Bool),
      (l.foldl (insert_step hash m key) (b, ch)).2 = true ↔
        ch = true ∨ ∃ i, i ∈ l ∧ b (hash key i % m) = false := by
  intro l
  induction l with
  | nil => intro b ch; simp
  | cons i l ih =>
    intro b ch
    rw [List.foldl_cons]
    by_cases hb : b (hash key i % m) = false
    · have hstep : insert_step hash m key (b, ch) i
          = (fun p => if p = hash key i % m then true else b p, true) := by
        unfold insert_step
        rw [if_pos hb]
      rw [hstep, ih]
      simp only [true_or, true_iff]
      exact Or.inr ⟨i, List.mem_cons_self _ _, hb⟩
    · have hstep : insert_step hash m key (b, ch) i = (b, ch) := by
        unfold insert_step
        rw [if_neg hb]
      rw [hstep, ih]
      simp only [List.mem_cons, exists_eq_or_imp, hb, false_or, Bool.true_eq_false]

theorem insert_k (f : BloomFilter) : (f.insert hash m key).1.k_ = f.k_ := rfl

theorem insert_bits (f : BloomFilter) (p : Nat) :
    (f.insert hash m key).1.bits_ p = true ↔
      f.bits_ p = true ∨ ∃ i, i < f.k_ ∧ p = hash key i % m := by
  unfold BloomFilter.insert
  dsimp only
  rw [fold_bits]
  simp only [List.mem_range]

theorem contains_iff (f : BloomFilter) :
    f.contains hash m key = true ↔ ∀ i, i < f.k_ → f.bits_ (hash key i % m) = true := by
  unfold BloomFilter.contains
  simp only [List.all_eq_true, List.mem_range]

theorem insert_changed (f : BloomFilter) :
    (f.insert hash m key).2 = false ↔ f.contains hash m key = true := by
  rw [contains_iff, ← Bool.not_eq_true, show (f.insert hash m key).2
    = ((List.range f.k_).foldl (insert_step hash m key) (f.bits_, false)).2 from rfl,
    fold_changed]
  simp only [Bool.false_eq_true, false_or, List.mem_range, not_exists, not_and,
    Bool.not_eq_false]

theorem contains_insert_mono {key1 : Key} (f : BloomFilter)
    (h : f.contains hash m key = true) : (f.insert hash m key1).1.contains hash m key = true := by
  rw [contains_iff] at h ⊢
  intro i hi
  rw [insert_bits]
  exact Or.inl (h i hi)

theorem contains_insert_self (f : BloomFilter) :
    (f.insert hash m key).1.contains hash m key = true := by
  rw [contains_iff]
  intro i hi
  rw [insert_bits]
  exact Or.inr ⟨i, hi, rfl⟩

theorem contains_fold :
    ∀ (keys : List Key) (f : BloomFilter),
      (key ∈ keys ∨ f.contains hash m key = true) →
      (keys.foldl (fun f item => (f.insert hash m item).1) f).contains hash m key = true := by
  intro keys
  induction keys with
  | nil =>
    intro f h
    rcases h with h | h
    · cases h
    · exact h
  | cons k keys ih =>
    intro f h
    rw [List.foldl_cons]
    apply ih
    rcases h with h | h
    · rcases List.mem_cons.mp h with rfl | h
      · exact Or.inr (contains_insert_self f)
      · exact Or.inl h
    · exact Or.inr (contains_insert_mono f h)

end Filter

/-- C20 (no false negatives): for every hash function, every bit count `m >= 1` and every
`num_hashes`, the empty filter has `k_ = num_hashes`, or 1 when `num_hashes` is 0; every
position tested or set is below `m`; after any sequence of `insert` calls on the empty
filter `contains(key)` is true for every key that was inserted, whatever was inserted after
it; `insert` never clears a bit and keeps `k_`; and on every filter `insert(key)` returns
false exactly when `contains(key)` was true before the call. -/
theorem no_false_negatives {Key : Type} (hash : Key → Nat → Nat) (m : Nat) (hm : 1 ≤ m)
    (num_hashes : Nat) :
    (BloomFilter.empty num_hashes).k_ = (if num_hashes = 0 then 1 else num_hashes) ∧
    (∀ key i, hash key i % m < m) ∧
    (∀ (items : List Key) (key : Key), key ∈ items →
      (BloomFilter.of_items hash m items num_hashes).contains hash m key = true) ∧
    (∀ (f : BloomFilter) (key : Key) (p : Nat), f.bits_ p = true →
      (f.insert hash m key).1.bits_ p = true) ∧
    (∀ (f : BloomFilter) (key : Key), (f.insert hash m key).1.k_ = f.k_) ∧
    (∀ (f : BloomFilter) (key key1 : Key), f.contains hash m key = true →
      (f.insert hash m key1).1.contains hash m key = true) ∧
    (∀ (f : BloomFilter) (key : Key),
      (f.insert hash m key).1.contains hash m key = true) ∧
    (∀ (f : BloomFilter) (key : Key),
      (f.insert hash m key).2 = false ↔ f.contains hash m key = true) := by
  refine ⟨?_, fun key i => Nat.mod_lt _ (by omega), ?_, ?_, fun f key => rfl,
    fun f key key1 h => contains_insert_mono f h, fun f key => contains_insert_self f,
    fun f key => insert_changed f⟩
  · unfold BloomFilter.empty
    by_cases h : num_hashes = 0 <;> simp [h]
  · intro items key hk
    exact contains_fold items _ (Or.inl hk)
  · intro f key p hp
    exact (insert_bits f p).mpr (Or.inl hp)

theorem no_false_negatives_witness :
    (BloomFilter.empty 0).k_ = (if 0 = 0 then 1 else 0) ∧
    (∀ key i, sample_hash key i % 8 < 8) ∧
    (∀ (items : List Nat) (key : Nat), key ∈ items →
      (BloomFilter.of_items sample_hash 8 items 0).contains sample_hash 8 key = true) ∧
    (∀ (f : BloomFilter) (key : Nat) (p : Nat), f.bits_ p = true →
      (f.insert sample_hash 8 key).1.bits_ p = true) ∧
    (∀ (f : BloomFilter) (key : Nat), (f.insert sample_hash 8 key).1.k_ = f.k_) ∧
    (∀ (f : BloomFilter) (key key1 : Nat), f.contains sample_hash 8 key = true →
      (f.insert sample_hash 8 key1).1.contains sample_hash 8 key = true) ∧
    (∀ (f : BloomFilter) (key : Nat),
      (f.insert sample_hash 8 key).1.contains sample_hash 8 key = true) ∧
    (∀ (f : BloomFilter) (key : Nat),
      (f.insert sample_hash 8 key).2 = false ↔ f.contains sample_hash 8 key = true) :=
  no_false_negatives sample_hash 8 (by decide) 0

end Bloom
